import Mathlib

/-!
Verification of the graph-grammar engine: a shallow embedding of the core of
`model_gen` (graph data model, attribute matching, subgraph matcher, the
production partition, the five-level application hierarchy, the derivation
driver's cap logic, mutation error handling, and element iteration), together
with theorems settling the specification claims.

Python objects are compared by identity, so graph elements are modelled as
records owned by a store keyed by numeric ids; Python `dict`s are modelled as
insertion-ordered association lists; exceptions are modelled with `Except`.
-/

set_option linter.unusedVariables false

namespace ModelGen

/-! Element ids are `Nat`, standing in for Python object identity. -/

/-- Python attribute values (the subset the engine manipulates). -/
inductive Attr where
  | s (v : String)
  | i (v : Int)
  | b (v : Bool)
  deriving DecidableEq, Repr

/-- Python `==` on attribute values, including bool/int numeric equality. -/
def pyEqAttr : Attr → Attr → Bool
  | Attr.s a, Attr.s c => a == c
  | Attr.i a, Attr.i c => a == c
  | Attr.b a, Attr.b c => a == c
  | Attr.i a, Attr.b c => a == (if c then 1 else 0)
  | Attr.b a, Attr.i c => (if a then (1 : Int) else 0) == c
  | _, _ => false

/-- Python truthiness of an attribute value. -/
def pyTruthy : Attr → Bool
  | Attr.s v => !(v == "")
  | Attr.i v => !(v == 0)
  | Attr.b v => v

/-- The Python exceptions raised by the embedded code.  `fuelExhausted` is a
modelling artefact for loops whose termination is proved separately; it never
occurs in any run appearing in a theorem. -/
inductive PyErr where
  | keyError
  | typeError
  | valueError
  | argumentError
  | incongruentState
  | attributeError
  | fuelExhausted
  deriving DecidableEq, Repr

/-- Python dict as an insertion-ordered association list: first-match lookup. -/
def dget? {α β : Type} [DecidableEq α] : List (α × β) → α → Option β
  | [], _ => none
  | (k', v) :: r, k => if k' = k then some v else dget? r k

/-- `k in d` for a Python dict. -/
def dhas {α β : Type} [DecidableEq α] (m : List (α × β)) (k : α) : Bool :=
  (dget? m k).isSome

/-- `d[k] = v`: update in place, preserving insertion order, else append. -/
def dset {α β : Type} [DecidableEq α] : List (α × β) → α → β → List (α × β)
  | [], k, v => [(k, v)]
  | (k', v') :: r, k, v =>
    if k' = k then (k, v) :: r else (k', v') :: dset r k v

/-- `d.values()` of a Python dict. -/
def dvalues {α β : Type} (m : List (α × β)) : List β := m.map Prod.snd

/-- `d.keys()` of a Python dict. -/
def dkeys {α β : Type} (m : List (α × β)) : List α := m.map Prod.fst

/-- `d.popitem()`: remove and return the last (most recently inserted) pair. -/
def dpopLast {α β : Type} (m : List (α × β)) : Option ((α × β) × List (α × β)) :=
  match m.getLast? with
  | none => none
  | some p => some (p, m.dropLast)

/-- Lookup in the `inverse` of a `UniqueBidict`: the inverse dict is rebuilt on
every `__setitem__`, so a value occurring several times resolves to the key
that wrote it last. -/
def dinvGet? {α β : Type} [DecidableEq β] : List (α × β) → β → Option α
  | [], _ => none
  | (k, v') :: r, v =>
    match dinvGet? r v with
    | some k2 => some k2
    | none => if v' = v then some k else none

/-- `v in d.inverse` for a `UniqueBidict`. -/
def dinvHas {α β : Type} [DecidableEq β] (m : List (α × β)) (v : β) : Bool :=
  (dinvGet? m v).isSome

/-! The graph element model: `Vertex`, `Edge`, `Face` share a record; the
fields not belonging to an element's kind stay at their defaults, mirroring
Python attributes that simply do not exist on the object. -/

inductive EKind where
  | vertex
  | edge
  | face
  deriving DecidableEq, Repr

/-- A graph element: the union of the `Vertex`, `Edge` and `Face` fields.
`attr` is the attribute dict, `edges` the vertex's incident-edge set (in
iteration order), `vertex1`/`vertex2` the edge endpoints, `fvertices` and
`fedges` the face boundary. -/
structure GElem where
  kind : EKind
  attr : List (String × Attr)
  edges : List Nat
  vertex1 : Option Nat
  vertex2 : Option Nat
  fvertices : List Nat
  fedges : List Nat
  deriving DecidableEq, Repr

/-- A fresh vertex element. -/
def mkVertex (attr : List (String × Attr)) (edges : List Nat) : GElem :=
  ⟨EKind.vertex, attr, edges, none, none, [], []⟩

/-- A fresh edge element. -/
def mkEdge (attr : List (String × Attr)) (v1 v2 : Option Nat) : GElem :=
  ⟨EKind.edge, attr, [], v1, v2, [], []⟩

/-- A fresh face element. -/
def mkFace (attr : List (String × Attr)) (vs es : List Nat) : GElem :=
  ⟨EKind.face, attr, [], none, none, vs, es⟩

/-- `GraphElement.neighbours` of each kind: a vertex lists its incident edges,
an edge its present endpoints (`vertex1` before `vertex2`), a face its
boundary vertices then boundary edges. -/
def GElem.neighbours (e : GElem) : List Nat :=
  match e.kind with
  | EKind.vertex => e.edges
  | EKind.edge => e.vertex1.toList ++ e.vertex2.toList
  | EKind.face => e.fvertices ++ e.fedges

/-- The object store: all live graph elements, keyed by id.  `next` is the
allocation bound: every id in use is below it. -/
structure Store where
  elems : List (Nat × GElem)
  next : Nat
  deriving Repr

def Store.find? (st : Store) (i : Nat) : Option GElem := dget? st.elems i

/-- Dereference an id.  Python references always point at live objects, so
under the well-formedness hypotheses of the theorems the default is never
taken. -/
def Store.get (st : Store) (i : Nat) : GElem :=
  (st.find? i).getD (mkVertex [] [])

/-- In-place mutation of the element behind an id. -/
def Store.set (st : Store) (i : Nat) (g : GElem) : Store :=
  ⟨dset st.elems i g, st.next⟩

/-- Allocate a fresh element, returning its id. -/
def Store.alloc (st : Store) (g : GElem) : Store × Nat :=
  (⟨st.elems ++ [(st.next, g)], st.next + 1⟩, st.next)

/-- All ids in use are below the allocation bound and are distinct. -/
def Store.wf (st : Store) : Prop :=
  (∀ p ∈ st.elems, p.1 < st.next) ∧ (dkeys st.elems).Nodup

/-- A `Graph`: the owned id collections (`vertices`, `edges`, `faces`). -/
structure PyGraph where
  vertices : List Nat
  edges : List Nat
  faces : List Nat
  deriving DecidableEq, Repr

/-- `element_list('vef')`: vertices, then edges, then faces. -/
def PyGraph.elemsVef (g : PyGraph) : List Nat := g.vertices ++ g.edges ++ g.faces

/-- `len(graph)`. -/
def PyGraph.size (g : PyGraph) : Nat :=
  g.vertices.length + g.edges.length + g.faces.length

/-- `element in graph`. -/
def PyGraph.mem (g : PyGraph) (i : Nat) : Bool :=
  g.vertices.contains i || g.edges.contains i || g.faces.contains i

/-! ## `GraphElement.matches` (attribute matching)

`matches(candidate, pattern, eval_attr)` walks the pattern's attribute dict,
skipping the keys `x`, `y` and every reserved-prefix (leading dot) key.  In
equality mode a missing candidate key raises `KeyError`, which the function
catches and turns into `False`; values are compared with Python `==`.  In
eval mode the pattern value is evaluated as an expression with the
candidate's value and attribute dict bound; the evaluator is a parameter
`ev pval cval cattrs` covering the embedded `eval` call, and a `KeyError` it
raises is caught by the same handler. -/

/-- `s.startswith(pre)`, computed on the character lists (kernel-reducible
model of `str.startswith`). -/
def listPre : List Char → List Char → Bool
  | [], _ => true
  | _ :: _, [] => false
  | c :: cs, d :: ds => c == d && listPre cs ds

def strHasPre (pre s : String) : Bool := listPre pre.data s.data

/-- Keys excluded from attribute comparison. -/
def skipKey (k : String) : Bool :=
  k == "x" || k == "y" || strHasPre "." k

/-- The comparison loop of `GraphElement.matches` with `eval_attr=False`. -/
def matchesAttrsEq (cattrs : List (String × Attr)) :
    List (String × Attr) → Bool
  | [] => true
  | (k, v) :: rest =>
    if skipKey k then matchesAttrsEq cattrs rest
    else
      match dget? cattrs k with
      | none => false
      | some w => if pyEqAttr w v then matchesAttrsEq cattrs rest else false

/-- The comparison loop of `GraphElement.matches` with `eval_attr=True`.
An evaluator `KeyError` is caught (like a missing candidate key) and yields
`False`; any other evaluator exception propagates. -/
def matchesAttrsEval (ev : Attr → Attr → List (String × Attr) → Except PyErr Bool)
    (cattrs : List (String × Attr)) :
    List (String × Attr) → Except PyErr Bool
  | [] => Except.ok true
  | (k, v) :: rest =>
    if skipKey k then matchesAttrsEval ev cattrs rest
    else
      match dget? cattrs k with
      | none => Except.ok false
      | some w =>
        match ev v w cattrs with
        | Except.error PyErr.keyError => Except.ok false
        | Except.error e => Except.error e
        | Except.ok r => if r then matchesAttrsEval ev cattrs rest else Except.ok false

/-- `candidate.matches(pattern)` — the two-argument call, in which
`eval_attr` defaults to `False` (the only form a `Face` accepts).  The kind
dispatch of `Vertex.matches` / `Edge.matches` / `Face.matches` returns
`False` for differing kinds before any attribute is compared. -/
def pyMatchesDefault (c p : GElem) : Bool :=
  if c.kind ≠ p.kind then false else matchesAttrsEq c.attr p.attr

/-- `candidate.matches(pattern, eval_attr)` — the three-argument call.
`Face.matches` takes no `eval_attr` parameter, so passing one to a face
candidate raises `TypeError` before the body runs. -/
def pyMatchesArg (ev : Attr → Attr → List (String × Attr) → Except PyErr Bool)
    (c p : GElem) (evalAttr : Bool) : Except PyErr Bool :=
  if c.kind = EKind.face then Except.error PyErr.typeError
  else if c.kind ≠ p.kind then Except.ok false
  else if evalAttr then matchesAttrsEval ev c.attr p.attr
  else Except.ok (matchesAttrsEq c.attr p.attr)

/-! ## `Graph.AllElemIter` (connected-order iteration)

The iterator yields a first element, then breadth-first neighbours of already
yielded elements, falling back to an arbitrary unvisited vertex or edge when
the queue runs dry; it stops when `len(marked)` reaches
`len(vertices) + len(edges)`. -/

/-- `AllElemIter._get_first_element`, verbatim — including the misprinted
third branch that tests `edges` a second time instead of `faces`, making the
face case unreachable. -/
def getFirstElement (g : PyGraph) : Option Nat :=
  if g.vertices.length > 0 then g.vertices.head?
  else if g.edges.length > 0 then g.edges.head?
  else if g.edges.length > 0 then g.faces.head?
  else none

/-- Iterator state: the marked set, the unvisited deque, and the total length
`len(vertices) + len(edges)` captured at construction. -/
structure IterSt where
  marked : List Nat
  queue : List Nat
  total : Nat
  deriving Repr

def iterInit (g : PyGraph) : IterSt :=
  ⟨[], (getFirstElement g).toList, g.vertices.length + g.edges.length⟩

/-- The popleft-while-marked loop at the top of `__next__`: pops entries until
an unmarked one appears; pops the whole deque if all entries are marked. -/
def popSkip (marked : List Nat) : List Nat → Option (Nat × List Nat)
  | [] => none
  | x :: rest => if marked.contains x then popSkip marked rest else some (x, rest)

/-- `AllElemIter._get_unconnected_element`: an unmarked vertex, else an
unmarked edge, provided fewer than `total` elements are marked; `none` models
the `StopIteration` it raises otherwise. -/
def getUnconnected (g : PyGraph) (s : IterSt) : Option Nat :=
  if s.marked.length < s.total then
    match g.vertices.find? (fun v => !(s.marked.contains v)) with
    | some v => some v
    | none => g.edges.find? (fun e => !(s.marked.contains e))
  else none

/-- One `__next__` call: `none` models `StopIteration`.  The yielded element
is marked before its unmarked neighbours are appended to the deque. -/
def iterNext (st : Store) (g : PyGraph) (s : IterSt) : Option (Nat × IterSt) :=
  match popSkip s.marked s.queue with
  | some (x, q) =>
    let marked := x :: s.marked
    let nbs := (st.get x).neighbours.filter (fun n => !(marked.contains n))
    some (x, ⟨marked, q ++ nbs, s.total⟩)
  | none =>
    match getUnconnected g s with
    | none => none
    | some x =>
      let marked := x :: s.marked
      let nbs := (st.get x).neighbours.filter (fun n => !(marked.contains n))
      some (x, ⟨marked, nbs, s.total⟩)

/-- Drive the iterator to exhaustion.  The fuel is a modelling artefact: the
Python loop terminates because every yield marks a previously unmarked
element; `fuelExhausted` never occurs at the fuel used by `elementListConnected`. -/
def iterRun (st : Store) (g : PyGraph) : Nat → IterSt → Except PyErr (List Nat)
  | 0, _ => Except.error PyErr.fuelExhausted
  | fuel + 1, s =>
    match iterNext st g s with
    | none => Except.ok []
    | some (x, s') => (iterRun st g fuel s').map (fun l => x :: l)

def iterFuel (st : Store) (g : PyGraph) : Nat :=
  g.vertices.length + g.edges.length +
    (st.elems.map (fun p => p.2.neighbours.length)).sum + 1

/-- `element_list('connected')`: collect the full iteration. -/
def elementListConnected (st : Store) (g : PyGraph) : Except PyErr (List Nat) :=
  iterRun st g (iterFuel st g) (iterInit g)

/-- `Graph.get_any_element()`: the first element the iterator yields, which
is exactly `_get_first_element` (the seed is unmarked on the first call). -/
def getAnyElement (g : PyGraph) : Option Nat :=
  getFirstElement g

/-! ## `add_to` / `delete_from` and `Graph.add` / `Graph.discard`

The `ignore_errors` argument is `Option (List Nat)`: Python's default `None`
raises `TypeError` the moment a violation tests membership in it. -/

/-- `elem not in ignore_errors`. -/
def notInIgnore (ig : Option (List Nat)) (i : Nat) : Except PyErr Bool :=
  match ig with
  | none => Except.error PyErr.typeError
  | some l => Except.ok (!(l.contains i))

/-- Python `set.add`. -/
def pySetAdd (l : List Nat) (x : Nat) : List Nat :=
  if l.contains x then l else l ++ [x]

/-- Python `list.remove`: drops the first occurrence, `ValueError` if absent. -/
def listRemove (l : List Nat) (x : Nat) : Except PyErr (List Nat) :=
  if l.contains x then Except.ok (l.erase x) else Except.error PyErr.valueError

/-- `raise` test against the ignore set: `ok ()` when no error is raised
(the membership test against a `None` ignore set still raises `TypeError`).
Models the two-line pattern `if elem not in ignore_errors: raise …`. -/
def raiseUnlessIgnored (ig : Option (List Nat)) (i : Nat) : Except PyErr Unit :=
  match notInIgnore ig i with
  | Except.error er => Except.error er
  | Except.ok true => Except.error PyErr.incongruentState
  | Except.ok false => Except.ok ()

/-- `if elem not in graph_collection and elem not in ignore_errors: raise`. -/
def addToCheck (coll : List Nat) (ig : Option (List Nat)) (i : Nat) :
    Except PyErr Unit :=
  if !(coll.contains i) then raiseUnlessIgnored ig i else Except.ok ()

/-- The per-edge body of `Vertex.add_to`: unexempted references to edges
outside the graph, or to full edges that do not reference the vertex back,
raise `IncongruentGraphState`; an edge with a free endpoint adopts the
vertex. -/
def vertexAddToLoop (g : PyGraph) (vId : Nat) (ig : Option (List Nat)) :
    Store → List Nat → Except PyErr Store
  | st, [] => Except.ok st
  | st, eId :: rest =>
    match addToCheck g.edges ig eId with
    | Except.error er => Except.error er
    | Except.ok _ =>
      let e := st.get eId
      if !(e.neighbours.contains vId) then
        if e.vertex1 = none then
          vertexAddToLoop g vId ig (st.set eId { e with vertex1 := some vId }) rest
        else if e.vertex2 = none then
          vertexAddToLoop g vId ig (st.set eId { e with vertex2 := some vId }) rest
        else
          match raiseUnlessIgnored ig eId with
          | Except.error er => Except.error er
          | Except.ok _ => vertexAddToLoop g vId ig st rest
      else
        vertexAddToLoop g vId ig st rest

/-- `Vertex.add_to`: the vertex joins `graph.vertices` first, then its edge
references are checked. -/
def vertexAddTo (st : Store) (g : PyGraph) (vId : Nat) (ig : Option (List Nat)) :
    Except PyErr (Store × PyGraph) := do
  let g1 : PyGraph := ⟨g.vertices ++ [vId], g.edges, g.faces⟩
  let st1 ← vertexAddToLoop g1 vId ig st (st.get vId).edges
  pure (st1, g1)

/-- The per-endpoint body of `Edge.add_to`. -/
def edgeAddToLoop (g : PyGraph) (eId : Nat) (ig : Option (List Nat)) :
    Store → List Nat → Except PyErr Store
  | st, [] => Except.ok st
  | st, v :: rest =>
    match addToCheck g.vertices ig v with
    | Except.error er => Except.error er
    | Except.ok _ =>
      let ve := st.get v
      edgeAddToLoop g eId ig (st.set v { ve with edges := pySetAdd ve.edges eId }) rest

/-- `Edge.add_to`: the edge joins `graph.edges` first, then each present
endpoint must be in the graph (or exempted) and adopts the edge. -/
def edgeAddTo (st : Store) (g : PyGraph) (eId : Nat) (ig : Option (List Nat)) :
    Except PyErr (Store × PyGraph) := do
  let g1 : PyGraph := ⟨g.vertices, g.edges ++ [eId], g.faces⟩
  let st1 ← edgeAddToLoop g1 eId ig st (st.get eId).neighbours
  pure (st1, g1)

/-- The per-edge body of `Vertex.delete_from`: an incident edge referencing
the vertex drops that endpoint; one not referencing it back must be
exempted. -/
def vertexDeleteLoop (vId : Nat) (ig : Option (List Nat)) :
    Store → List Nat → Except PyErr Store
  | st, [] => Except.ok st
  | st, eId :: rest =>
    let e := st.get eId
    if e.neighbours.contains vId then
      let e1 := if e.vertex1 = some vId then { e with vertex1 := none } else e
      let e2 := if e1.vertex2 = some vId then { e1 with vertex2 := none } else e1
      vertexDeleteLoop vId ig (st.set eId e2) rest
    else
      match raiseUnlessIgnored ig eId with
      | Except.error er => Except.error er
      | Except.ok _ => vertexDeleteLoop vId ig st rest

/-- `Vertex.delete_from`. -/
def vertexDeleteFrom (st : Store) (g : PyGraph) (vId : Nat) (ig : Option (List Nat)) :
    Except PyErr (Store × PyGraph) := do
  let vs ← listRemove g.vertices vId
  let st1 ← vertexDeleteLoop vId ig st (st.get vId).edges
  pure (st1, ⟨vs, g.edges, g.faces⟩)

/-- One endpoint visit of `Edge.delete_from`: an endpoint listing the edge
drops it from its incident set; one not listing it must be exempted. -/
def edgeDeleteVisit (eId : Nat) (ig : Option (List Nat)) (st : Store) :
    Option Nat → Except PyErr Store
  | none => Except.ok st
  | some v =>
    let ve := st.get v
    if ve.edges.contains eId then
      Except.ok (st.set v { ve with edges := ve.edges.erase eId })
    else
      match raiseUnlessIgnored ig v with
      | Except.error er => Except.error er
      | Except.ok _ => Except.ok st

/-- `Edge.delete_from`. -/
def edgeDeleteFrom (st : Store) (g : PyGraph) (eId : Nat) (ig : Option (List Nat)) :
    Except PyErr (Store × PyGraph) := do
  let es ← listRemove g.edges eId
  let e := st.get eId
  let st1 ← edgeDeleteVisit eId ig st e.vertex1
  let st2 ← edgeDeleteVisit eId ig st1 e.vertex2
  pure (st2, ⟨g.vertices, es, g.faces⟩)

/-- Kind dispatch of `element.add_to(graph, ignore_errors)`; `Face.add_to`
only appends. -/
def elemAddTo (st : Store) (g : PyGraph) (i : Nat) (ig : Option (List Nat)) :
    Except PyErr (Store × PyGraph) :=
  match (st.get i).kind with
  | EKind.vertex => vertexAddTo st g i ig
  | EKind.edge => edgeAddTo st g i ig
  | EKind.face => Except.ok (st, ⟨g.vertices, g.edges, g.faces ++ [i]⟩)

/-- Kind dispatch of `element.delete_from(graph, ignore_errors)`. -/
def elemDeleteFrom (st : Store) (g : PyGraph) (i : Nat) (ig : Option (List Nat)) :
    Except PyErr (Store × PyGraph) :=
  match (st.get i).kind with
  | EKind.vertex => vertexDeleteFrom st g i ig
  | EKind.edge => edgeDeleteFrom st g i ig
  | EKind.face => do
    let fs ← listRemove g.faces i
    pure (st, ⟨g.vertices, g.edges, fs⟩)

/-- Python `int(value)` on an attribute value. -/
def pyInt : Attr → Except PyErr Int
  | Attr.i v => Except.ok v
  | Attr.b v => Except.ok (if v then 1 else 0)
  | Attr.s v =>
    match v.toInt? with
    | some n => Except.ok n
    | none => Except.error PyErr.valueError

/-- The loop of `get_max_generation`: maximum of the `.generation` attributes,
starting from 0; a missing attribute raises `KeyError`. -/
def maxGenLoop (st : Store) : Int → List Nat → Except PyErr Int
  | acc, [] => Except.ok acc
  | acc, i :: rest =>
    match dget? (st.get i).attr ".generation" with
    | none => Except.error PyErr.keyError
    | some a => do
      let n ← pyInt a
      maxGenLoop st (if acc < n then n else acc) rest

def getMaxGenerationList (st : Store) (l : List Nat) : Except PyErr Int :=
  maxGenLoop st 0 l

/-- `Graph.add`: stamp `.generation` (the current maximum among the graph's
elements, read through the connected-order iterator) when absent, then
dispatch to `add_to`. -/
def pyGraphAdd (st : Store) (g : PyGraph) (i : Nat) (ig : Option (List Nat)) :
    Except PyErr (Store × PyGraph) := do
  let el := st.get i
  if dhas el.attr ".generation" then
    elemAddTo st g i ig
  else do
    let elems ← elementListConnected st g
    let gen ← getMaxGenerationList st elems
    let st1 := st.set i { el with attr := dset el.attr ".generation" (Attr.i gen) }
    elemAddTo st1 g i ig

/-- `Graph.discard`. -/
def pyGraphDiscard (st : Store) (g : PyGraph) (i : Nat) (ig : Option (List Nat)) :
    Except PyErr (Store × PyGraph) :=
  elemDeleteFrom st g i ig

/-! ## `ProductionOption.__init__` (the partition, claim C4) -/

/-- The mother-side loop of `ProductionOption.__init__`: in `'vef'` order,
an unmapped mother element goes to `to_remove`; a mapped one contributes its
daughter image to `to_change`, and a mapped mother *edge* contributes
`(edge, vertex)` to `edge_conn_to_remove` for every mapped endpoint whose
image is no longer adjacent to the edge's image in the daughter. -/
def edgeConnsOf (st : Store) (mapping : List (Nat × Nat)) (m d : Nat) :
    List (Nat × Nat) :=
  if (st.get m).kind = EKind.edge then
    (st.get m).neighbours.filterMap (fun v =>
      match dget? mapping v with
      | some dv =>
        if !((st.get d).neighbours.contains dv) then some (m, v) else none
      | none => none)
  else []

def partitionMother (st : Store) (mapping : List (Nat × Nat)) :
    List Nat → List Nat × List Nat × List (Nat × Nat)
  | [] => ([], [], [])
  | m :: rest =>
    let t := partitionMother st mapping rest
    match dget? mapping m with
    | some d => (t.1, d :: t.2.1, edgeConnsOf st mapping m d ++ t.2.2)
    | none => (m :: t.1, t.2.1, t.2.2)

/-- A `ProductionOption`, with the partition computed once at construction. -/
structure POption where
  motherGraph : PyGraph
  daughterGraph : PyGraph
  mapping : List (Nat × Nat)
  weight : Nat
  toRemove : List Nat
  toChange : List Nat
  toAdd : List Nat
  edgeConnToRemove : List (Nat × Nat)
  deriving Repr

/-- `ProductionOption.__init__` (the partition part): `to_add` is the
daughter elements absent from the mapping's inverse. -/
def mkPOption (st : Store) (mother daughter : PyGraph)
    (mapping : List (Nat × Nat)) (weight : Nat) : POption :=
  let (tr, tc, ec) := partitionMother st mapping mother.elemsVef
  let ta := daughter.elemsVef.filter (fun d => !(dinvHas mapping d))
  ⟨mother, daughter, mapping, weight, tr, tc, ta, ec⟩

/-! ## `ProductionApplicationHierarchy` (claim C5) -/

/-- The four stored correspondences; levels are
`R = 0, H = 1, M = 2, D = 3, C = 4`. -/
structure Hierarchy where
  hostToResult : List (Nat × Nat)
  motherToHost : List (Nat × Nat)
  motherToDaughter : List (Nat × Nat)
  daughterToCopy : List (Nat × Nat)
  deriving Repr

/-- A hierarchy level argument: an int, or a string looked up in
`hierarchy_alias` (an unknown string raises `KeyError`, the plain dict
lookup). -/
inductive LevelKey where
  | int (i : Int)
  | str (s : String)
  deriving DecidableEq, Repr

def levelOfKey : LevelKey → Except PyErr Int
  | LevelKey.int i => Except.ok i
  | LevelKey.str s =>
    if s = "R" then Except.ok 0
    else if s = "H" then Except.ok 1
    else if s = "M" then Except.ok 2
    else if s = "D" then Except.ok 3
    else if s = "C" then Except.ok 4
    else Except.error PyErr.keyError

/-- `self.movements[level][action][element]`: the stored mapping (or its
`UniqueBidict` inverse) for one hop; a missing entry is the `KeyError` the
caller catches, modelled as `ok none`.  The two `None` table entries
(`movements[4]['up']`, `movements[0]['down']`) would raise `TypeError` if
subscripted; they are unreachable from `map`. -/
def movementLookup (h : Hierarchy) (level : Int) (up : Bool) (e : Nat) :
    Except PyErr (Option Nat) :=
  if up then
    if level = 0 then Except.ok (dinvGet? h.hostToResult e)
    else if level = 1 then Except.ok (dinvGet? h.motherToHost e)
    else if level = 2 then Except.ok (dget? h.motherToDaughter e)
    else if level = 3 then Except.ok (dget? h.daughterToCopy e)
    else Except.error PyErr.typeError
  else
    if level = 1 then Except.ok (dget? h.hostToResult e)
    else if level = 2 then Except.ok (dget? h.motherToHost e)
    else if level = 3 then Except.ok (dinvGet? h.motherToDaughter e)
    else if level = 4 then Except.ok (dinvGet? h.daughterToCopy e)
    else Except.error PyErr.typeError

/-- `ProductionApplicationHierarchy.map` on integer levels: bounds-checked,
identity when the levels coincide, otherwise one hop towards the target and
recurse; a missing hop yields `ok none`. -/
def hmapInt (h : Hierarchy) (e : Nat) (s t : Int) : Except PyErr (Option Nat) :=
  if t < 0 ∨ 4 < t then Except.error PyErr.argumentError
  else if s < 0 ∨ 4 < s then Except.error PyErr.argumentError
  else if hst : s = t then Except.ok (some e)
  else if hlt : s < t then
    match movementLookup h s true e with
    | Except.error er => Except.error er
    | Except.ok none => Except.ok none
    | Except.ok (some r) => hmapInt h r (s + 1) t
  else
    match movementLookup h s false e with
    | Except.error er => Except.error er
    | Except.ok none => Except.ok none
    | Except.ok (some r) => hmapInt h r (s - 1) t
termination_by (s - t).natAbs
decreasing_by
  all_goals simp_wf
  all_goals omega

/-- `ProductionApplicationHierarchy.map`: string aliases are resolved first
(source before target), then the integer-level recursion runs. -/
def hmap (h : Hierarchy) (e : Nat) (src tgt : LevelKey) : Except PyErr (Option Nat) :=
  match levelOfKey src, levelOfKey tgt with
  | Except.error er, _ => Except.error er
  | Except.ok _, Except.error er => Except.error er
  | Except.ok s, Except.ok t => hmapInt h e s t

/-- `map_sequence` in its all-same-levels form. -/
def hmapSequence (h : Hierarchy) (elems : List Nat) (src tgt : LevelKey) :
    Except PyErr (List (Option Nat)) :=
  elems.mapM (fun e => hmap h e src tgt)

/-! ## `Grammar` cap logic (claim C7)

`Production.match` and the per-group `random.shuffle` are parameters: the
claim is about the cap bookkeeping of `_find_matching_production` and of the
`apply` loop, not about the matcher. -/

/-- The skip test of `_find_matching_production`:
`priority in max_steps and step_counts[priority] >= max_steps[priority]`. -/
def groupCapped (maxStepsP : List (Int × Nat)) (stepCounts : Int → Nat)
    (priority : Int) : Bool :=
  match dget? maxStepsP priority with
  | some cap => decide (cap ≤ stepCounts priority)
  | none => false

/-- Insertion sort on ints, for `sorted(grouped_productions.keys())`. -/
def insSorted : Int → List Int → List Int
  | x, [] => [x]
  | x, y :: r => if x ≤ y then x :: y :: r else y :: insSorted x r

def sortInts : List Int → List Int
  | [] => []
  | x :: r => insSorted x (sortInts r)

/-- The inner production scan: first production (in shuffled order) with a
non-empty match list. -/
def firstMatchingIn (matchFn : Nat → List (List (Nat × Nat))) :
    List Nat → Option (Nat × List (List (Nat × Nat)))
  | [] => none
  | p :: rest =>
    let ms := matchFn p
    if ms.isEmpty then firstMatchingIn matchFn rest else some (p, ms)

/-- The priority scan of `_find_matching_production` over sorted keys. -/
def fmpGo (grouped : List (Int × List Nat)) (shuffle : Int → List Nat → List Nat)
    (matchFn : Nat → List (List (Nat × Nat)))
    (stepCounts : Int → Nat) (maxStepsP : List (Int × Nat)) :
    List Int → Option (Nat × List (List (Nat × Nat)))
  | [] => none
  | pr :: rest =>
    if groupCapped maxStepsP stepCounts pr then
      fmpGo grouped shuffle matchFn stepCounts maxStepsP rest
    else
      match firstMatchingIn matchFn (shuffle pr ((dget? grouped pr).getD [])) with
      | some res => some res
      | none => fmpGo grouped shuffle matchFn stepCounts maxStepsP rest

/-- `Grammar._find_matching_production`: scan priority groups ascending,
skipping capped groups; within a group scan productions in shuffled order and
take the first with at least one match. -/
def findMatchingProduction (grouped : List (Int × List Nat))
    (shuffle : Int → List Nat → List Nat)
    (matchFn : Nat → List (List (Nat × Nat)))
    (stepCounts : Int → Nat) (maxStepsP : List (Int × Nat)) :
    Option (Nat × List (List (Nat × Nat))) :=
  fmpGo grouped shuffle matchFn stepCounts maxStepsP (sortInts (dkeys grouped))

/-- The wildcard-cap stop test at the bottom of the `Grammar.apply` loop:
`max_steps['all'] != 0 and max_steps['all'] <= step_counts['all']`. -/
def applyAllCapReached (capAll countAll : Nat) : Bool :=
  decide (capAll ≠ 0 ∧ capAll ≤ countAll)

/-! ## `Graph.match` (the subgraph matcher, claims C1 and C2)

The embedding covers the call `match(H, P)` of the claims: `geometric_order`
is the default `None` (the geometric filter never runs); `eval_attrs` is
explicit, with the expression evaluator a parameter.  A `Mapping` in flight
is an insertion-ordered association list pattern-id → host-id, and the
frontier (`unmapped_elements`) maps an unmapped pattern element to its
already-mapped parent.  The Python `while task_list` treats the list as a
stack (`pop()` takes the last item); the embedding keeps the stack top at the
head and reverses batch pushes, so tasks are processed in the same order. -/

abbrev MapA := List (Nat × Nat)

abbrev EvalFn := Attr → Attr → List (String × Attr) → Except PyErr Bool

/-- The inner loop of `Graph.check_matching` for one mapped pair: every
pattern neighbour must be mapped (`matching[...]`, whose `KeyError`
propagates) onto a neighbour of the pair's host element. -/
def checkMatchingPair (st : Store) (mapping : MapA) (he : Nat) :
    List Nat → Except PyErr Bool
  | [] => Except.ok true
  | mn :: rest =>
    match dget? mapping mn with
    | none => Except.error PyErr.keyError
    | some hn =>
      if (st.get he).neighbours.contains hn then
        checkMatchingPair st mapping he rest
      else Except.ok false

/-- `Graph.check_matching`: the full-adjacency check over all mapped pairs. -/
def checkMatchingGo (st : Store) (mapping : MapA) : MapA → Except PyErr Bool
  | [] => Except.ok true
  | (me, he) :: rest => do
    let ok1 ← checkMatchingPair st mapping he (st.get me).neighbours
    if ok1 then checkMatchingGo st mapping rest else Except.ok false

def checkMatching (st : Store) (mapping : MapA) : Except PyErr Bool :=
  checkMatchingGo st mapping mapping

/-- `Graph.matched_neighbours_compatible`: the images of the already-mapped
pattern neighbours of the element being matched must be neighbours of the
candidate. -/
def matchedNeighboursCompatible (st : Store) (mapping : MapA)
    (own other : Nat) : Bool :=
  (st.get other).neighbours.all (fun otherNb =>
    match dget? mapping otherNb with
    | none => true
    | some img => (st.get own).neighbours.contains img)

/-- `'.directed' in attr and attr['.directed']`. -/
def isDirectedEdge (pe : GElem) : Bool :=
  decide (pe.kind = EKind.edge) &&
    (match dget? pe.attr ".directed" with
     | some a => pyTruthy a
     | none => false)

/-- The directedness filter inside the candidate loop: when the pattern
element is a directed edge, the candidate must hold the mapped parent in the
same endpoint slot that the pattern edge holds the parent in; a parent in
neither slot raises `IncongruentGraphState`.  (`ok false` models `continue`.)
A kind-mismatched candidate would raise `AttributeError` on the Python slot
read; the model reads the record field, which is `none` on non-edges, a case
excluded by the well-formedness hypotheses of the theorems. -/
def directionCheck (st : Store) (pe : GElem) (ppId ownParentId cand : Nat) :
    Except PyErr Bool :=
  if isDirectedEdge pe then
    if pe.vertex1 = some ppId then
      Except.ok (decide ((st.get cand).vertex1 = some ownParentId))
    else if pe.vertex2 = some ppId then
      Except.ok (decide ((st.get cand).vertex2 = some ownParentId))
    else Except.error PyErr.incongruentState
  else Except.ok true

/-- The candidate loop over the neighbours of the mapped parent: apply the
direction filter, skip hosts already used by the mapping, require `matches`,
require compatibility with the already-mapped neighbours, and emit the
extended mapping. -/
def collectCandidates (st : Store) (evalAttrs : Bool) (ev : EvalFn)
    (mapping : MapA) (pe : GElem) (peId ppId ownParentId : Nat) :
    List Nat → Except PyErr (List MapA)
  | [] => Except.ok []
  | cand :: rest => do
    let dir ← directionCheck st pe ppId ownParentId cand
    if !dir then
      collectCandidates st evalAttrs ev mapping pe peId ppId ownParentId rest
    else if (dvalues mapping).contains cand then
      collectCandidates st evalAttrs ev mapping pe peId ppId ownParentId rest
    else do
      let m ← pyMatchesArg ev (st.get cand) pe evalAttrs
      if !m then
        collectCandidates st evalAttrs ev mapping pe peId ppId ownParentId rest
      else if !(matchedNeighboursCompatible st mapping cand peId) then
        collectCandidates st evalAttrs ev mapping pe peId ppId ownParentId rest
      else do
        let restMs ← collectCandidates st evalAttrs ev mapping pe peId ppId ownParentId rest
        Except.ok (dset mapping peId cand :: restMs)

/-- The frontier update: every neighbour of the newly mapped element that is
not itself mapped is keyed to it (overwriting any previous parent). -/
def extendFrontier (mapping : MapA) : MapA → Nat → List Nat → MapA
  | frontier, _, [] => frontier
  | frontier, peId, q :: rest =>
    if dhas mapping q then extendFrontier mapping frontier peId rest
    else extendFrontier mapping (dset frontier q peId) peId rest

/-- One in-flight search task: the partial mapping and its frontier. -/
structure MTask where
  mapping : MapA
  frontier : MapA
  deriving Repr

/-- `Mapping.__eq__` compares the rebuilt inverse dicts, i.e. two mappings
are equal iff they bind the same pairs, regardless of insertion order. -/
def mappingEqv (m1 m2 : MapA) : Bool :=
  m1.all (fun p => dget? m2 p.1 == some p.2) &&
    m2.all (fun p => dget? m1 p.1 == some p.2)

def resultsContains (results : List MapA) (m : MapA) : Bool :=
  results.any (fun r => mappingEqv r m)

/-- The `while task_list` loop of `Graph.match`.  A completed task must pass
`check_matching` (else `IncongruentGraphState`); a full mapping with a
non-empty frontier, or an exhausted frontier with an incomplete mapping,
raises `ValueError`.  The fuel is a modelling artefact; `matchFuel` below is
proved sufficient where the theorems need termination. -/
def matchLoop (st : Store) (psize : Nat) (evalAttrs : Bool) (ev : EvalFn) :
    Nat → List MTask → List MapA → Except PyErr (List MapA)
  | 0, _, _ => Except.error PyErr.fuelExhausted
  | _ + 1, [], results => Except.ok results
  | fuel + 1, task :: rest, results =>
    if task.mapping.length == psize && task.frontier.isEmpty then
      match checkMatching st task.mapping with
      | Except.error er => Except.error er
      | Except.ok false => Except.error PyErr.incongruentState
      | Except.ok true =>
        let results' :=
          if resultsContains results task.mapping then results
          else results ++ [task.mapping]
        matchLoop st psize evalAttrs ev fuel rest results'
    else if task.mapping.length == psize then Except.error PyErr.valueError
    else if task.frontier.isEmpty then Except.error PyErr.valueError
    else
      match dpopLast task.frontier with
      | none => Except.error PyErr.valueError
      | some ((peId, ppId), frontier1) =>
        match dget? task.mapping ppId with
        | none => Except.error PyErr.keyError
        | some ownParentId =>
          let pe := st.get peId
          match collectCandidates st evalAttrs ev task.mapping pe peId ppId
              ownParentId (st.get ownParentId).neighbours with
          | Except.error er => Except.error er
          | Except.ok possibles =>
            if possibles.isEmpty then
              matchLoop st psize evalAttrs ev fuel rest results
            else
              let newFrontier :=
                extendFrontier task.mapping frontier1 peId pe.neighbours
              let newTasks := possibles.map (fun nm => MTask.mk nm newFrontier)
              matchLoop st psize evalAttrs ev fuel (newTasks.reverse ++ rest) results

/-- The anchor loop: one seed task per host element matching the pattern's
anchor, its frontier holding the anchor's neighbours keyed to the anchor. -/
def initialTasks (st : Store) (evalAttrs : Bool) (ev : EvalFn) (anchorId : Nat) :
    List Nat → Except PyErr (List MTask)
  | [] => Except.ok []
  | own :: rest => do
    let m ← pyMatchesArg ev (st.get own) (st.get anchorId) evalAttrs
    let ts ← initialTasks st evalAttrs ev anchorId rest
    if m then
      Except.ok (MTask.mk [(anchorId, own)]
        (extendFrontier [] [] anchorId (st.get anchorId).neighbours) :: ts)
    else Except.ok ts

/-- The largest neighbour-list length in the store, bounding the branching
of one search step. -/
def maxNbLen (st : Store) : Nat :=
  (st.elems.map (fun p => p.2.neighbours.length)).foldl Nat.max 0

/-- Fuel dominating the total number of loop iterations (proved sufficient
where needed): each popped incomplete task spawns at most `maxNbLen` tasks of
smaller deficit. -/
def matchFuel (st : Store) (host pattern : PyGraph) : Nat :=
  (host.size + 1) * (maxNbLen st + 2) ^ (pattern.size + 1) + 1

/-- `Graph.match(H, P)` (with `geometric_order = None`): the anchor is the
first element the pattern's iterator yields; the host candidates are
iterated in the host's connected order;  the search then runs to
completion. -/
def graphMatch (st : Store) (host pattern : PyGraph) (evalAttrs : Bool)
    (ev : EvalFn) : Except PyErr (List MapA) :=
  match getAnyElement pattern with
  | none => Except.ok []
  | some anchorId => do
    let anchors ← elementListConnected st host
    let tasks ← initialTasks st evalAttrs ev anchorId anchors
    matchLoop st pattern.size evalAttrs ev (matchFuel st host pattern)
      tasks.reverse []

/-! ## `Production.apply` (the rewrite engine, claim C3)

`Production.apply` picks an option (`select_option`, a weighted `randint`
draw) and rewrites a fresh copy of the host.  The frame property holds for
every option, so the embedding takes the chosen option as an argument.  The
runtime-evaluated pieces — the daughter attribute expressions, the `.new_pos`
expressions and the floating-point placement `_calculate_new_position` — are
parameters (`ApplyFns`); they compute values from ids and cannot write the
store, exactly like the Python `eval` of a side-effect-free expression. -/

/-- Modelled from the spec: `non_recursive_copy` is imported by
`productions.py` from `model_gen.graph` but missing from the source tree.
The spec describes the `Result ↔ Host` and `Daughter ↔ Copy` links it
establishes as structural copies with a recorded correspondence: every
element of the graph gets a fresh copy (attributes copied verbatim,
adjacency references re-pointed at the sibling copies through the recorded
mapping, references to elements outside the copied graph kept as they are),
and the mapping original → copy is returned. -/
def allocCopies : Store → List Nat → Store × List (Nat × Nat)
  | st, [] => (st, [])
  | st, i :: rest =>
    let (st1, ni) := st.alloc (st.get i)
    let (st2, m) := allocCopies st1 rest
    (st2, (i, ni) :: m)

/-- Re-point the adjacency references of one element through a copy map,
leaving unmapped (external) references as they are. -/
def remapElem (mapping : List (Nat × Nat)) (e : GElem) : GElem :=
  { e with
    edges := e.edges.map (fun x => (dget? mapping x).getD x),
    vertex1 := e.vertex1.map (fun x => (dget? mapping x).getD x),
    vertex2 := e.vertex2.map (fun x => (dget? mapping x).getD x),
    fvertices := e.fvertices.map (fun x => (dget? mapping x).getD x),
    fedges := e.fedges.map (fun x => (dget? mapping x).getD x) }

/-- Modelled from the spec (see `allocCopies`): the structural copy of a
graph. -/
def nonRecursiveCopy (st : Store) (g : PyGraph) :
    Store × PyGraph × List (Nat × Nat) :=
  let (st1, m) := allocCopies st g.elemsVef
  let st2 := m.foldl (fun s p => s.set p.2 (remapElem m (s.get p.2))) st1
  let g1 : PyGraph :=
    ⟨g.vertices.map (fun x => (dget? m x).getD x),
     g.edges.map (fun x => (dget? m x).getD x),
     g.faces.map (fun x => (dget? m x).getD x)⟩
  (st2, g1, m)

/-- `Vertex.replace_connection` with a monadic resolver: collect the
non-`None` replacements pairwise with their originals, then remove the
originals from the incident set and add the replacements. -/
def vertexReplaceConnectionM (e : GElem)
    (f : Nat → Except PyErr (Option Nat)) : Except PyErr GElem := do
  let pairs ← e.edges.mapM (fun x => do
    let r ← f x
    pure (x, r))
  let toAdd := pairs.filterMap (fun p => p.2)
  let toRem := (pairs.filter (fun p => p.2.isSome)).map Prod.fst
  let edges1 := toRem.foldl (fun l x => l.erase x) e.edges
  let edges2 := toAdd.foldl pySetAdd edges1
  pure { e with edges := edges2 }

/-- `Edge.replace_connection` with a monadic resolver: a `None` result keeps
the endpoint unless `replace_on_none` is set, in which case the endpoint is
detached. -/
def edgeReplaceConnectionM (e : GElem)
    (f : Option Nat → Except PyErr (Option Nat)) (replaceOnNone : Bool) :
    Except PyErr GElem := do
  let r1 ← f e.vertex1
  let v1 := match r1 with
    | none => if replaceOnNone then none else e.vertex1
    | some r => some r
  let r2 ← f e.vertex2
  let v2 := match r2 with
    | none => if replaceOnNone then none else e.vertex2
    | some r => some r
  pure { e with vertex1 := v1, vertex2 := v2 }

/-- Kind dispatch of `replace_connection`; `Face.replace_connection` is a
no-op. -/
def elemReplaceConnectionM (e : GElem)
    (f : Option Nat → Except PyErr (Option Nat)) (replaceOnNone : Bool) :
    Except PyErr GElem :=
  match e.kind with
  | EKind.vertex => vertexReplaceConnectionM e (fun x => f (some x))
  | EKind.edge => edgeReplaceConnectionM e f replaceOnNone
  | EKind.face => pure e

/-- The runtime-evaluated parameters of one application: the attribute
expression evaluator (`eval` with the pre-rewrite element, `self_`, the named
attribute requirements, vectors and variables bound), the `.new_pos`
evaluator, and `_calculate_new_position` (spec §4.3 placement rule,
floating-point geometry). -/
structure ApplyFns where
  evalAttrFn : String → Attr → Option Nat → Nat → Except PyErr Attr
  evalPosFn : Attr → Option Nat → Nat → Except PyErr (Attr × Attr)
  calcPosFn : Nat → Except PyErr (Attr × Attr)

/-- `ProductionApplicationHierarchy.__init__`: copy the host into the result
graph and the daughter into the copy graph, recording both correspondences. -/
def buildHierarchy (st : Store) (host : PyGraph) (motherToHost : MapA)
    (opt : POption) : Store × PyGraph × PyGraph × Hierarchy :=
  let (st1, resultGraph, h2r) := nonRecursiveCopy st host
  let (st2, copyGraph, d2c) := nonRecursiveCopy st1 opt.daughterGraph
  (st2, resultGraph, copyGraph, ⟨h2r, motherToHost, opt.mapping, d2c⟩)

/-- The severing loop: for each `(edge, vertex)` in `edge_conn_to_remove`,
detach the result-level endpoint from the result-level edge
(`replace_connection` with `replace_on_none`) and drop the edge from the
vertex's incident set (`set.remove`, whose `KeyError` propagates).  A missing
result-level image would be `None` in Python and raise `AttributeError`. -/
def severConnections (h : Hierarchy) : Store → List (Nat × Nat) →
    Except PyErr Store
  | st, [] => Except.ok st
  | st, (mEdge, mVertex) :: rest => do
    let rEdgeO ← hmap h mEdge (LevelKey.str "M") (LevelKey.str "R")
    let rVertexO ← hmap h mVertex (LevelKey.str "M") (LevelKey.str "R")
    match rEdgeO with
    | none => Except.error PyErr.attributeError
    | some rE => do
      let e := st.get rE
      let e1 ← edgeReplaceConnectionM e
        (fun x => Except.ok (if x = rVertexO then none else x)) true
      let st1 := st.set rE e1
      match rVertexO with
      | none => Except.error PyErr.attributeError
      | some rV =>
        let ve := st1.get rV
        if ve.edges.contains rE then
          severConnections h (st1.set rV { ve with edges := ve.edges.erase rE }) rest
        else Except.error PyErr.keyError

/-- `D_edges_to_ignore` re-mapped by `map_sequence(…, 'D', 'R')`: the list
already holds result-level elements (or `None`), so every hop lookup misses
and yields `None`; the resulting set of options is used for membership tests
against elements, where only the present values can ever compare equal. -/
def ignoreSetOf (h : Hierarchy) (ec : List (Nat × Nat)) :
    Except PyErr (List Nat) := do
  let raw ← ec.mapM (fun p => hmap h p.1 (LevelKey.str "M") (LevelKey.str "R"))
  let l2 ← raw.mapM (fun o =>
    match o with
    | none => Except.ok (none : Option Nat)
    | some x => hmap h x (LevelKey.str "D") (LevelKey.str "R"))
  Except.ok (l2.filterMap id)

/-- The removal loop: discard each result-level image of a `to_remove`
element, exempting the just-severed edges. -/
def removeElements (h : Hierarchy) (ec : List (Nat × Nat)) :
    Store → PyGraph → List (Option Nat) → Except PyErr (Store × PyGraph)
  | st, rg, [] => Except.ok (st, rg)
  | st, rg, rElO :: rest =>
    match rElO with
    | none => Except.error PyErr.attributeError
    | some rEl => do
      let ign ← ignoreSetOf h ec
      let (st1, rg1) ← pyGraphDiscard st rg rEl (some ign)
      removeElements h ec st1 rg1 rest

/-- The graft loop: re-resolve each copy-level element's connections from
copy level to result level, compute a placement for a vertex without
explicit coordinates, stamp `.generation`, and add it to the result graph
exempting its not-yet-inserted `to_add` neighbours. -/
def addElements (h : Hierarchy) (fns : ApplyFns) (newGen : Int)
    (toAddAll : List (Option Nat)) :
    Store → PyGraph → List (Option Nat) → Except PyErr (Store × PyGraph)
  | st, rg, [] => Except.ok (st, rg)
  | st, rg, cO :: rest =>
    match cO with
    | none => Except.error PyErr.attributeError
    | some c => do
      let ce := st.get c
      let ce1 ← elemReplaceConnectionM ce
        (fun x =>
          match x with
          | none => Except.ok none
          | some v => hmap h v (LevelKey.str "C") (LevelKey.str "R")) false
      let st1 := st.set c ce1
      let st2 ←
        if (st1.get c).kind = EKind.vertex then do
          let (px, py) ← fns.calcPosFn c
          let t := st1.get c
          let a1 := if dhas t.attr "new_x" then t.attr else dset t.attr "x" px
          let a2 := if dhas a1 "new_y" then a1 else dset a1 "y" py
          pure (st1.set c { t with attr := a2 })
        else pure st1
      let t2 := st2.get c
      let st3 := st2.set c { t2 with attr := dset t2.attr ".generation" (Attr.i newGen) }
      let valid := (st3.get c).neighbours.filter
        (fun x => (toAddAll.filterMap id).contains x)
      let (st4, rg1) ← pyGraphAdd st3 rg c (some valid)
      addElements h fns newGen toAddAll st4 rg1 rest

/-- The re-pointing loop over `to_change`: connections to about-to-be-removed
neighbours are resolved through `map(·, 'R', 'C')`, all other neighbours get
`None` (no replacement). -/
def changeElements (h : Hierarchy) (toRemoveR : List (Option Nat)) :
    Store → List (Option Nat) → Except PyErr Store
  | st, [] => Except.ok st
  | st, rO :: rest =>
    match rO with
    | none => Except.error PyErr.attributeError
    | some r => do
      let re := st.get r
      let re1 ← elemReplaceConnectionM re
        (fun x =>
          if toRemoveR.contains x then
            match x with
            | none => Except.ok none
            | some v => hmap h v (LevelKey.str "R") (LevelKey.str "C")
          else Except.ok none) false
      changeElements h toRemoveR (st.set r re1) rest

/-- `dict.pop(key)` on an attribute dict: `KeyError` when absent. -/
def dpop (m : List (String × Attr)) (k : String) :
    Except PyErr (List (String × Attr)) :=
  if dhas m k then Except.ok (m.filter (fun p => !(p.1 == k))) else
    Except.error PyErr.keyError

/-- The attribute-recompute loop for one daughter element's attribute dict:
`x`/`y` are skipped, `new_x`/`new_y` rename to `x`/`y` (popping the staged
key from the target), `.new_pos` assigns both coordinates from one evaluated
position, all other reserved-prefix keys except `.svg_`/`.svgx_` are
skipped, and every remaining key is recomputed by the evaluator. -/
def recomputeAttrLoop (fns : ApplyFns) :
    Store → Nat → Option Nat → List (String × Attr) → Except PyErr Store
  | st, _, _, [] => Except.ok st
  | st, target, old, (name, v) :: rest =>
    if name == "x" || name == "y" then
      recomputeAttrLoop fns st target old rest
    else do
      let (st1, name1) ←
        if name == "new_x" then do
          let t := st.get target
          let a ← dpop t.attr "new_x"
          pure (st.set target { t with attr := a }, "x")
        else if name == "new_y" then do
          let t := st.get target
          let a ← dpop t.attr "new_y"
          pure (st.set target { t with attr := a }, "y")
        else pure (st, name)
      if name1 == ".new_pos" then do
        let (px, py) ← fns.evalPosFn v old target
        let t := st1.get target
        let a1 := dset t.attr "x" px
        let a2 := dset a1 "y" py
        let a3 := if dhas a2 ".new_pos" then
            a2.filter (fun p => !(p.1 == ".new_pos"))
          else a2
        recomputeAttrLoop fns (st1.set target { t with attr := a3 }) target old rest
      else if strHasPre "." name1 && !(strHasPre ".svg_" name1)
          && !(strHasPre ".svgx_" name1) then
        recomputeAttrLoop fns st1 target old rest
      else do
        let val ← fns.evalAttrFn name1 v old target
        let t := st1.get target
        recomputeAttrLoop fns (st1.set target { t with attr := dset t.attr name1 val })
          target old rest

/-- The outer recompute loop over `to_calc_attr` entries
`(daughter element, target, pre-rewrite element or None)`. -/
def recomputeAll (fns : ApplyFns) :
    Store → List (Nat × Option Nat × Option Nat) → Except PyErr Store
  | st, [] => Except.ok st
  | st, (d, tO, old) :: rest =>
    match tO with
    | none => Except.error PyErr.attributeError
    | some t => do
      let st1 ← recomputeAttrLoop fns st t old (st.get d).attr
      recomputeAll fns st1 rest

/-- `graph_is_consistent`: every neighbour reference is reciprocated
(elements visited through the connected-order iterator). -/
def graphIsConsistent (st : Store) (g : PyGraph) : Except PyErr Bool := do
  let elems ← elementListConnected st g
  pure (elems.all (fun x =>
    (st.get x).neighbours.all (fun n => (st.get n).neighbours.contains x)))

/-- `Production.apply(host, mother_to_host)` for a chosen option: build the
hierarchy, compute the level-translated work lists and the new generation,
then sever, remove, graft, re-point, recompute, and validate consistency. -/
def pyApply (st : Store) (host : PyGraph) (opt : POption) (motherToHost : MapA)
    (fns : ApplyFns) : Except PyErr (Store × PyGraph) := do
  let hier := buildHierarchy st host motherToHost opt
  let st1 := hier.1
  let resultGraph := hier.2.1
  let h := hier.2.2.2
  let toAddC ← opt.toAdd.mapM (fun x => hmap h x (LevelKey.str "D") (LevelKey.str "C"))
  let toChangeR ← opt.toChange.mapM (fun x => hmap h x (LevelKey.str "D") (LevelKey.str "R"))
  let toRemoveR ← opt.toRemove.mapM (fun x => hmap h x (LevelKey.str "M") (LevelKey.str "R"))
  let toCalcAdd ← opt.toAdd.mapM (fun x => do
    let c ← hmap h x (LevelKey.str "D") (LevelKey.str "C")
    pure (x, c, (none : Option Nat)))
  let toCalcChange ← opt.toChange.mapM (fun x => do
    let r ← hmap h x (LevelKey.str "D") (LevelKey.str "R")
    let ho ← hmap h x (LevelKey.str "D") (LevelKey.str "H")
    pure (x, r, ho))
  let newGenBase ← getMaxGenerationList st1 (dvalues motherToHost)
  let st2 ← severConnections h st1 opt.edgeConnToRemove
  let str ← removeElements h opt.edgeConnToRemove st2 resultGraph toRemoveR
  let sta ← addElements h fns (newGenBase + 1) toAddC str.1 str.2 toAddC
  let st5 ← changeElements h toRemoveR sta.1 toChangeR
  let st6 ← recomputeAll fns st5 (toCalcAdd ++ toCalcChange)
  let cons ← graphIsConsistent st6 sta.2
  if cons then Except.ok (st6, sta.2) else Except.error PyErr.incongruentState

/-! ## Well-formedness predicates

Python object graphs always dereference to live objects of the right class;
these predicates state the corresponding id-level hygiene, plus the
adjacency-reciprocity invariant of spec §3 that `Graph` maintains at rest. -/

/-- Every adjacency reference of a graph element stays within the graph and
points at the right collection. -/
def GraphClosedK (st : Store) (g : PyGraph) : Prop :=
  (∀ v ∈ g.vertices, ∀ e ∈ (st.get v).edges, e ∈ g.edges) ∧
  (∀ e ∈ g.edges, ∀ x : Nat,
    ((st.get e).vertex1 = some x ∨ (st.get e).vertex2 = some x) → x ∈ g.vertices) ∧
  (∀ f ∈ g.faces,
    (∀ x ∈ (st.get f).fvertices, x ∈ g.vertices) ∧
    (∀ x ∈ (st.get f).fedges, x ∈ g.edges))

/-- Each collection holds elements of its kind. -/
def GraphKinded (st : Store) (g : PyGraph) : Prop :=
  (∀ v ∈ g.vertices, (st.get v).kind = EKind.vertex) ∧
  (∀ e ∈ g.edges, (st.get e).kind = EKind.edge) ∧
  (∀ f ∈ g.faces, (st.get f).kind = EKind.face)

/-- The adjacency-reciprocity invariant: every neighbour reference is
reciprocated. -/
def GraphReciprocal (st : Store) (g : PyGraph) : Prop :=
  ∀ x ∈ g.elemsVef, ∀ n ∈ (st.get x).neighbours, x ∈ (st.get n).neighbours

/-- A well-formed at-rest graph. -/
def GraphWf (st : Store) (g : PyGraph) : Prop :=
  g.elemsVef.Nodup ∧ GraphKinded st g ∧ GraphClosedK st g ∧ GraphReciprocal st g

/-- Reachability along the neighbour relation, for connectivity hypotheses. -/
def ReachableIn (st : Store) (a x : Nat) : Prop :=
  Relation.ReflTransGen (fun u v => v ∈ (st.get u).neighbours) a x

/-- Everything in the graph is reachable from the element `a`. -/
def ConnectedFrom (st : Store) (a : Nat) (g : PyGraph) : Prop :=
  ∀ x ∈ g.elemsVef, ReachableIn st a x

/-- A structural embedding of the pattern in the host, in the sense of the
matcher: total into the host, injective, `matches`-compatible element-wise,
adjacency-preserving, and role-preserving on directed pattern edges. -/
def IsEmbedding (st : Store) (host pattern : PyGraph) (evalAttrs : Bool)
    (ev : EvalFn) (m : Nat → Nat) : Prop :=
  (∀ x ∈ pattern.elemsVef, m x ∈ host.elemsVef) ∧
  (∀ x ∈ pattern.elemsVef, ∀ y ∈ pattern.elemsVef, m x = m y → x = y) ∧
  (∀ x ∈ pattern.elemsVef,
    pyMatchesArg ev (st.get (m x)) (st.get x) evalAttrs = Except.ok true) ∧
  (∀ x ∈ pattern.elemsVef, ∀ n ∈ (st.get x).neighbours,
    m n ∈ (st.get (m x)).neighbours) ∧
  (∀ e ∈ pattern.edges, isDirectedEdge (st.get e) = true →
    (∀ a : Nat, (st.get e).vertex1 = some a → (st.get (m e)).vertex1 = some (m a)) ∧
    (∀ b : Nat, (st.get e).vertex2 = some b → (st.get (m e)).vertex2 = some (m b)))

/-- Every adjacency reference a mutation can follow (incident edges, edge
endpoints) stays inside the given element list. -/
def RefsIn (l : List Nat) (e : GElem) : Prop :=
  (∀ x ∈ e.edges, x ∈ l) ∧ (∀ x ∈ e.vertex1.toList, x ∈ l) ∧
  (∀ x ∈ e.vertex2.toList, x ∈ l)

/-- Every followable adjacency reference is at or above the bound `n`. -/
def RefsGE (n : Nat) (e : GElem) : Prop :=
  (∀ x ∈ e.edges, n ≤ x) ∧ (∀ x ∈ e.vertex1.toList, n ≤ x) ∧
  (∀ x ∈ e.vertex2.toList, n ≤ x)

/-- The high (freshly allocated) part of the store is closed: every element
at an id at or above `n` only references ids at or above `n`, so mutations
within the copy world can never touch an original. -/
def HighClosed (n : Nat) (st : Store) : Prop :=
  ∀ i, n ≤ i → RefsGE n (st.get i)

/-- One rewrite-engine mutation step: the allocation bound is unchanged, the
original elements (ids below `n`) are untouched, and the high part stays
closed. -/
def StoreStep (n : Nat) (st st2 : Store) : Prop :=
  st2.next = st.next ∧ (∀ i, i < n → st2.find? i = st.find? i) ∧ HighClosed n st2

/-- The invariant of one in-flight `Graph.match` task: mapping keys are
pattern elements with no duplicates, values are host elements used at most
once, every pair `matches`, mapped adjacency is realised in the host, the
frontier holds pattern elements keyed once each, unmapped, with a mapped
parent they are adjacent to, every neighbour of a mapped element is mapped
or on the frontier, and the anchor is mapped. -/
structure TaskOK (st : Store) (host pattern : PyGraph) (evalAttrs : Bool)
    (ev : EvalFn) (anchorId : Nat) (t : MTask) : Prop where
  keysPat : ∀ p ∈ t.mapping, p.1 ∈ pattern.elemsVef
  valsHost : ∀ p ∈ t.mapping, p.2 ∈ host.elemsVef
  keysNodup : (dkeys t.mapping).Nodup
  inj : ∀ p ∈ t.mapping, ∀ q ∈ t.mapping, p.2 = q.2 → p.1 = q.1
  matchesAll : ∀ p ∈ t.mapping,
    pyMatchesArg ev (st.get p.2) (st.get p.1) evalAttrs = Except.ok true
  adj : ∀ p ∈ t.mapping, ∀ nb ∈ (st.get p.1).neighbours, ∀ hn,
    dget? t.mapping nb = some hn → (st.get p.2).neighbours.contains hn = true
  fKeysPat : ∀ q ∈ t.frontier, q.1 ∈ pattern.elemsVef
  fKeysNodup : (dkeys t.frontier).Nodup
  fUnmapped : ∀ q ∈ t.frontier, dhas t.mapping q.1 = false
  fParentMapped : ∀ q ∈ t.frontier, dhas t.mapping q.2 = true
  boundary : ∀ p ∈ t.mapping, ∀ nb ∈ (st.get p.1).neighbours,
    dhas t.mapping nb = true ∨ dhas t.frontier nb = true
  anchorMapped : dhas t.mapping anchorId = true
  fAdj : ∀ q ∈ t.frontier, q.1 ∈ (st.get q.2).neighbours

/-- What `Graph.match` guarantees of a finished mapping it returns. -/
structure MapOK (st : Store) (host pattern : PyGraph) (evalAttrs : Bool)
    (ev : EvalFn) (m : MapA) : Prop where
  keysPat : ∀ p ∈ m, p.1 ∈ pattern.elemsVef
  valsHost : ∀ p ∈ m, p.2 ∈ host.elemsVef
  keysNodup : (dkeys m).Nodup
  inj : ∀ p ∈ m, ∀ q ∈ m, p.2 = q.2 → p.1 = q.1
  matchesAll : ∀ p ∈ m,
    pyMatchesArg ev (st.get p.2) (st.get p.1) evalAttrs = Except.ok true
  adj : ∀ p ∈ m, ∀ nb ∈ (st.get p.1).neighbours, ∀ hn,
    dget? m nb = some hn → (st.get p.2).neighbours.contains hn = true
  lenEq : m.length = pattern.size

/-- A task whose partial mapping agrees with a fixed embedding. -/
def GoodTask (memb : Nat → Nat) (t : MTask) : Prop :=
  ∀ p ∈ t.mapping, p.2 = memb p.1

/-- The termination measure of the `while task_list` loop: incomplete tasks
weigh exponentially in their remaining deficit. -/
def taskMeasure (psize B : Nat) (tasks : List MTask) : Nat :=
  (tasks.map (fun t => B ^ (psize + 1 - t.mapping.length))).sum

/-! # Theorems -/

/-! ## Dict helper lemmas -/

theorem dhas_iff_exists {α β : Type} [DecidableEq α] (m : List (α × β)) (k : α) :
    dhas m k = true ↔ ∃ v, (k, v) ∈ m := by
  induction m with
  | nil => simp [dhas, dget?]
  | cons p rest ih =>
    obtain ⟨k', v'⟩ := p
    simp only [dhas, dget?] at ih ⊢
    by_cases h : k' = k
    · subst h
      rw [if_pos rfl]
      simp only [Option.isSome_some, true_iff]
      exact ⟨v', List.mem_cons_self _ _⟩
    · rw [if_neg h]
      rw [ih]
      constructor
      · rintro ⟨v, hv⟩
        exact ⟨v, List.mem_cons_of_mem _ hv⟩
      · rintro ⟨v, hv⟩
        rcases List.mem_cons.mp hv with heq | hv'
        · cases heq
          exact absurd rfl h
        · exact ⟨v, hv'⟩

theorem dget?_eq_some_mem {α β : Type} [DecidableEq α] {m : List (α × β)}
    {k : α} {v : β} (h : dget? m k = some v) : (k, v) ∈ m := by
  induction m with
  | nil => simp [dget?] at h
  | cons p rest ih =>
    obtain ⟨k', v'⟩ := p
    simp only [dget?] at h
    by_cases hk : k' = k
    · subst hk
      rw [if_pos rfl] at h
      cases h
      exact List.mem_cons_self _ _
    · rw [if_neg hk] at h
      exact List.mem_cons_of_mem _ (ih h)

theorem dinvHas_iff_exists {α β : Type} [DecidableEq β] (m : List (α × β)) (v : β) :
    dinvHas m v = true ↔ ∃ k, (k, v) ∈ m := by
  induction m with
  | nil => simp [dinvHas, dinvGet?]
  | cons p rest ih =>
    obtain ⟨k', v'⟩ := p
    simp only [dinvHas, dinvGet?] at ih ⊢
    cases hr : dinvGet? rest v with
    | some k2 =>
      rw [hr] at ih
      simp only [Option.isSome_some, true_iff] at ih ⊢
      obtain ⟨k, hk⟩ := ih
      exact ⟨k, List.mem_cons_of_mem _ hk⟩
    | none =>
      rw [hr] at ih
      simp only [Option.isSome_none, Bool.false_eq_true, false_iff, not_exists] at ih
      by_cases hv : v' = v
      · subst hv
        rw [if_pos rfl]
        simp only [Option.isSome_some, true_iff]
        exact ⟨k', List.mem_cons_self _ _⟩
      · rw [if_neg hv]
        simp only [Option.isSome_none, Bool.false_eq_true, false_iff, not_exists]
        intro k hk
        rcases List.mem_cons.mp hk with heq | hk'
        · cases heq
          exact hv rfl
        · exact ih k hk'

/-! ## Claim C6: attribute-matching semantics -/

theorem matchesAttrsEq_iff (cattrs pattrs : List (String × Attr)) :
    matchesAttrsEq cattrs pattrs = true ↔
      ∀ kv ∈ pattrs, skipKey kv.1 = false →
        ∃ w, dget? cattrs kv.1 = some w ∧ pyEqAttr w kv.2 = true := by
  induction pattrs with
  | nil => simp [matchesAttrsEq]
  | cons kv rest ih =>
    obtain ⟨k, v⟩ := kv
    simp only [matchesAttrsEq]
    by_cases hs : skipKey k = true
    · rw [if_pos hs, ih]
      constructor
      · intro h kv hm hsk
        rcases List.mem_cons.mp hm with heq | hm'
        · cases heq
          rw [hs] at hsk
          cases hsk
        · exact h kv hm' hsk
      · intro h kv hm hsk
        exact h kv (List.mem_cons_of_mem _ hm) hsk
    · have hs' : skipKey k = false := by
        cases hsk : skipKey k
        · rfl
        · exact absurd hsk hs
      rw [if_neg hs]
      cases hg : dget? cattrs k with
      | none =>
        dsimp only
        simp only [Bool.false_eq_true, false_iff, not_forall]
        refine ⟨(k, v), List.mem_cons_self _ _, ?_⟩
        simp [hs', hg]
      | some w =>
        dsimp only
        by_cases he : pyEqAttr w v = true
        · rw [if_pos he, ih]
          constructor
          · intro h kv hm hsk
            rcases List.mem_cons.mp hm with heq | hm'
            · cases heq
              exact ⟨w, hg, he⟩
            · exact h kv hm' hsk
          · intro h kv hm hsk
            exact h kv (List.mem_cons_of_mem _ hm) hsk
        · rw [if_neg he]
          simp only [Bool.false_eq_true, false_iff, not_forall]
          refine ⟨(k, v), List.mem_cons_self _ _, hs', ?_⟩
          rintro ⟨w', hw1, hw2⟩
          rw [hg] at hw1
          cases hw1
          exact he hw2

theorem matchesAttrsEval_ok_iff (ev : EvalFn) (cattrs pattrs : List (String × Attr)) :
    matchesAttrsEval ev cattrs pattrs = Except.ok true ↔
      ∀ kv ∈ pattrs, skipKey kv.1 = false →
        ∃ w, dget? cattrs kv.1 = some w ∧ ev kv.2 w cattrs = Except.ok true := by
  induction pattrs with
  | nil => simp [matchesAttrsEval]
  | cons kv rest ih =>
    obtain ⟨k, v⟩ := kv
    simp only [matchesAttrsEval]
    by_cases hs : skipKey k = true
    · rw [if_pos hs, ih]
      constructor
      · intro h kv hm hsk
        rcases List.mem_cons.mp hm with heq | hm'
        · cases heq
          rw [hs] at hsk
          cases hsk
        · exact h kv hm' hsk
      · intro h kv hm hsk
        exact h kv (List.mem_cons_of_mem _ hm) hsk
    · have hs' : skipKey k = false := by
        cases hsk : skipKey k
        · rfl
        · exact absurd hsk hs
      rw [if_neg hs]
      cases hg : dget? cattrs k with
      | none =>
        dsimp only
        constructor
        · intro hcon
          cases hcon
        · intro h
          obtain ⟨w', hw1, _⟩ := h (k, v) (List.mem_cons_self _ _) hs'
          rw [hg] at hw1
          cases hw1
      | some w =>
        dsimp only
        have hwitness : ∀ er, ev v w cattrs = er → er ≠ Except.ok true →
            ¬(∀ kv ∈ (k, v) :: rest, skipKey kv.1 = false →
              ∃ w, dget? cattrs kv.1 = some w ∧ ev kv.2 w cattrs = Except.ok true) := by
          intro er hev hne h
          obtain ⟨w', hw1, hw2⟩ := h (k, v) (List.mem_cons_self _ _) hs'
          rw [hg] at hw1
          cases hw1
          rw [hev] at hw2
          exact hne hw2
        cases hev : ev v w cattrs with
        | error er =>
          cases er <;>
          · dsimp only
            constructor
            · intro hcon
              simp at hcon
            · intro h
              exact absurd h (hwitness _ hev (by simp))
        | ok r =>
          dsimp only
          cases r with
          | false =>
            rw [if_neg (by simp : ¬(false = true))]
            constructor
            · intro hcon
              simp at hcon
            · intro h
              exact absurd h (hwitness _ hev (by simp))
          | true =>
            rw [if_pos rfl, ih]
            constructor
            · intro h kv hm hsk
              rcases List.mem_cons.mp hm with heq | hm'
              · cases heq
                exact ⟨w, hg, hev⟩
              · exact h kv hm' hsk
            · intro h kv hm hsk
              exact h kv (List.mem_cons_of_mem _ hm) hsk

/-! ## Claim C4: the partition of `ProductionOption.__init__` -/

theorem partitionMother_toRemove (st : Store) (mapping : List (Nat × Nat))
    (l : List Nat) :
    (partitionMother st mapping l).1 = l.filter (fun m => !(dhas mapping m)) := by
  induction l with
  | nil => rfl
  | cons m rest ih =>
    simp only [partitionMother]
    cases hg : dget? mapping m with
    | none =>
      dsimp only
      rw [List.filter_cons]
      simp [dhas, hg, ih]
    | some d =>
      dsimp only
      rw [List.filter_cons]
      simp [dhas, hg, ih]

theorem partitionMother_toChange (st : Store) (mapping : List (Nat × Nat))
    (l : List Nat) :
    (partitionMother st mapping l).2.1 = l.filterMap (fun m => dget? mapping m) := by
  induction l with
  | nil => rfl
  | cons m rest ih =>
    simp only [partitionMother]
    cases hg : dget? mapping m with
    | none =>
      dsimp only
      rw [List.filterMap_cons]
      simp [hg, ih]
    | some d =>
      dsimp only
      rw [List.filterMap_cons]
      simp [hg, ih]

theorem partitionMother_edgeConn (st : Store) (mapping : List (Nat × Nat))
    (l : List Nat) (e v : Nat) :
    (e, v) ∈ (partitionMother st mapping l).2.2 ↔
      ∃ d, e ∈ l ∧ dget? mapping e = some d ∧
        (st.get e).kind = EKind.edge ∧ v ∈ (st.get e).neighbours ∧
        ∃ dv, dget? mapping v = some dv ∧ dv ∉ (st.get d).neighbours := by
  induction l with
  | nil => simp [partitionMother]
  | cons m rest ih =>
    simp only [partitionMother]
    cases hg : dget? mapping m with
    | none =>
      dsimp only
      rw [ih]
      constructor
      · rintro ⟨d, hmem, rest'⟩
        exact ⟨d, List.mem_cons_of_mem _ hmem, rest'⟩
      · rintro ⟨d, hmem, hge, rest'⟩
        rcases List.mem_cons.mp hmem with rfl | hmem'
        · rw [hg] at hge
          cases hge
        · exact ⟨d, hmem', hge, rest'⟩
    | some d0 =>
      dsimp only
      rw [List.mem_append, ih]
      constructor
      · rintro (hc | ⟨d, hmem, rest'⟩)
        · simp only [edgeConnsOf] at hc
          by_cases hk : (st.get m).kind = EKind.edge
          · rw [if_pos hk] at hc
            obtain ⟨v', hv', hsome⟩ := List.mem_filterMap.mp hc
            cases hdv : dget? mapping v' with
            | none => rw [hdv] at hsome; cases hsome
            | some dv =>
              rw [hdv] at hsome
              dsimp only at hsome
              by_cases hnb : !((st.get d0).neighbours.contains dv)
              · rw [if_pos hnb] at hsome
                cases hsome
                refine ⟨d0, List.mem_cons_self _ _, hg, hk, hv', dv, hdv, ?_⟩
                simp only [Bool.not_eq_true'] at hnb
                intro hcon
                have hmem := List.elem_iff.mpr hcon
                rw [List.contains] at hnb
                rw [hmem] at hnb
                cases hnb
              · rw [if_neg hnb] at hsome
                cases hsome
          · rw [if_neg hk] at hc
            cases hc
        · exact ⟨d, List.mem_cons_of_mem _ hmem, rest'⟩
      · rintro ⟨d, hmem, hge, hk, hv, dv, hdv, hnb⟩
        rcases List.mem_cons.mp hmem with rfl | hmem'
        · rw [hg] at hge
          cases hge
          left
          simp only [edgeConnsOf, if_pos hk]
          refine List.mem_filterMap.mpr ⟨v, hv, ?_⟩
          rw [hdv]
          dsimp only
          have hcf : (st.get d0).neighbours.contains dv = false := by
            cases hcc : (st.get d0).neighbours.contains dv
            · rfl
            · exact absurd (List.elem_iff.mp hcc) hnb
          rw [hcf]
          rfl
        · exact Or.inr ⟨d, hmem', hge, hk, hv, dv, hdv, hnb⟩

/-- C4 counterexample: mother = one vertex `0`, daughter = one vertex `1`,
mapping `{0 ↦ 1}`.  The mother elements present in the mapping form `[0]`,
but `to_change` is `[1]` — the daughter images, not the mother elements. -/
theorem C4_toChange_counterexample :
    (mkPOption ⟨[(0, mkVertex [] []), (1, mkVertex [] [])], 2⟩
        ⟨[0], [], []⟩ ⟨[1], [], []⟩ [(0, 1)] 1).toChange = [1] ∧
      (⟨[0], [], []⟩ : PyGraph).elemsVef.filter
        (fun m => dhas [((0 : Nat), (1 : Nat))] m) = [0] ∧
      ([1] : List Nat) ≠ [0] := by
  refine ⟨rfl, rfl, by decide⟩

/-- C4 (amended): `to_remove` is exactly the mother elements absent from the
mapping; `to_change` is exactly the *daughter-side images* of the mother
elements present in the mapping (not the mother elements themselves);
`to_add` is exactly the daughter elements absent from the mapping's inverse;
`edge_conn_to_remove` is exactly the (mother edge, mother endpoint) pairs
where both are mapped and the endpoint's image is not adjacent to the edge's
image in the daughter. -/
theorem C4_partition_semantics (st : Store) (mother daughter : PyGraph)
    (mapping : List (Nat × Nat)) (w : Nat) :
    (∀ x, x ∈ (mkPOption st mother daughter mapping w).toRemove ↔
      x ∈ mother.elemsVef ∧ ¬∃ d, (x, d) ∈ mapping) ∧
    (∀ x, x ∈ (mkPOption st mother daughter mapping w).toChange ↔
      ∃ m', m' ∈ mother.elemsVef ∧ dget? mapping m' = some x) ∧
    (∀ x, x ∈ (mkPOption st mother daughter mapping w).toAdd ↔
      x ∈ daughter.elemsVef ∧ ¬∃ m', (m', x) ∈ mapping) ∧
    (∀ e v, (e, v) ∈ (mkPOption st mother daughter mapping w).edgeConnToRemove ↔
      ∃ d, e ∈ mother.elemsVef ∧ dget? mapping e = some d ∧
        (st.get e).kind = EKind.edge ∧ v ∈ (st.get e).neighbours ∧
        ∃ dv, dget? mapping v = some dv ∧ dv ∉ (st.get d).neighbours) := by
  refine ⟨?_, ?_, ?_, ?_⟩
  · intro x
    show x ∈ (partitionMother st mapping mother.elemsVef).1 ↔ _
    rw [partitionMother_toRemove, List.mem_filter]
    constructor
    · rintro ⟨hm, hf⟩
      refine ⟨hm, ?_⟩
      intro hex
      have := (dhas_iff_exists mapping x).mpr hex
      rw [this] at hf
      cases hf
    · rintro ⟨hm, hnex⟩
      refine ⟨hm, ?_⟩
      cases hd : dhas mapping x
      · rfl
      · exact absurd ((dhas_iff_exists mapping x).mp hd) hnex
  · intro x
    show x ∈ (partitionMother st mapping mother.elemsVef).2.1 ↔ _
    rw [partitionMother_toChange, List.mem_filterMap]
  · intro x
    show x ∈ daughter.elemsVef.filter (fun d => !(dinvHas mapping d)) ↔ _
    rw [List.mem_filter]
    constructor
    · rintro ⟨hm, hf⟩
      refine ⟨hm, ?_⟩
      intro hex
      have := (dinvHas_iff_exists mapping x).mpr hex
      rw [this] at hf
      cases hf
    · rintro ⟨hm, hnex⟩
      refine ⟨hm, ?_⟩
      cases hd : dinvHas mapping x
      · rfl
      · exact absurd ((dinvHas_iff_exists mapping x).mp hd) hnex
  · intro e v
    exact partitionMother_edgeConn st mapping mother.elemsVef e v

/-- C4 witness: the amended characterization evaluated at a concrete
option. -/
theorem C4_partition_semantics_witness :
    (10 : Nat) ∈ (mkPOption ⟨[(10, mkVertex [] []), (11, mkVertex [] [])], 12⟩
      ⟨[10], [], []⟩ ⟨[11], [], []⟩ [] 1).toRemove := by
  have h := (C4_partition_semantics ⟨[(10, mkVertex [] []), (11, mkVertex [] [])], 12⟩
    ⟨[10], [], []⟩ ⟨[11], [], []⟩ [] 1).1 10
  exact h.mpr ⟨by decide, by simp⟩

/-! ## Claim C5: hierarchy `map` behaviour -/

theorem movementLookup_ok_up (h : Hierarchy) (s : Int) (hs0 : 0 ≤ s)
    (hs3 : s ≤ 3) (e : Nat) :
    ∃ ro, movementLookup h s true e = Except.ok ro := by
  unfold movementLookup
  rw [if_pos rfl]
  interval_cases s <;> simp

theorem movementLookup_ok_down (h : Hierarchy) (s : Int) (hs1 : 1 ≤ s)
    (hs4 : s ≤ 4) (e : Nat) :
    ∃ ro, movementLookup h s false e = Except.ok ro := by
  unfold movementLookup
  rw [if_neg (by simp)]
  interval_cases s <;> simp

theorem hmapInt_ok_of_range (h : Hierarchy) :
    ∀ n (e : Nat) (s t : Int), (s - t).natAbs = n →
      0 ≤ s → s ≤ 4 → 0 ≤ t → t ≤ 4 →
      ∃ r, hmapInt h e s t = Except.ok r := by
  intro n
  induction n using Nat.strong_induction_on with
  | _ n ih =>
    intro e s t hn hs0 hs4 ht0 ht4
    rw [hmapInt.eq_def]
    rw [if_neg (by omega), if_neg (by omega)]
    by_cases hst : s = t
    · rw [dif_pos hst]
      exact ⟨some e, rfl⟩
    · rw [dif_neg hst]
      by_cases hlt : s < t
      · rw [dif_pos hlt]
        obtain ⟨ro, hro⟩ := movementLookup_ok_up h s hs0 (by omega) e
        rw [hro]
        cases ro with
        | none => exact ⟨none, rfl⟩
        | some r =>
          exact ih ((s + 1 - t).natAbs) (by omega) r (s + 1) t rfl
            (by omega) (by omega) ht0 ht4
      · rw [dif_neg hlt]
        obtain ⟨ro, hro⟩ := movementLookup_ok_down h s (by omega) hs4 e
        rw [hro]
        cases ro with
        | none => exact ⟨none, rfl⟩
        | some r =>
          exact ih ((s - 1 - t).natAbs) (by omega) r (s - 1) t rfl
            (by omega) (by omega) ht0 ht4

/-- C5 counterexample: an invalid *string* hierarchy key raises the plain
dict `KeyError` of `hierarchy_alias`, not the claimed fatal
`ArgumentError`. -/
theorem C5_invalid_alias_counterexample :
    hmap ⟨[], [], [], []⟩ 0 (LevelKey.str "X") (LevelKey.str "R")
        = Except.error PyErr.keyError ∧
      PyErr.keyError ≠ PyErr.argumentError := by
  exact ⟨rfl, by decide⟩

/-- C5 (amended): `map(e, s, t)` returns `e` itself when the two valid
levels coincide; on in-range integer levels it never raises — a missing
correspondence at a hop yields `None`; an out-of-range *integer* level
raises the fatal `ArgumentError` (the target is checked first); but an
unknown string alias raises `KeyError` from the `hierarchy_alias` dict
lookup, not `ArgumentError`. -/
theorem C5_hierarchy_map_semantics :
    (∀ (h : Hierarchy) (e : Nat) (k : LevelKey) (s : Int),
      levelOfKey k = Except.ok s → 0 ≤ s → s ≤ 4 →
      hmap h e k k = Except.ok (some e)) ∧
    (∀ (h : Hierarchy) (e : Nat) (s t : Int),
      0 ≤ s → s ≤ 4 → 0 ≤ t → t ≤ 4 →
      ∃ r, hmapInt h e s t = Except.ok r) ∧
    (∀ (h : Hierarchy) (e : Nat) (s t : Int),
      0 ≤ s → s ≤ 4 → 0 ≤ t → t ≤ 4 → s ≠ t →
      movementLookup h s (decide (s < t)) e = Except.ok none →
      hmapInt h e s t = Except.ok none) ∧
    (∀ (h : Hierarchy) (e : Nat) (s t : Int),
      t < 0 ∨ 4 < t → hmapInt h e s t = Except.error PyErr.argumentError) ∧
    (∀ (h : Hierarchy) (e : Nat) (s t : Int),
      0 ≤ t → t ≤ 4 → s < 0 ∨ 4 < s →
      hmapInt h e s t = Except.error PyErr.argumentError) ∧
    (∀ (h : Hierarchy) (e : Nat) (a : String) (k : LevelKey),
      a ≠ "R" → a ≠ "H" → a ≠ "M" → a ≠ "D" → a ≠ "C" →
      hmap h e (LevelKey.str a) k = Except.error PyErr.keyError) := by
  refine ⟨?_, ?_, ?_, ?_, ?_, ?_⟩
  · intro h e k s hk hs0 hs4
    unfold hmap
    rw [hk]
    dsimp only
    rw [hmapInt.eq_def]
    rw [if_neg (by omega), if_neg (by omega), dif_pos rfl]
  · intro h e s t hs0 hs4 ht0 ht4
    exact hmapInt_ok_of_range h ((s - t).natAbs) e s t rfl hs0 hs4 ht0 ht4
  · intro h e s t hs0 hs4 ht0 ht4 hst hmv
    rw [hmapInt.eq_def]
    rw [if_neg (by omega), if_neg (by omega), dif_neg hst]
    by_cases hlt : s < t
    · rw [dif_pos hlt]
      rw [decide_eq_true hlt] at hmv
      rw [hmv]
    · rw [dif_neg hlt]
      rw [decide_eq_false hlt] at hmv
      rw [hmv]
  · intro h e s t ht
    rw [hmapInt.eq_def]
    rw [if_pos (by omega)]
  · intro h e s t ht0 ht4 hs
    rw [hmapInt.eq_def]
    rw [if_neg (by omega), if_pos (by omega)]
  · intro h e a k h1 h2 h3 h4 h5
    unfold hmap
    simp only [levelOfKey, if_neg h1, if_neg h2, if_neg h3, if_neg h4, if_neg h5]

/-- C5 witness: the amended behaviour evaluated at concrete levels. -/
theorem C5_hierarchy_map_semantics_witness :
    hmap ⟨[], [], [], []⟩ 5 (LevelKey.str "M") (LevelKey.str "M")
      = Except.ok (some 5) := by
  exact C5_hierarchy_map_semantics.1 ⟨[], [], [], []⟩ 5 (LevelKey.str "M") 2
    rfl (by decide) (by decide)

/-! ## Claim C7: step-cap semantics of the derivation loop -/

theorem firstMatchingIn_some (matchFn : Nat → List (List (Nat × Nat)))
    (l : List Nat) (p : Nat) (ms : List (List (Nat × Nat)))
    (h : firstMatchingIn matchFn l = some (p, ms)) :
    p ∈ l ∧ ms = matchFn p ∧ ms ≠ [] := by
  induction l with
  | nil => cases h
  | cons q rest ih =>
    simp only [firstMatchingIn] at h
    by_cases he : (matchFn q).isEmpty
    · rw [if_pos he] at h
      obtain ⟨hm, hrest⟩ := ih h
      exact ⟨List.mem_cons_of_mem _ hm, hrest⟩
    · rw [if_neg he] at h
      cases h
      refine ⟨List.mem_cons_self _ _, rfl, ?_⟩
      intro hnil
      exact he (by rw [hnil]; rfl)

theorem fmpGo_some (grouped : List (Int × List Nat))
    (shuffle : Int → List Nat → List Nat)
    (matchFn : Nat → List (List (Nat × Nat)))
    (counts : Int → Nat) (ms : List (Int × Nat)) :
    ∀ (keys : List Int) (pid : Nat) (msv : List (List (Nat × Nat))),
      fmpGo grouped shuffle matchFn counts ms keys = some (pid, msv) →
      ∃ pr, groupCapped ms counts pr = false ∧
        pid ∈ shuffle pr ((dget? grouped pr).getD []) ∧
        msv = matchFn pid ∧ msv ≠ [] := by
  intro keys
  induction keys with
  | nil => intro pid msv hc; cases hc
  | cons pr rest ih =>
    intro pid msv h
    simp only [fmpGo] at h
    by_cases hc : groupCapped ms counts pr = true
    · rw [if_pos hc] at h
      exact ih pid msv h
    · rw [if_neg hc] at h
      cases hf : firstMatchingIn matchFn (shuffle pr ((dget? grouped pr).getD [])) with
      | some res =>
        rw [hf] at h
        dsimp only at h
        cases h
        obtain ⟨hm, hms, hne⟩ := firstMatchingIn_some matchFn _ _ _ hf
        refine ⟨pr, ?_, hm, hms, hne⟩
        cases hcc : groupCapped ms counts pr
        · rfl
        · exact absurd hcc hc
      | none =>
        rw [hf] at h
        dsimp only at h
        exact ih pid msv h

/-- C7 counterexample: one production (id 7) at priority 0 with a match,
`max_steps = {0: 0}`, no steps taken — the claim says the group stays
eligible (0 = unlimited), but `_find_matching_production` skips it
(`step_counts[0] >= 0` holds immediately) and reports no match. -/
theorem C7_priority_cap_zero_counterexample :
    findMatchingProduction [(0, [7])] (fun _ l => l) (fun _ => [[(0, 0)]])
        (fun _ => 0) [(0, 0)] = none ∧
      ([[((0 : Nat), (0 : Nat))]] : List (List (Nat × Nat))) ≠ [] := by
  exact ⟨rfl, by decide⟩

/-- C7 (amended): a priority key mapped to cap 0 makes its group *always
skipped* (the cap counts as already reached — per-priority "unlimited" is
expressed by omitting the key, which is never skipped), while the wildcard
`'all'` cap of 0 does impose no limit: the stop test
`max_steps['all'] != 0 and …` never fires.  Any production returned by
`_find_matching_production` comes from a group whose cap is not reached and
has a non-empty match list. -/
theorem C7_step_cap_semantics :
    (∀ (maxStepsP : List (Int × Nat)) (counts : Int → Nat) (pr : Int),
      dget? maxStepsP pr = some 0 → groupCapped maxStepsP counts pr = true) ∧
    (∀ (maxStepsP : List (Int × Nat)) (counts : Int → Nat) (pr : Int),
      dget? maxStepsP pr = none → groupCapped maxStepsP counts pr = false) ∧
    (∀ grouped shuffle matchFn (counts : Int → Nat) maxStepsP pid msv,
      findMatchingProduction grouped shuffle matchFn counts maxStepsP
          = some (pid, msv) →
      ∃ pr, groupCapped maxStepsP counts pr = false ∧
        pid ∈ shuffle pr ((dget? grouped pr).getD []) ∧
        msv = matchFn pid ∧ msv ≠ []) ∧
    (∀ n : Nat, applyAllCapReached 0 n = false) := by
  refine ⟨?_, ?_, ?_, ?_⟩
  · intro maxStepsP counts pr h
    unfold groupCapped
    rw [h]
    exact decide_eq_true (Nat.zero_le _)
  · intro maxStepsP counts pr h
    unfold groupCapped
    rw [h]
  · intro grouped shuffle matchFn counts maxStepsP pid msv h
    exact fmpGo_some grouped shuffle matchFn counts maxStepsP _ pid msv h
  · intro n
    unfold applyAllCapReached
    simp

/-- C7 witness: the amended semantics evaluated concretely — a cap of 0 on
priority 5 counts as reached with 3 steps taken. -/
theorem C7_step_cap_semantics_witness :
    groupCapped [((5 : Int), 0)] (fun _ => 3) 5 = true := by
  exact C7_step_cap_semantics.1 [(5, 0)] (fun _ => 3) 5 rfl

/-! ## Claim C10: the connected-order iterator never yields faces -/

/-- C10: a graph holding one face (and nothing else) iterates to the empty
sequence, and a graph with one vertex and one face yields only the vertex —
although `element_list('connected')`'s docstring promises the faces after
the vertices and edges.  `_get_first_element`'s third branch tests `edges`
instead of `faces`, `_total_length` omits the faces, and no element ever
lists a face among its neighbours, so a face can never be yielded. -/
theorem C10_faces_never_iterated :
    elementListConnected ⟨[(0, mkFace [] [] [])], 1⟩ ⟨[], [], [0]⟩
        = Except.ok [] ∧
      (⟨[], [], [0]⟩ : PyGraph).size = 1 ∧
      elementListConnected ⟨[(0, mkFace [] [] []), (1, mkVertex [] [])], 2⟩
        ⟨[1], [], [0]⟩ = Except.ok [1] ∧
      (0 : Nat) ∈ (⟨[1], [], [0]⟩ : PyGraph).elemsVef := by
  exact ⟨rfl, rfl, rfl, by decide⟩

/-! ## Monad and store plumbing lemmas -/

@[simp] theorem except_bind_ok {ε α β : Type} (a : α) (f : α → Except ε β) :
    (Except.ok a >>= f) = f a := rfl

@[simp] theorem except_bind_error {ε α β : Type} (e : ε) (f : α → Except ε β) :
    ((Except.error e : Except ε α) >>= f) = Except.error e := rfl

@[simp] theorem except_pure_eq {ε α : Type} (a : α) :
    (pure a : Except ε α) = Except.ok a := rfl

@[simp] theorem except_map_ok {ε α β : Type} (f : α → β) (a : α) :
    (Except.ok a : Except ε α).map f = Except.ok (f a) := rfl

@[simp] theorem except_map_error {ε α β : Type} (f : α → β) (e : ε) :
    (Except.error e : Except ε α).map f = Except.error e := rfl

theorem dget?_dset_ne {α β : Type} [DecidableEq α] (m : List (α × β))
    (k k' : α) (v : β) (h : k' ≠ k) : dget? (dset m k v) k' = dget? m k' := by
  induction m with
  | nil =>
    simp only [dset, dget?]
    rw [if_neg (fun hc => h hc.symm)]
  | cons p rest ih =>
    obtain ⟨k0, v0⟩ := p
    simp only [dset]
    by_cases hk : k0 = k
    · subst hk
      rw [if_pos rfl]
      simp only [dget?]
      rw [if_neg (fun hc => h hc.symm), if_neg (fun hc => h hc.symm)]
    · rw [if_neg hk]
      simp only [dget?]
      by_cases hk' : k0 = k'
      · rw [if_pos hk', if_pos hk']
      · rw [if_neg hk', if_neg hk']
        exact ih

theorem dget?_dset_self {α β : Type} [DecidableEq α] (m : List (α × β))
    (k : α) (v : β) : dget? (dset m k v) k = some v := by
  induction m with
  | nil => simp [dset, dget?]
  | cons p rest ih =>
    obtain ⟨k0, v0⟩ := p
    simp only [dset]
    by_cases hk : k0 = k
    · subst hk
      rw [if_pos rfl]
      simp [dget?]
    · rw [if_neg hk]
      simp only [dget?, if_neg hk]
      exact ih

theorem store_get_set_ne (st : Store) (i j : Nat) (v : GElem) (h : i ≠ j) :
    (st.set j v).get i = st.get i := by
  unfold Store.get Store.find? Store.set
  simp only
  rw [dget?_dset_ne st.elems j i v h]

theorem store_get_set_self (st : Store) (i : Nat) (v : GElem) :
    (st.set i v).get i = v := by
  unfold Store.get Store.find? Store.set
  simp only
  rw [dget?_dset_self]
  rfl

/-! ## Claim C8: reciprocity-violation errors in `add_to` / `delete_from` -/

theorem ite_cond_true {α : Type} (a b : α) : (if true = true then a else b) = a := rfl

theorem ite_cond_false {α : Type} (a b : α) : (if false = true then a else b) = b := rfl

theorem raiseUnlessIgnored_some (igl : List Nat) (i : Nat) :
    raiseUnlessIgnored (some igl) i =
      if igl.contains i = true then Except.ok ()
      else Except.error PyErr.incongruentState := by
  unfold raiseUnlessIgnored notInIgnore
  dsimp only
  cases h : igl.contains i <;> rfl

theorem addToCheck_some (coll : List Nat) (igl : List Nat) (i : Nat) :
    addToCheck coll (some igl) i =
      if coll.contains i = false ∧ igl.contains i = false
      then Except.error PyErr.incongruentState else Except.ok () := by
  unfold addToCheck
  cases hc : coll.contains i
  · rw [if_pos (by rfl : (!false) = true), raiseUnlessIgnored_some]
    cases hig : igl.contains i
    · rw [ite_cond_false, if_pos ⟨rfl, rfl⟩]
    · rw [ite_cond_true, if_neg (by simp)]
  · rw [if_neg (by simp : ¬(!true) = true), if_neg (by simp)]

theorem vertexAddToLoop_err (g : PyGraph) (vId : Nat) (ig : List Nat) :
    ∀ (st : Store) (l : List Nat),
      (∃ e ∈ l, g.edges.contains e = false ∧ ig.contains e = false) →
      vertexAddToLoop g vId (some ig) st l = Except.error PyErr.incongruentState := by
  intro st l
  induction l generalizing st with
  | nil =>
    rintro ⟨e, he, _⟩
    cases he
  | cons eId rest ih =>
    rintro ⟨e, he, hv1, hv2⟩
    rcases List.mem_cons.mp he with rfl | he'
    · simp only [vertexAddToLoop]
      rw [addToCheck_some, if_pos ⟨hv1, hv2⟩]
    · have hrec : ∀ st0 : Store,
          vertexAddToLoop g vId (some ig) st0 rest
            = Except.error PyErr.incongruentState :=
        fun st0 => ih st0 ⟨e, he', hv1, hv2⟩
      simp only [vertexAddToLoop]
      rw [addToCheck_some]
      by_cases hP : g.edges.contains eId = false ∧ ig.contains eId = false
      · rw [if_pos hP]
      · rw [if_neg hP]
        dsimp only
        cases hn : (st.get eId).neighbours.contains vId with
        | true =>
          rw [if_neg (by simp : ¬(!true) = true)]
          exact hrec st
        | false =>
          rw [if_pos (by rfl : (!false) = true)]
          by_cases h1 : (st.get eId).vertex1 = none
          · rw [if_pos h1]
            exact hrec _
          · rw [if_neg h1]
            by_cases h2 : (st.get eId).vertex2 = none
            · rw [if_pos h2]
              exact hrec _
            · rw [if_neg h2]
              rw [raiseUnlessIgnored_some]
              cases hig2 : ig.contains eId with
              | true =>
                rw [ite_cond_true]
                dsimp only
                exact hrec st
              | false =>
                rw [ite_cond_false]

theorem vertexAddToLoop_ok (g : PyGraph) (vId : Nat) (ig : List Nat) :
    ∀ (st : Store) (l : List Nat), l.Nodup →
      (∀ e ∈ l, (g.edges.contains e = true ∨ ig.contains e = true) ∧
        ((st.get e).neighbours.contains vId = true ∨ (st.get e).vertex1 = none ∨
          (st.get e).vertex2 = none ∨ ig.contains e = true)) →
      ∃ st', vertexAddToLoop g vId (some ig) st l = Except.ok st' := by
  intro st l
  induction l generalizing st with
  | nil =>
    intro _ _
    exact ⟨st, rfl⟩
  | cons eId rest ih =>
    intro hnd hall
    obtain ⟨hc1, hc2⟩ := hall eId (List.mem_cons_self _ _)
    have hndr : rest.Nodup := (List.nodup_cons.mp hnd).2
    have hne : eId ∉ rest := (List.nodup_cons.mp hnd).1
    have hrest : ∀ (st1 : Store), (∀ e ∈ rest, st1.get e = st.get e) →
        ∀ e ∈ rest, (g.edges.contains e = true ∨ ig.contains e = true) ∧
          ((st1.get e).neighbours.contains vId = true ∨ (st1.get e).vertex1 = none ∨
            (st1.get e).vertex2 = none ∨ ig.contains e = true) := by
      intro st1 heq e hemem
      rw [heq e hemem]
      exact hall e (List.mem_cons_of_mem _ hemem)
    have hsetrest : ∀ v : GElem, ∀ e ∈ rest, ((st.set eId v).get e) = st.get e := by
      intro v e hemem
      refine store_get_set_ne st e eId v ?_
      intro hcon
      rw [hcon] at hemem
      exact hne hemem
    simp only [vertexAddToLoop]
    rw [addToCheck_some]
    have hP : ¬(g.edges.contains eId = false ∧ ig.contains eId = false) := by
      rcases hc1 with h | h
      · rintro ⟨ha, _⟩
        rw [h] at ha
        cases ha
      · rintro ⟨_, hb⟩
        rw [h] at hb
        cases hb
    rw [if_neg hP]
    dsimp only
    cases hn : (st.get eId).neighbours.contains vId with
    | true =>
      rw [if_neg (by simp : ¬(!true) = true)]
      exact ih st hndr (hrest st (fun _ _ => rfl))
    | false =>
      rw [if_pos (by rfl : (!false) = true)]
      by_cases h1 : (st.get eId).vertex1 = none
      · rw [if_pos h1]
        exact ih _ hndr (hrest _ (hsetrest _))
      · rw [if_neg h1]
        by_cases h2 : (st.get eId).vertex2 = none
        · rw [if_pos h2]
          exact ih _ hndr (hrest _ (hsetrest _))
        · rw [if_neg h2]
          have hig : ig.contains eId = true := by
            rcases hc2 with h | h | h | h
            · rw [h] at hn
              cases hn
            · exact absurd h h1
            · exact absurd h h2
            · exact h
          rw [raiseUnlessIgnored_some, hig, ite_cond_true]
          dsimp only
          exact ih st hndr (hrest st (fun _ _ => rfl))

theorem edgeDeleteVisit_cases (eId : Nat) (ig : List Nat) (st : Store) (v : Nat)
    (h : (st.get v).edges.contains eId = true ∨ ig.contains v = true) :
    edgeDeleteVisit eId (some ig) st (some v)
        = Except.ok (st.set v { st.get v with edges := (st.get v).edges.erase eId })
    ∨ ((st.get v).edges.contains eId = false ∧
        edgeDeleteVisit eId (some ig) st (some v) = Except.ok st) := by
  simp only [edgeDeleteVisit]
  cases hc : (st.get v).edges.contains eId with
  | true =>
    left
    rw [ite_cond_true]
  | false =>
    right
    refine ⟨rfl, ?_⟩
    rw [ite_cond_false, raiseUnlessIgnored_some]
    have hig : ig.contains v = true := by
      rcases h with h | h
      · rw [h] at hc
        cases hc
      · exact h
    rw [hig, ite_cond_true]

theorem edgeDeleteVisit_ok (eId : Nat) (ig : List Nat) (st : Store) (v : Nat)
    (h : (st.get v).edges.contains eId = true ∨ ig.contains v = true) :
    ∃ st', edgeDeleteVisit eId (some ig) st (some v) = Except.ok st' := by
  rcases edgeDeleteVisit_cases eId ig st v h with hh | ⟨_, hh⟩
  · exact ⟨_, hh⟩
  · exact ⟨_, hh⟩

theorem edgeDeleteVisit_err (eId : Nat) (ig : List Nat) (st : Store) (v : Nat)
    (hnc : (st.get v).edges.contains eId = false) (hig : ig.contains v = false) :
    edgeDeleteVisit eId (some ig) st (some v)
      = Except.error PyErr.incongruentState := by
  simp only [edgeDeleteVisit]
  rw [hnc, ite_cond_false, raiseUnlessIgnored_some, hig, ite_cond_false]

theorem edgeDeleteVisit_get_other (eId : Nat) (ig : List Nat) (st st1 : Store)
    (vo : Option Nat) (w : Nat) (hw : vo ≠ some w)
    (h : edgeDeleteVisit eId (some ig) st vo = Except.ok st1) :
    st1.get w = st.get w := by
  cases vo with
  | none =>
    cases h
    rfl
  | some v =>
    have hvw : v ≠ w := by
      intro hc
      rw [hc] at hw
      exact hw rfl
    simp only [edgeDeleteVisit] at h
    cases hc : (st.get v).edges.contains eId with
    | true =>
      rw [hc, ite_cond_true] at h
      cases h
      exact store_get_set_ne st w v _ (fun hh => hvw hh.symm)
    | false =>
      rw [hc, ite_cond_false, raiseUnlessIgnored_some] at h
      cases hig : ig.contains v with
      | true =>
        rw [hig, ite_cond_true] at h
        cases h
        rfl
      | false =>
        rw [hig, ite_cond_false] at h
        cases h

theorem edgeDeleteVisit_none (eId : Nat) (ig : Option (List Nat)) (st : Store) :
    edgeDeleteVisit eId ig st none = Except.ok st := rfl

theorem edgeDeleteVisit_error_eq (eId : Nat) (ig : List Nat) (st : Store)
    (vo : Option Nat) (er : PyErr)
    (h : edgeDeleteVisit eId (some ig) st vo = Except.error er) :
    er = PyErr.incongruentState := by
  cases vo with
  | none =>
    simp only [edgeDeleteVisit] at h
    cases h
  | some v =>
    simp only [edgeDeleteVisit] at h
    cases hc : (st.get v).edges.contains eId with
    | true =>
      rw [hc, ite_cond_true] at h
      cases h
    | false =>
      rw [hc, ite_cond_false, raiseUnlessIgnored_some] at h
      cases hig : ig.contains v with
      | true =>
        rw [hig, ite_cond_true] at h
        cases h
      | false =>
        rw [hig, ite_cond_false] at h
        cases h
        rfl

theorem edgeDeleteFrom_err (st : Store) (g : PyGraph) (eId : Nat) (ig : List Nat)
    (hmem : g.edges.contains eId = true) (v : Nat)
    (hend : (st.get eId).vertex1 = some v ∨ (st.get eId).vertex2 = some v)
    (hnc : (st.get v).edges.contains eId = false) (hig : ig.contains v = false) :
    edgeDeleteFrom st g eId (some ig) = Except.error PyErr.incongruentState := by
  unfold edgeDeleteFrom listRemove
  rw [hmem, ite_cond_true]
  simp only [except_bind_ok]
  by_cases h1 : (st.get eId).vertex1 = some v
  · rw [h1, edgeDeleteVisit_err eId ig st v hnc hig]
    rfl
  · have h2 : (st.get eId).vertex2 = some v := by
      rcases hend with h | h
      · exact absurd h h1
      · exact h
    cases hv1 : edgeDeleteVisit eId (some ig) st (st.get eId).vertex1 with
    | error er =>
      have he : er = PyErr.incongruentState :=
        edgeDeleteVisit_error_eq eId ig st _ er hv1
      subst he
      rfl
    | ok st1 =>
      simp only [except_bind_ok]
      have hvw : (st.get eId).vertex1 ≠ some v := h1
      have hget : st1.get v = st.get v :=
        edgeDeleteVisit_get_other eId ig st st1 _ v hvw hv1
      rw [h2, edgeDeleteVisit_err eId ig st1 v (by rw [hget]; exact hnc) hig]
      rfl

theorem edgeDeleteFrom_ok (st : Store) (g : PyGraph) (eId : Nat) (ig : List Nat)
    (hmem : g.edges.contains eId = true)
    (hcov : ∀ v, ((st.get eId).vertex1 = some v ∨ (st.get eId).vertex2 = some v) →
      ((st.get v).edges.contains eId = true ∨ ig.contains v = true))
    (hloop : (st.get eId).vertex1 = (st.get eId).vertex2 →
      (st.get eId).vertex1 = none ∨
        ∀ v, (st.get eId).vertex1 = some v → ig.contains v = true) :
    ∃ st', edgeDeleteFrom st g eId (some ig)
      = Except.ok (st', ⟨g.vertices, g.edges.erase eId, g.faces⟩) := by
  unfold edgeDeleteFrom listRemove
  rw [hmem, ite_cond_true]
  simp only [except_bind_ok]
  cases hv1o : (st.get eId).vertex1 with
  | none =>
    rw [edgeDeleteVisit_none]
    simp only [except_bind_ok]
    cases hv2o : (st.get eId).vertex2 with
    | none =>
      rw [edgeDeleteVisit_none]
      exact ⟨st, rfl⟩
    | some w =>
      obtain ⟨st2, h2⟩ := edgeDeleteVisit_ok eId ig st w (hcov w (Or.inr hv2o))
      rw [h2]
      exact ⟨st2, rfl⟩
  | some u =>
    rcases edgeDeleteVisit_cases eId ig st u (hcov u (Or.inl hv1o)) with h1 | ⟨hnc1, h1⟩
    · rw [h1]
      simp only [except_bind_ok]
      cases hv2o : (st.get eId).vertex2 with
      | none =>
        rw [edgeDeleteVisit_none]
        exact ⟨_, rfl⟩
      | some w =>
        by_cases hw : w = u
        · subst hw
          have hsl : (st.get eId).vertex1 = (st.get eId).vertex2 := by
            rw [hv1o, hv2o]
          rcases hloop hsl with hn | higf
          · rw [hv1o] at hn
            cases hn
          · have higw : ig.contains w = true := higf w hv1o
            obtain ⟨st2, h2⟩ := edgeDeleteVisit_ok eId ig
              (st.set w { st.get w with edges := (st.get w).edges.erase eId }) w
              (Or.inr higw)
            rw [h2]
            exact ⟨st2, rfl⟩
        · have hget : (st.set u { st.get u with edges := (st.get u).edges.erase eId }).get w
              = st.get w := store_get_set_ne _ _ _ _ hw
          obtain ⟨st2, h2⟩ := edgeDeleteVisit_ok eId ig
            (st.set u { st.get u with edges := (st.get u).edges.erase eId }) w
            (by rw [hget]; exact hcov w (Or.inr hv2o))
          rw [h2]
          exact ⟨st2, rfl⟩
    · rw [h1]
      simp only [except_bind_ok]
      cases hv2o : (st.get eId).vertex2 with
      | none =>
        rw [edgeDeleteVisit_none]
        exact ⟨_, rfl⟩
      | some w =>
        obtain ⟨st2, h2⟩ := edgeDeleteVisit_ok eId ig st w (hcov w (Or.inr hv2o))
        rw [h2]
        exact ⟨st2, rfl⟩

/-- C8: adding a vertex whose incident-edge references break
adjacency-reciprocity with the graph raises the fatal
`IncongruentGraphState` when the violator is not covered by the explicitly
passed ignore-set, and succeeds when every problem edge is covered; likewise
discarding an edge one of whose endpoints does not list it back raises
`IncongruentGraphState` unless that endpoint is exempted, and succeeds when
the endpoints are covered. -/
theorem C8_reciprocity_errors :
    (∀ (st : Store) (g : PyGraph) (vId : Nat) (ig : List Nat),
      (st.get vId).kind = EKind.vertex →
      dhas (st.get vId).attr ".generation" = true →
      (∃ e ∈ (st.get vId).edges, g.edges.contains e = false ∧ ig.contains e = false) →
      pyGraphAdd st g vId (some ig) = Except.error PyErr.incongruentState) ∧
    (∀ (st : Store) (g : PyGraph) (vId : Nat) (ig : List Nat),
      (st.get vId).kind = EKind.vertex →
      dhas (st.get vId).attr ".generation" = true →
      (st.get vId).edges.Nodup →
      (∀ e ∈ (st.get vId).edges,
        (g.edges.contains e = true ∨ ig.contains e = true) ∧
        ((st.get e).neighbours.contains vId = true ∨ (st.get e).vertex1 = none ∨
          (st.get e).vertex2 = none ∨ ig.contains e = true)) →
      ∃ st', pyGraphAdd st g vId (some ig)
        = Except.ok (st', ⟨g.vertices ++ [vId], g.edges, g.faces⟩)) ∧
    (∀ (st : Store) (g : PyGraph) (eId : Nat) (ig : List Nat) (v : Nat),
      (st.get eId).kind = EKind.edge →
      g.edges.contains eId = true →
      ((st.get eId).vertex1 = some v ∨ (st.get eId).vertex2 = some v) →
      (st.get v).edges.contains eId = false → ig.contains v = false →
      pyGraphDiscard st g eId (some ig) = Except.error PyErr.incongruentState) ∧
    (∀ (st : Store) (g : PyGraph) (eId : Nat) (ig : List Nat),
      (st.get eId).kind = EKind.edge →
      g.edges.contains eId = true →
      (∀ v, ((st.get eId).vertex1 = some v ∨ (st.get eId).vertex2 = some v) →
        ((st.get v).edges.contains eId = true ∨ ig.contains v = true)) →
      ((st.get eId).vertex1 = (st.get eId).vertex2 →
        (st.get eId).vertex1 = none ∨
          ∀ v, (st.get eId).vertex1 = some v → ig.contains v = true) →
      ∃ st', pyGraphDiscard st g eId (some ig)
        = Except.ok (st', ⟨g.vertices, g.edges.erase eId, g.faces⟩)) := by
  refine ⟨?_, ?_, ?_, ?_⟩
  · intro st g vId ig hk hgen hviol
    simp only [pyGraphAdd]
    rw [hgen, ite_cond_true]
    simp only [elemAddTo]
    rw [hk]
    show vertexAddTo st g vId ig = Except.error PyErr.incongruentState
    simp only [vertexAddTo]
    rw [vertexAddToLoop_err ⟨g.vertices ++ [vId], g.edges, g.faces⟩ vId ig st
      (st.get vId).edges hviol]
    rfl
  · intro st g vId ig hk hgen hnd hok
    simp only [pyGraphAdd]
    rw [hgen, ite_cond_true]
    simp only [elemAddTo]
    rw [hk]
    show ∃ st', vertexAddTo st g vId ig
      = Except.ok (st', ⟨g.vertices ++ [vId], g.edges, g.faces⟩)
    simp only [vertexAddTo]
    obtain ⟨st', hst'⟩ :=
      vertexAddToLoop_ok ⟨g.vertices ++ [vId], g.edges, g.faces⟩ vId ig st
        (st.get vId).edges hnd hok
    rw [hst']
    exact ⟨st', rfl⟩
  · intro st g eId ig v hk hmem hend hnc hig
    unfold pyGraphDiscard elemDeleteFrom
    rw [hk]
    exact edgeDeleteFrom_err st g eId ig hmem v hend hnc hig
  · intro st g eId ig hk hmem hcov hloop
    unfold pyGraphDiscard elemDeleteFrom
    rw [hk]
    exact edgeDeleteFrom_ok st g eId ig hmem hcov hloop

/-- C8 witness: the four clauses evaluated at concrete graphs — vertex `0`
references edge `5` missing from the empty graph (error, then success once
`5` is exempted); edge `2` of a one-edge graph is not listed back by its
endpoint `1` (error, then success once `1` is exempted). -/
theorem C8_reciprocity_errors_witness :
    pyGraphAdd ⟨[(0, mkVertex [(".generation", Attr.i 0)] [5])], 6⟩
        ⟨[], [], []⟩ 0 (some []) = Except.error PyErr.incongruentState ∧
      (∃ st', pyGraphAdd ⟨[(0, mkVertex [(".generation", Attr.i 0)] [5])], 6⟩
        ⟨[], [], []⟩ 0 (some [5]) = Except.ok (st', ⟨[0], [], []⟩)) ∧
      pyGraphDiscard ⟨[(1, mkVertex [] []), (2, mkEdge [] (some 1) none)], 3⟩
        ⟨[1], [2], []⟩ 2 (some []) = Except.error PyErr.incongruentState ∧
      (∃ st', pyGraphDiscard ⟨[(1, mkVertex [] []), (2, mkEdge [] (some 1) none)], 3⟩
        ⟨[1], [2], []⟩ 2 (some [1]) = Except.ok (st', ⟨[1], [], []⟩)) := by
  refine ⟨?_, ?_, ?_, ?_⟩
  · exact C8_reciprocity_errors.1 _ _ 0 [] rfl rfl ⟨5, by decide, rfl, rfl⟩
  · exact C8_reciprocity_errors.2.1 _ _ 0 [5] rfl rfl (by decide)
      (by decide)
  · exact C8_reciprocity_errors.2.2.1 _ _ 2 [] 1 rfl rfl (Or.inl rfl) rfl rfl
  · refine C8_reciprocity_errors.2.2.2 _ _ 2 [1] rfl rfl ?_ ?_
    · intro v hv
      rcases hv with hv | hv
      · cases hv
        right
        rfl
      · cases hv
    · intro h
      exact absurd h (by decide)

/-- C6 counterexample: two faces of the same kind, no attributes, eval mode —
the claim as stated demands `True` (every evaluation is vacuously truthy),
but `Face.matches` takes no `eval_attr` argument, so the call raises
`TypeError`. -/
theorem C6_matches_eval_face_counterexample :
    pyMatchesArg (fun _ _ _ => Except.ok true) (mkFace [] [] []) (mkFace [] [] []) true
        = Except.error PyErr.typeError ∧
      (mkFace [] [] []).kind = (mkFace [] [] []).kind := by
  exact ⟨rfl, rfl⟩

/-- C6 (amended): for same-kind candidate and pattern, the default call
`c.matches(p)` returns `True` iff every non-excluded pattern key is present
on the candidate with a Python-equal value; with `eval_attr` true and a
vertex or edge candidate, it returns `True` iff every such key is present
and its pattern expression evaluates truthily on the candidate's value and
attribute dict (a missing key yields `False`); a `Face` candidate rejects
the explicit `eval_attr` argument with `TypeError`; elements of different
kinds never match. -/
theorem C6_matches_semantics (c p : GElem) (ev : EvalFn) :
    (c.kind = p.kind →
      (pyMatchesDefault c p = true ↔
        ∀ kv ∈ p.attr, skipKey kv.1 = false →
          ∃ w, dget? c.attr kv.1 = some w ∧ pyEqAttr w kv.2 = true)) ∧
    (c.kind = p.kind → c.kind ≠ EKind.face →
      (pyMatchesArg ev c p true = Except.ok true ↔
        ∀ kv ∈ p.attr, skipKey kv.1 = false →
          ∃ w, dget? c.attr kv.1 = some w ∧ ev kv.2 w c.attr = Except.ok true)) ∧
    (c.kind = EKind.face → pyMatchesArg ev c p true = Except.error PyErr.typeError) ∧
    (c.kind ≠ p.kind →
      pyMatchesDefault c p = false ∧ pyMatchesArg ev c p true ≠ Except.ok true) := by
  refine ⟨?_, ?_, ?_, ?_⟩
  · intro hk
    simp only [pyMatchesDefault, hk, if_neg (by simp : ¬p.kind ≠ p.kind)]
    exact matchesAttrsEq_iff c.attr p.attr
  · intro hk hf
    unfold pyMatchesArg
    rw [if_neg hf, hk, if_neg (by simp : ¬p.kind ≠ p.kind), if_pos rfl]
    exact matchesAttrsEval_ok_iff ev c.attr p.attr
  · intro hf
    simp [pyMatchesArg, hf]
  · intro hk
    constructor
    · simp [pyMatchesDefault, if_pos hk]
    · by_cases hf : c.kind = EKind.face
      · simp [pyMatchesArg, hf]
      · simp [pyMatchesArg, hf, if_pos hk]

/-- C6 witness: the amended equivalences evaluated at concrete elements. -/
theorem C6_matches_semantics_witness :
    pyMatchesDefault (mkVertex [("a", Attr.i 1), ("b", Attr.i 2)] [])
      (mkVertex [("a", Attr.i 1), ("x", Attr.i 9), (".m", Attr.i 3)] []) = true := by
  have h := (C6_matches_semantics
    (mkVertex [("a", Attr.i 1), ("b", Attr.i 2)] [])
    (mkVertex [("a", Attr.i 1), ("x", Attr.i 9), (".m", Attr.i 3)] [])
    (fun _ _ _ => Except.ok true)).1 rfl
  exact h.mpr (by decide)

/-! ## Claim C3: store plumbing for the frame proof -/

theorem dget?_nil {α β : Type} [DecidableEq α] (k : α) :
    dget? ([] : List (α × β)) k = none := rfl

theorem dget?_cons {α β : Type} [DecidableEq α] (k' k : α) (v' : β)
    (r : List (α × β)) :
    dget? ((k', v') :: r) k = if k' = k then some v' else dget? r k := rfl

theorem dset_nil {α β : Type} [DecidableEq α] (k : α) (v : β) :
    dset ([] : List (α × β)) k v = [(k, v)] := rfl

theorem dset_cons {α β : Type} [DecidableEq α] (k' k : α) (v' v : β)
    (r : List (α × β)) :
    dset ((k', v') :: r) k v =
      if k' = k then (k, v) :: r else (k', v') :: dset r k v := rfl

theorem dkeys_cons {α β : Type} (k' : α) (v' : β) (r : List (α × β)) :
    dkeys ((k', v') :: r) = k' :: dkeys r := rfl

theorem dget?_append {α β : Type} [DecidableEq α] (l1 l2 : List (α × β)) (k : α) :
    dget? (l1 ++ l2) k =
      match dget? l1 k with
      | some v => some v
      | none => dget? l2 k := by
  induction l1 with
  | nil => rfl
  | cons p rest ih =>
    obtain ⟨k', v'⟩ := p
    show dget? ((k', v') :: (rest ++ l2)) k = _
    rw [dget?_cons, dget?_cons]
    by_cases h : k' = k
    · rw [if_pos h, if_pos h]
    · rw [if_neg h, if_neg h, ih]

theorem find?_set_ne (st : Store) (i j : Nat) (v : GElem) (h : i ≠ j) :
    (st.set j v).find? i = st.find? i := by
  unfold Store.set Store.find?
  exact dget?_dset_ne st.elems j i v h

theorem find?_set_self (st : Store) (i : Nat) (v : GElem) :
    (st.set i v).find? i = some v := by
  unfold Store.set Store.find?
  exact dget?_dset_self st.elems i v

theorem mem_dset {α β : Type} [DecidableEq α] (m : List (α × β)) (k : α)
    (v : β) : ∀ p ∈ dset m k v, p = (k, v) ∨ p ∈ m := by
  induction m with
  | nil =>
    intro p hp
    rw [dset_nil] at hp
    rcases List.mem_singleton.mp hp with rfl
    exact Or.inl rfl
  | cons q rest ih =>
    obtain ⟨k', v'⟩ := q
    intro p hp
    rw [dset_cons] at hp
    by_cases h : k' = k
    · rw [if_pos h] at hp
      rcases List.mem_cons.mp hp with rfl | hp'
      · exact Or.inl rfl
      · exact Or.inr (List.mem_cons_of_mem _ hp')
    · rw [if_neg h] at hp
      rcases List.mem_cons.mp hp with rfl | hp'
      · exact Or.inr (List.mem_cons_self _ _)
      · rcases ih p hp' with h1 | h1
        · exact Or.inl h1
        · exact Or.inr (List.mem_cons_of_mem _ h1)

theorem dkeys_dset {α β : Type} [DecidableEq α] (m : List (α × β)) (k : α)
    (v : β) :
    dkeys (dset m k v) = if dhas m k then dkeys m else dkeys m ++ [k] := by
  induction m with
  | nil => rfl
  | cons q rest ih =>
    obtain ⟨k', v'⟩ := q
    rw [dset_cons]
    by_cases h : k' = k
    · subst h
      rw [if_pos rfl]
      have hh : dhas ((k', v') :: rest) k' = true := by
        unfold dhas
        rw [dget?_cons, if_pos rfl]
        rfl
      rw [hh, ite_cond_true, dkeys_cons, dkeys_cons]
    · rw [if_neg h, dkeys_cons, ih]
      have hh : dhas ((k', v') :: rest) k = dhas rest k := by
        unfold dhas
        rw [dget?_cons, if_neg h]
      rw [hh]
      cases hg : dhas rest k
      · rw [ite_cond_false, ite_cond_false, dkeys_cons]
        rfl
      · rw [ite_cond_true, ite_cond_true, dkeys_cons]

theorem wf_set (st : Store) (i : Nat) (v : GElem) (hwf : Store.wf st)
    (hi : i < st.next) : Store.wf (st.set i v) := by
  obtain ⟨hwk, hwn⟩ := hwf
  constructor
  · intro p hp
    rcases mem_dset st.elems i v p hp with rfl | hp'
    · exact hi
    · exact hwk p hp'
  · show (dkeys (dset st.elems i v)).Nodup
    rw [dkeys_dset]
    cases hh : dhas st.elems i
    · rw [ite_cond_false]
      simp only [List.nodup_append, List.nodup_cons, List.nodup_nil]
      refine ⟨hwn, by simp, ?_⟩
      intro a ha hb
      rcases List.mem_singleton.mp hb with rfl
      have hex : ∃ w, (a, w) ∈ st.elems := by
        rcases List.mem_map.mp ha with ⟨p, hp, hpe⟩
        exact ⟨p.2, by rw [← hpe]; exact hp⟩
      rw [← dhas_iff_exists] at hex
      rw [hh] at hex
      cases hex
    · rw [ite_cond_true]
      exact hwn

theorem get_eq_of_find?_eq {st1 st2 : Store} {i : Nat}
    (h : st1.find? i = st2.find? i) : st1.get i = st2.get i := by
  unfold Store.get
  rw [h]

theorem find?_ge_none (st : Store) (i : Nat) (hwf : Store.wf st)
    (hi : st.next ≤ i) : st.find? i = none := by
  cases hg : st.find? i with
  | none => rfl
  | some v =>
    have hm : (i, v) ∈ st.elems := dget?_eq_some_mem hg
    have h2 : i < st.next := hwf.1 (i, v) hm
    exact absurd h2 (by omega)

theorem alloc1_find_ne (st : Store) (a : GElem) (i : Nat) (h : st.next ≠ i) :
    (⟨st.elems ++ [(st.next, a)], st.next + 1⟩ : Store).find? i = st.find? i := by
  show dget? (st.elems ++ [(st.next, a)]) i = dget? st.elems i
  rw [dget?_append]
  cases hg : dget? st.elems i
  · rw [dget?_cons, if_neg h, dget?_nil]
  · rfl

theorem alloc1_wf (st : Store) (a : GElem) (hwf : Store.wf st) :
    Store.wf (⟨st.elems ++ [(st.next, a)], st.next + 1⟩ : Store) := by
  obtain ⟨hwk, hwn⟩ := hwf
  constructor
  · intro p hp
    rcases List.mem_append.mp hp with hp' | hp'
    · have h2 : p.1 < st.next := hwk p hp'
      show p.1 < st.next + 1
      omega
    · rcases List.mem_singleton.mp hp' with rfl
      show st.next < st.next + 1
      omega
  · show (dkeys (st.elems ++ [(st.next, a)])).Nodup
    unfold dkeys
    rw [List.map_append]
    simp only [List.nodup_append, List.map_cons, List.map_nil,
      List.nodup_cons, List.nodup_nil]
    refine ⟨hwn, by simp, ?_⟩
    intro x hx hb
    rcases List.mem_singleton.mp hb with rfl
    rcases List.mem_map.mp hx with ⟨p, hp, hpe⟩
    have h2 : p.1 < st.next := hwk p hp
    rw [hpe] at h2
    exact absurd h2 (by omega)

theorem allocCopies_next (st : Store) (l : List Nat) :
    (allocCopies st l).1.next = st.next + l.length := by
  induction l generalizing st with
  | nil => rfl
  | cons a rest ih =>
    simp only [allocCopies, Store.alloc]
    rw [ih]
    show st.next + 1 + rest.length = st.next + (a :: rest).length
    simp only [List.length_cons]
    omega

theorem allocCopies_props (st : Store) (l : List Nat) :
    (∀ p ∈ (allocCopies st l).2, st.next ≤ p.2 ∧ p.2 < st.next + l.length) ∧
    (allocCopies st l).2.map Prod.fst = l := by
  induction l generalizing st with
  | nil =>
    refine ⟨?_, rfl⟩
    intro p hp
    cases hp
  | cons a rest ih =>
    simp only [allocCopies, Store.alloc]
    obtain ⟨ihv, ihk⟩ := ih (⟨st.elems ++ [(st.next, st.get a)], st.next + 1⟩ : Store)
    constructor
    · intro p hp
      rcases List.mem_cons.mp hp with rfl | hp'
      · show st.next ≤ st.next ∧ st.next < st.next + (a :: rest).length
        simp only [List.length_cons]
        omega
      · have h2 : st.next + 1 ≤ p.2 ∧ p.2 < st.next + 1 + rest.length := ihv p hp'
        show st.next ≤ p.2 ∧ p.2 < st.next + (a :: rest).length
        simp only [List.length_cons]
        omega
    · simp only [List.map_cons, ihk]

theorem allocCopies_find_old (st : Store) (l : List Nat) (i : Nat)
    (h : ∀ p ∈ (allocCopies st l).2, p.2 ≠ i) :
    (allocCopies st l).1.find? i = st.find? i := by
  induction l generalizing st with
  | nil => rfl
  | cons a rest ih =>
    simp only [allocCopies, Store.alloc] at h ⊢
    have hne : st.next ≠ i := h (a, st.next) (List.mem_cons_self _ _)
    rw [ih _ (fun p hp => h p (List.mem_cons_of_mem _ hp))]
    exact alloc1_find_ne st (st.get a) i hne

theorem allocCopies_wf (st : Store) (l : List Nat) (hwf : Store.wf st) :
    Store.wf (allocCopies st l).1 := by
  induction l generalizing st with
  | nil => exact hwf
  | cons a rest ih =>
    simp only [allocCopies, Store.alloc]
    exact ih _ (alloc1_wf st (st.get a) hwf)

theorem allocCopies_content (st : Store) (l : List Nat) (hwf : Store.wf st)
    (hl : ∀ i ∈ l, i < st.next) :
    ∀ p ∈ (allocCopies st l).2,
      (allocCopies st l).1.find? p.2 = some (st.get p.1) := by
  induction l generalizing st with
  | nil =>
    intro p hp
    cases hp
  | cons a rest ih =>
    intro p hp
    simp only [allocCopies, Store.alloc] at hp ⊢
    have hwf1 : Store.wf (⟨st.elems ++ [(st.next, st.get a)], st.next + 1⟩ : Store) :=
      alloc1_wf st (st.get a) hwf
    rcases List.mem_cons.mp hp with rfl | hp'
    · show (allocCopies
          (⟨st.elems ++ [(st.next, st.get a)], st.next + 1⟩ : Store) rest).1.find? st.next
        = some (st.get a)
      have hfr : (allocCopies
          (⟨st.elems ++ [(st.next, st.get a)], st.next + 1⟩ : Store) rest).1.find? st.next
          = (⟨st.elems ++ [(st.next, st.get a)], st.next + 1⟩ : Store).find? st.next := by
        refine allocCopies_find_old _ rest st.next (fun q hq => ?_)
        have h2 : st.next + 1 ≤ q.2 ∧
            q.2 < st.next + 1 + rest.length := (allocCopies_props
          (⟨st.elems ++ [(st.next, st.get a)], st.next + 1⟩ : Store) rest).1 q hq
        show q.2 ≠ st.next
        omega
      rw [hfr]
      show dget? (st.elems ++ [(st.next, st.get a)]) st.next = some (st.get a)
      rw [dget?_append]
      have hnone : dget? st.elems st.next = none :=
        find?_ge_none st st.next hwf (le_refl _)
      rw [hnone]
      rw [dget?_cons, if_pos rfl]
    · have hl1 : ∀ i ∈ rest, i <
          (⟨st.elems ++ [(st.next, st.get a)], st.next + 1⟩ : Store).next := by
        intro i hi
        have h2 : i < st.next := hl i (List.mem_cons_of_mem _ hi)
        show i < st.next + 1
        omega
      have hres := ih _ hwf1 hl1 p hp'
      rw [hres]
      have hpa : p.1 < st.next := hl p.1 (List.mem_cons_of_mem _ (by
        have hk := (allocCopies_props
          (⟨st.elems ++ [(st.next, st.get a)], st.next + 1⟩ : Store) rest).2
        rw [← hk]
        exact List.mem_map_of_mem Prod.fst hp'))
      exact congrArg some
        (get_eq_of_find?_eq (alloc1_find_ne st (st.get a) p.1 (by omega)))

theorem refsGE_default (n : Nat) : RefsGE n (mkVertex [] []) := by
  refine ⟨?_, ?_, ?_⟩ <;> intro x hx <;> cases hx

theorem highClosed_of_wf (st : Store) (hwf : Store.wf st) :
    HighClosed st.next st := by
  intro i hi
  unfold Store.get
  rw [find?_ge_none st i hwf hi]
  exact refsGE_default st.next

theorem highClosed_set (n : Nat) (st : Store) (i : Nat) (v : GElem)
    (h : HighClosed n st) (hv : RefsGE n v) : HighClosed n (st.set i v) := by
  intro j hj
  by_cases hij : j = i
  · subst hij
    rw [store_get_set_self]
    exact hv
  · rw [store_get_set_ne st j i v hij]
    exact h j hj

theorem remapFold_next (m : List (Nat × Nat)) :
    ∀ (rem : List (Nat × Nat)) (st : Store),
      (rem.foldl (fun s p => s.set p.2 (remapElem m (s.get p.2))) st).next
        = st.next := by
  intro rem
  induction rem with
  | nil =>
    intro st
    rfl
  | cons p rest ih =>
    intro st
    simp only [List.foldl_cons]
    rw [ih]
    rfl

theorem remapFold_frame (m : List (Nat × Nat)) (k : Nat) :
    ∀ (rem : List (Nat × Nat)) (st : Store), (∀ p ∈ rem, k ≤ p.2) →
      ∀ i, i < k →
        (rem.foldl (fun s p => s.set p.2 (remapElem m (s.get p.2))) st).find? i
          = st.find? i := by
  intro rem
  induction rem with
  | nil =>
    intro st _ i _
    rfl
  | cons p rest ih =>
    intro st hge i hi
    simp only [List.foldl_cons]
    rw [ih _ (fun q hq => hge q (List.mem_cons_of_mem _ hq)) i hi]
    refine find?_set_ne st i p.2 _ ?_
    have h2 := hge p (List.mem_cons_self _ _)
    omega

theorem remapFold_wf (m : List (Nat × Nat)) :
    ∀ (rem : List (Nat × Nat)) (st : Store), Store.wf st →
      (∀ p ∈ rem, p.2 < st.next) →
      Store.wf (rem.foldl (fun s p => s.set p.2 (remapElem m (s.get p.2))) st) := by
  intro rem
  induction rem with
  | nil =>
    intro st h _
    exact h
  | cons p rest ih =>
    intro st hwf hlt
    simp only [List.foldl_cons]
    refine ih _ (wf_set st p.2 _ hwf (hlt p (List.mem_cons_self _ _))) ?_
    intro q hq
    exact hlt q (List.mem_cons_of_mem _ hq)

theorem mem_toList_map (f : Nat → Nat) (o : Option Nat) (y : Nat)
    (hy : y ∈ (o.map f).toList) : ∃ x ∈ o.toList, f x = y := by
  cases o with
  | none => cases hy
  | some x =>
    rcases List.mem_singleton.mp hy with rfl
    exact ⟨x, by simp, rfl⟩

theorem remapElem_refsGE (n : Nat) (m : List (Nat × Nat)) (e : GElem)
    (hvals : ∀ p ∈ m, n ≤ p.2)
    (h : RefsGE n e ∨ RefsIn (m.map Prod.fst) e) :
    RefsGE n (remapElem m e) := by
  have hone : ∀ x : Nat, (n ≤ x ∨ x ∈ m.map Prod.fst) →
      n ≤ (dget? m x).getD x := by
    intro x hx
    cases hd : dget? m x with
    | none =>
      rcases hx with hx | hx
      · exact hx
      · rcases List.mem_map.mp hx with ⟨p, hp, hpe⟩
        have hpm : (p.1, p.2) ∈ m := by
          rw [Prod.mk.eta]
          exact hp
        rw [hpe] at hpm
        have hh : dhas m x = true := (dhas_iff_exists m x).mpr ⟨p.2, hpm⟩
        unfold dhas at hh
        rw [hd] at hh
        cases hh
    | some w =>
      exact hvals _ (dget?_eq_some_mem hd)
  have hpt : (∀ x ∈ e.edges, n ≤ (dget? m x).getD x) ∧
      (∀ x ∈ e.vertex1.toList, n ≤ (dget? m x).getD x) ∧
      (∀ x ∈ e.vertex2.toList, n ≤ (dget? m x).getD x) := by
    rcases h with ⟨h1, h2, h3⟩ | ⟨h1, h2, h3⟩
    · exact ⟨fun x hx => hone x (Or.inl (h1 x hx)),
        fun x hx => hone x (Or.inl (h2 x hx)),
        fun x hx => hone x (Or.inl (h3 x hx))⟩
    · exact ⟨fun x hx => hone x (Or.inr (h1 x hx)),
        fun x hx => hone x (Or.inr (h2 x hx)),
        fun x hx => hone x (Or.inr (h3 x hx))⟩
  refine ⟨?_, ?_, ?_⟩
  · intro y hy
    have hy2 : y ∈ e.edges.map (fun x => (dget? m x).getD x) := hy
    rcases List.mem_map.mp hy2 with ⟨x, hx, rfl⟩
    exact hpt.1 x hx
  · intro y hy
    have hy2 : y ∈ (e.vertex1.map (fun x => (dget? m x).getD x)).toList := hy
    rcases mem_toList_map _ _ _ hy2 with ⟨x, hx, rfl⟩
    exact hpt.2.1 x hx
  · intro y hy
    have hy2 : y ∈ (e.vertex2.map (fun x => (dget? m x).getD x)).toList := hy
    rcases mem_toList_map _ _ _ hy2 with ⟨x, hx, rfl⟩
    exact hpt.2.2 x hx

theorem remapFold_highClosed (n : Nat) (m : List (Nat × Nat))
    (hvals : ∀ p ∈ m, n ≤ p.2) :
    ∀ (rem : List (Nat × Nat)) (st : Store),
      (∀ i, n ≤ i → RefsGE n (st.get i) ∨
        ((∃ p ∈ rem, p.2 = i) ∧ RefsIn (m.map Prod.fst) (st.get i))) →
      HighClosed n (rem.foldl (fun s p => s.set p.2 (remapElem m (s.get p.2))) st) := by
  intro rem
  induction rem with
  | nil =>
    intro st h i hi
    rcases h i hi with h1 | ⟨⟨p, hp, _⟩, _⟩
    · exact h1
    · cases hp
  | cons p rest ih =>
    intro st h
    simp only [List.foldl_cons]
    refine ih _ ?_
    intro j hj
    by_cases hjp : j = p.2
    · subst hjp
      left
      rw [store_get_set_self]
      refine remapElem_refsGE n m (st.get p.2) hvals ?_
      rcases h p.2 hj with h1 | ⟨_, h2⟩
      · exact Or.inl h1
      · exact Or.inr h2
    · rw [store_get_set_ne st j p.2 _ hjp]
      rcases h j hj with h1 | ⟨⟨q, hq, hq2⟩, h2⟩
      · exact Or.inl h1
      · rcases List.mem_cons.mp hq with rfl | hq'
        · exact absurd hq2.symm hjp
        · exact Or.inr ⟨⟨q, hq', hq2⟩, h2⟩

theorem nonRecursiveCopy_good (n : Nat) (st : Store) (g : PyGraph)
    (hn : n ≤ st.next) (hwf : Store.wf st)
    (hlive : ∀ i ∈ g.elemsVef, i < st.next)
    (hclosed : ∀ i ∈ g.elemsVef, RefsIn g.elemsVef (st.get i))
    (hhc : HighClosed n st) :
    Store.wf (nonRecursiveCopy st g).1 ∧
    (nonRecursiveCopy st g).1.next = st.next + g.elemsVef.length ∧
    (∀ i, i < st.next → (nonRecursiveCopy st g).1.find? i = st.find? i) ∧
    HighClosed n (nonRecursiveCopy st g).1 ∧
    (∀ p ∈ (nonRecursiveCopy st g).2.2, st.next ≤ p.2) := by
  unfold nonRecursiveCopy
  rcases hA : allocCopies st g.elemsVef with ⟨stA, mA⟩
  dsimp only
  have hnext : stA.next = st.next + g.elemsVef.length := by
    have h1 := allocCopies_next st g.elemsVef
    rw [hA] at h1
    exact h1
  have hvals : ∀ p ∈ mA, st.next ≤ p.2 ∧ p.2 < st.next + g.elemsVef.length := by
    have h1 := (allocCopies_props st g.elemsVef).1
    rw [hA] at h1
    exact h1
  have hkeys : mA.map Prod.fst = g.elemsVef := by
    have h1 := (allocCopies_props st g.elemsVef).2
    rw [hA] at h1
    exact h1
  have hwfA : Store.wf stA := by
    have h1 := allocCopies_wf st g.elemsVef hwf
    rw [hA] at h1
    exact h1
  have hcont : ∀ p ∈ mA, stA.find? p.2 = some (st.get p.1) := by
    have h1 := allocCopies_content st g.elemsVef hwf hlive
    rw [hA] at h1
    exact h1
  have hframeA : ∀ i, (∀ p ∈ mA, p.2 ≠ i) → stA.find? i = st.find? i := by
    intro i hni
    have h1 := allocCopies_find_old st g.elemsVef i (by rw [hA]; exact hni)
    rw [hA] at h1
    exact h1
  refine ⟨?_, ?_, ?_, ?_, ?_⟩
  · refine remapFold_wf mA mA stA hwfA ?_
    intro q hq
    have h2 := hvals q hq
    omega
  · rw [remapFold_next, hnext]
  · intro i hi
    rw [remapFold_frame mA st.next mA stA (fun q hq => (hvals q hq).1) i hi]
    refine hframeA i ?_
    intro p hp
    have h2 := hvals p hp
    omega
  · refine remapFold_highClosed n mA (fun p hp => le_trans hn (hvals p hp).1) mA stA ?_
    intro i hi
    by_cases hex : ∃ p ∈ mA, p.2 = i
    · right
      refine ⟨hex, ?_⟩
      rcases hex with ⟨p, hp, rfl⟩
      have hgi : stA.get p.2 = st.get p.1 := by
        unfold Store.get
        rw [hcont p hp]
        rfl
      rw [hgi, hkeys]
      refine hclosed p.1 ?_
      rw [← hkeys]
      exact List.mem_map_of_mem Prod.fst hp
    · left
      have hgi : stA.get i = st.get i :=
        get_eq_of_find?_eq (hframeA i (fun p hp hpe => hex ⟨p, hp, hpe⟩))
      rw [hgi]
      exact hhc i hi
  · exact fun p hp => (hvals p hp).1

theorem buildHierarchy_good (n : Nat) (st : Store) (host : PyGraph) (m2h : MapA)
    (opt : POption)
    (hn : n ≤ st.next) (hwf : Store.wf st)
    (hlive : ∀ i ∈ host.elemsVef, i < st.next)
    (hclosed : ∀ i ∈ host.elemsVef, RefsIn host.elemsVef (st.get i))
    (hdlive : ∀ i ∈ opt.daughterGraph.elemsVef, i < st.next)
    (hdclosed : ∀ i ∈ opt.daughterGraph.elemsVef,
      RefsIn opt.daughterGraph.elemsVef (st.get i))
    (hhc : HighClosed n st) :
    Store.wf (buildHierarchy st host m2h opt).1 ∧
    st.next ≤ (buildHierarchy st host m2h opt).1.next ∧
    (∀ i, i < st.next → (buildHierarchy st host m2h opt).1.find? i = st.find? i) ∧
    HighClosed n (buildHierarchy st host m2h opt).1 ∧
    (∀ a y, dget? (buildHierarchy st host m2h opt).2.2.2.hostToResult a = some y →
      st.next ≤ y) ∧
    (∀ a y, dget? (buildHierarchy st host m2h opt).2.2.2.daughterToCopy a = some y →
      st.next ≤ y) := by
  unfold buildHierarchy
  rcases hH : nonRecursiveCopy st host with ⟨stH, rg, h2r⟩
  dsimp only
  have hHg := nonRecursiveCopy_good n st host hn hwf hlive hclosed hhc
  rw [hH] at hHg
  dsimp only at hHg
  obtain ⟨hwfH, hnextH, hframeH, hhcH, hvalsH⟩ := hHg
  rcases hD : nonRecursiveCopy stH opt.daughterGraph with ⟨stD, cg, d2c⟩
  dsimp only
  have hDg := nonRecursiveCopy_good n stH opt.daughterGraph
    (by rw [hnextH]; omega) hwfH
    (fun i hi => by
      have h2 := hdlive i hi
      rw [hnextH]
      omega)
    (fun i hi => by
      have hgi : stH.get i = st.get i :=
        get_eq_of_find?_eq (hframeH i (hdlive i hi))
      rw [hgi]
      exact hdclosed i hi)
    hhcH
  rw [hD] at hDg
  dsimp only at hDg
  obtain ⟨hwfD, hnextD, hframeD, hhcD, hvalsD⟩ := hDg
  refine ⟨hwfD, ?_, ?_, hhcD, ?_, ?_⟩
  · rw [hnextD, hnextH]
    omega
  · intro i hi
    rw [hframeD i (by rw [hnextH]; omega)]
    exact hframeH i hi
  · intro a y hy
    exact hvalsH (a, y) (dget?_eq_some_mem hy)
  · intro a y hy
    have h2 : stH.next ≤ y := hvalsD (a, y) (dget?_eq_some_mem hy)
    rw [hnextH] at h2
    omega

theorem movementLookup_down1 (h : Hierarchy) (e : Nat) :
    movementLookup h 1 false e = Except.ok (dget? h.hostToResult e) := by
  simp [movementLookup]

theorem movementLookup_down2 (h : Hierarchy) (e : Nat) :
    movementLookup h 2 false e = Except.ok (dget? h.motherToHost e) := by
  simp [movementLookup]

theorem movementLookup_down3 (h : Hierarchy) (e : Nat) :
    movementLookup h 3 false e = Except.ok (dinvGet? h.motherToDaughter e) := by
  simp [movementLookup]

theorem movementLookup_down4 (h : Hierarchy) (e : Nat) :
    movementLookup h 4 false e = Except.ok (dinvGet? h.daughterToCopy e) := by
  simp [movementLookup]

theorem movementLookup_up0 (h : Hierarchy) (e : Nat) :
    movementLookup h 0 true e = Except.ok (dinvGet? h.hostToResult e) := by
  simp [movementLookup]

theorem movementLookup_up1 (h : Hierarchy) (e : Nat) :
    movementLookup h 1 true e = Except.ok (dinvGet? h.motherToHost e) := by
  simp [movementLookup]

theorem movementLookup_up2 (h : Hierarchy) (e : Nat) :
    movementLookup h 2 true e = Except.ok (dget? h.motherToDaughter e) := by
  simp [movementLookup]

theorem movementLookup_up3 (h : Hierarchy) (e : Nat) :
    movementLookup h 3 true e = Except.ok (dget? h.daughterToCopy e) := by
  simp [movementLookup]

theorem hmapInt_same (h : Hierarchy) (e : Nat) (s : Int) (hs0 : 0 ≤ s)
    (hs4 : s ≤ 4) : hmapInt h e s s = Except.ok (some e) := by
  rw [hmapInt.eq_def]
  rw [if_neg (by omega), if_neg (by omega), dif_pos rfl]

theorem hmapInt_zero_val (h : Hierarchy) :
    ∀ (k : Nat) (e y : Nat) (s : Int), s = (k : Int) + 1 →
      hmapInt h e s 0 = Except.ok (some y) →
      ∃ a, dget? h.hostToResult a = some y := by
  intro k
  induction k with
  | zero =>
    intro e y s hs hm
    have h1 : s = 1 := by omega
    rw [h1] at hm
    rw [hmapInt.eq_def] at hm
    rw [if_neg (by omega), if_neg (by omega), dif_neg (by omega),
      dif_neg (by omega), movementLookup_down1] at hm
    cases hd : dget? h.hostToResult e with
    | none =>
      rw [hd] at hm
      cases hm
    | some r =>
      rw [hd] at hm
      dsimp only at hm
      rw [show (1 - 1 : Int) = 0 from by omega] at hm
      rw [hmapInt_same h r 0 (by omega) (by omega)] at hm
      cases hm
      exact ⟨e, hd⟩
  | succ m ih =>
    intro e y s hs hm
    rw [hmapInt.eq_def] at hm
    rw [if_neg (by omega)] at hm
    by_cases hb : s < 0 ∨ 4 < s
    · rw [if_pos hb] at hm
      cases hm
    · rw [if_neg hb, dif_neg (by omega), dif_neg (by omega)] at hm
      have hs234 : s = 2 ∨ s = 3 ∨ s = 4 := by omega
      rcases hs234 with h2 | h3 | h4
      · rw [h2, movementLookup_down2] at hm
        cases hd : dget? h.motherToHost e with
        | none =>
          rw [hd] at hm
          cases hm
        | some r =>
          rw [hd] at hm
          dsimp only at hm
          exact ih r y (2 - 1) (by omega) hm
      · rw [h3, movementLookup_down3] at hm
        cases hd : dinvGet? h.motherToDaughter e with
        | none =>
          rw [hd] at hm
          cases hm
        | some r =>
          rw [hd] at hm
          dsimp only at hm
          exact ih r y (3 - 1) (by omega) hm
      · rw [h4, movementLookup_down4] at hm
        cases hd : dinvGet? h.daughterToCopy e with
        | none =>
          rw [hd] at hm
          cases hm
        | some r =>
          rw [hd] at hm
          dsimp only at hm
          exact ih r y (4 - 1) (by omega) hm

theorem hmapInt_four_val (h : Hierarchy) :
    ∀ (k : Nat) (e y : Nat) (s : Int), s + (k : Int) + 1 = 4 →
      hmapInt h e s 4 = Except.ok (some y) →
      ∃ a, dget? h.daughterToCopy a = some y := by
  intro k
  induction k with
  | zero =>
    intro e y s hs hm
    have h1 : s = 3 := by omega
    rw [h1] at hm
    rw [hmapInt.eq_def] at hm
    rw [if_neg (by omega), if_neg (by omega), dif_neg (by omega),
      dif_pos (by omega), movementLookup_up3] at hm
    cases hd : dget? h.daughterToCopy e with
    | none =>
      rw [hd] at hm
      cases hm
    | some r =>
      rw [hd] at hm
      dsimp only at hm
      rw [show (3 + 1 : Int) = 4 from by omega] at hm
      rw [hmapInt_same h r 4 (by omega) (by omega)] at hm
      cases hm
      exact ⟨e, hd⟩
  | succ m ih =>
    intro e y s hs hm
    rw [hmapInt.eq_def] at hm
    rw [if_neg (by omega)] at hm
    by_cases hb : s < 0 ∨ 4 < s
    · rw [if_pos hb] at hm
      cases hm
    · rw [if_neg hb, dif_neg (by omega), dif_pos (by omega)] at hm
      have hs012 : s = 0 ∨ s = 1 ∨ s = 2 := by omega
      rcases hs012 with h0 | h1 | h2
      · rw [h0, movementLookup_up0] at hm
        cases hd : dinvGet? h.hostToResult e with
        | none =>
          rw [hd] at hm
          cases hm
        | some r =>
          rw [hd] at hm
          dsimp only at hm
          exact ih r y (0 + 1) (by omega) hm
      · rw [h1, movementLookup_up1] at hm
        cases hd : dinvGet? h.motherToHost e with
        | none =>
          rw [hd] at hm
          cases hm
        | some r =>
          rw [hd] at hm
          dsimp only at hm
          exact ih r y (1 + 1) (by omega) hm
      · rw [h2, movementLookup_up2] at hm
        cases hd : dget? h.motherToDaughter e with
        | none =>
          rw [hd] at hm
          cases hm
        | some r =>
          rw [hd] at hm
          dsimp only at hm
          exact ih r y (2 + 1) (by omega) hm

theorem hmap_MR_val (h : Hierarchy) (e y : Nat)
    (hm : hmap h e (LevelKey.str "M") (LevelKey.str "R") = Except.ok (some y)) :
    ∃ a, dget? h.hostToResult a = some y := by
  unfold hmap at hm
  rw [show levelOfKey (LevelKey.str "M") = Except.ok 2 from rfl,
    show levelOfKey (LevelKey.str "R") = Except.ok 0 from rfl] at hm
  dsimp only at hm
  exact hmapInt_zero_val h 1 e y 2 (by omega) hm

theorem hmap_DR_val (h : Hierarchy) (e y : Nat)
    (hm : hmap h e (LevelKey.str "D") (LevelKey.str "R") = Except.ok (some y)) :
    ∃ a, dget? h.hostToResult a = some y := by
  unfold hmap at hm
  rw [show levelOfKey (LevelKey.str "D") = Except.ok 3 from rfl,
    show levelOfKey (LevelKey.str "R") = Except.ok 0 from rfl] at hm
  dsimp only at hm
  exact hmapInt_zero_val h 2 e y 3 (by omega) hm

theorem hmap_CR_val (h : Hierarchy) (e y : Nat)
    (hm : hmap h e (LevelKey.str "C") (LevelKey.str "R") = Except.ok (some y)) :
    ∃ a, dget? h.hostToResult a = some y := by
  unfold hmap at hm
  rw [show levelOfKey (LevelKey.str "C") = Except.ok 4 from rfl,
    show levelOfKey (LevelKey.str "R") = Except.ok 0 from rfl] at hm
  dsimp only at hm
  exact hmapInt_zero_val h 3 e y 4 (by omega) hm

theorem hmap_DC_val (h : Hierarchy) (e y : Nat)
    (hm : hmap h e (LevelKey.str "D") (LevelKey.str "C") = Except.ok (some y)) :
    ∃ a, dget? h.daughterToCopy a = some y := by
  unfold hmap at hm
  rw [show levelOfKey (LevelKey.str "D") = Except.ok 3 from rfl,
    show levelOfKey (LevelKey.str "C") = Except.ok 4 from rfl] at hm
  dsimp only at hm
  exact hmapInt_four_val h 0 e y 3 (by omega) hm

theorem hmap_RC_val (h : Hierarchy) (e y : Nat)
    (hm : hmap h e (LevelKey.str "R") (LevelKey.str "C") = Except.ok (some y)) :
    ∃ a, dget? h.daughterToCopy a = some y := by
  unfold hmap at hm
  rw [show levelOfKey (LevelKey.str "R") = Except.ok 0 from rfl,
    show levelOfKey (LevelKey.str "C") = Except.ok 4 from rfl] at hm
  dsimp only at hm
  exact hmapInt_four_val h 3 e y 0 (by omega) hm

theorem mapM_ok_spec {α β : Type} (f : α → Except PyErr β) :
    ∀ (l : List α) (out : List β), l.mapM f = Except.ok out →
      ∀ b ∈ out, ∃ a ∈ l, f a = Except.ok b := by
  intro l
  induction l with
  | nil =>
    intro out hout b hb
    rw [List.mapM_nil] at hout
    rw [except_pure_eq] at hout
    cases hout
    cases hb
  | cons a rest ih =>
    intro out hout b hb
    rw [List.mapM_cons] at hout
    cases hfa : f a with
    | error er =>
      rw [hfa] at hout
      simp only [except_bind_error] at hout
      cases hout
    | ok x =>
      rw [hfa] at hout
      simp only [except_bind_ok] at hout
      cases hrest : rest.mapM f with
      | error er =>
        rw [hrest] at hout
        simp only [except_bind_error] at hout
        cases hout
      | ok xs =>
        rw [hrest] at hout
        simp only [except_bind_ok, except_pure_eq] at hout
        cases hout
        rcases List.mem_cons.mp hb with rfl | hb2
        · exact ⟨a, List.mem_cons_self _ _, hfa⟩
        · rcases ih xs hrest b hb2 with ⟨a2, ha2, hfa2⟩
          exact ⟨a2, List.mem_cons_of_mem _ ha2, hfa2⟩

theorem mem_foldl_erase (l0 rem : List Nat) (x : Nat) :
    x ∈ rem.foldl (fun l y => l.erase y) l0 → x ∈ l0 := by
  induction rem generalizing l0 with
  | nil =>
    intro hx
    exact hx
  | cons a rest ih =>
    intro hx
    simp only [List.foldl_cons] at hx
    exact List.mem_of_mem_erase (ih _ hx)

theorem mem_foldl_pySetAdd (rem : List Nat) :
    ∀ (l0 : List Nat) (x : Nat), x ∈ rem.foldl pySetAdd l0 → x ∈ l0 ∨ x ∈ rem := by
  induction rem with
  | nil =>
    intro l0 x hx
    exact Or.inl hx
  | cons a rest ih =>
    intro l0 x hx
    simp only [List.foldl_cons] at hx
    rcases ih _ x hx with h1 | h1
    · unfold pySetAdd at h1
      by_cases hc : l0.contains a
      · rw [if_pos hc] at h1
        exact Or.inl h1
      · rw [if_neg hc] at h1
        rcases List.mem_append.mp h1 with h2 | h2
        · exact Or.inl h2
        · rcases List.mem_singleton.mp h2 with rfl
          exact Or.inr (List.mem_cons_self _ _)
    · exact Or.inr (List.mem_cons_of_mem _ h1)

theorem vertexReplaceConnectionM_refsGE (n : Nat) (e e2 : GElem)
    (f : Nat → Except PyErr (Option Nat))
    (hok : vertexReplaceConnectionM e f = Except.ok e2)
    (hres : ∀ x ∈ e.edges, ∀ r, f x = Except.ok (some r) → n ≤ r)
    (he : RefsGE n e) : RefsGE n e2 := by
  unfold vertexReplaceConnectionM at hok
  cases hp : e.edges.mapM (fun x => do
      let r ← f x
      pure (x, r)) with
  | error er =>
    rw [hp] at hok
    simp only [except_bind_error] at hok
    cases hok
  | ok pairs =>
    rw [hp] at hok
    simp only [except_bind_ok, except_pure_eq] at hok
    cases hok
    refine ⟨?_, he.2.1, he.2.2⟩
    intro x hx
    have hx2 : x ∈ (pairs.filterMap (fun p => p.2)).foldl pySetAdd
        (((pairs.filter (fun p => p.2.isSome)).map Prod.fst).foldl
          (fun l y => l.erase y) e.edges) := hx
    rcases mem_foldl_pySetAdd _ _ x hx2 with h1 | h1
    · exact he.1 x (mem_foldl_erase e.edges _ x h1)
    · rcases List.mem_filterMap.mp h1 with ⟨p, hp2, hpe⟩
      rcases mapM_ok_spec _ e.edges pairs hp p hp2 with ⟨a, ha, hfa⟩
      cases hfr : f a with
      | error er =>
        rw [hfr] at hfa
        simp only [except_bind_error] at hfa
        cases hfa
      | ok r =>
        rw [hfr] at hfa
        simp only [except_bind_ok, except_pure_eq] at hfa
        cases hfa
        have hr : r = some x := hpe
        rw [hr] at hfr
        exact hres a ha x hfr

theorem edgeReplaceConnectionM_refsGE (n : Nat) (e e2 : GElem)
    (f : Option Nat → Except PyErr (Option Nat)) (rep : Bool)
    (hok : edgeReplaceConnectionM e f rep = Except.ok e2)
    (h1 : ∀ r, f e.vertex1 = Except.ok (some r) → n ≤ r)
    (h2 : ∀ r, f e.vertex2 = Except.ok (some r) → n ≤ r)
    (he : RefsGE n e) : RefsGE n e2 := by
  unfold edgeReplaceConnectionM at hok
  cases hf1 : f e.vertex1 with
  | error er =>
    rw [hf1] at hok
    simp only [except_bind_error] at hok
    cases hok
  | ok r1 =>
    rw [hf1] at hok
    simp only [except_bind_ok] at hok
    cases hf2 : f e.vertex2 with
    | error er =>
      rw [hf2] at hok
      simp only [except_bind_error] at hok
      cases hok
    | ok r2 =>
      rw [hf2] at hok
      simp only [except_bind_ok, except_pure_eq] at hok
      cases hok
      refine ⟨he.1, ?_, ?_⟩
      · intro x hx
        cases r1 with
        | none =>
          cases rep with
          | true => cases hx
          | false => exact he.2.1 x hx
        | some r =>
          rcases List.mem_singleton.mp hx with rfl
          exact h1 x hf1
      · intro x hx
        cases r2 with
        | none =>
          cases rep with
          | true => cases hx
          | false => exact he.2.2 x hx
        | some r =>
          rcases List.mem_singleton.mp hx with rfl
          exact h2 x hf2

theorem elemReplaceConnectionM_refsGE (n : Nat) (e e2 : GElem)
    (f : Option Nat → Except PyErr (Option Nat)) (rep : Bool)
    (hok : elemReplaceConnectionM e f rep = Except.ok e2)
    (hf : ∀ xo r, f xo = Except.ok (some r) → n ≤ r)
    (he : RefsGE n e) : RefsGE n e2 := by
  unfold elemReplaceConnectionM at hok
  cases hk : e.kind with
  | vertex =>
    rw [hk] at hok
    exact vertexReplaceConnectionM_refsGE n e e2 _ hok
      (fun x _ r hr => hf (some x) r hr) he
  | edge =>
    rw [hk] at hok
    exact edgeReplaceConnectionM_refsGE n e e2 f rep hok
      (fun r hr => hf _ r hr) (fun r hr => hf _ r hr) he
  | face =>
    rw [hk] at hok
    have hok2 : Except.ok e = Except.ok e2 := hok
    cases hok2
    exact he

theorem storeStep_refl (n : Nat) (st : Store) (h : HighClosed n st) :
    StoreStep n st st := ⟨rfl, fun _ _ => rfl, h⟩

theorem storeStep_trans {n : Nat} {st1 st2 st3 : Store}
    (h1 : StoreStep n st1 st2) (h2 : StoreStep n st2 st3) :
    StoreStep n st1 st3 :=
  ⟨h2.1.trans h1.1, fun i hi => (h2.2.1 i hi).trans (h1.2.1 i hi), h2.2.2⟩

theorem storeStep_set (n : Nat) (st : Store) (i : Nat) (v : GElem)
    (hi : n ≤ i) (hhc : HighClosed n st) (hv : RefsGE n v) :
    StoreStep n st (st.set i v) :=
  ⟨rfl, fun j hj => find?_set_ne st j i v (by omega),
    highClosed_set n st i v hhc hv⟩

theorem refsGE_neighbours_vertex (n : Nat) (e : GElem)
    (hk : e.kind = EKind.vertex) (h : RefsGE n e) :
    ∀ x ∈ e.neighbours, n ≤ x := by
  intro x hx
  unfold GElem.neighbours at hx
  rw [hk] at hx
  exact h.1 x hx

theorem refsGE_neighbours_edge (n : Nat) (e : GElem)
    (hk : e.kind = EKind.edge) (h : RefsGE n e) :
    ∀ x ∈ e.neighbours, n ≤ x := by
  intro x hx
  unfold GElem.neighbours at hx
  rw [hk] at hx
  have hx2 : x ∈ e.vertex1.toList ++ e.vertex2.toList := hx
  rcases List.mem_append.mp hx2 with h1 | h1
  · exact h.2.1 x h1
  · exact h.2.2 x h1

theorem mem_pySetAdd (l : List Nat) (a x : Nat) (hx : x ∈ pySetAdd l a) :
    x ∈ l ∨ x = a := by
  unfold pySetAdd at hx
  by_cases hc : l.contains a
  · rw [if_pos hc] at hx
    exact Or.inl hx
  · rw [if_neg hc] at hx
    rcases List.mem_append.mp hx with h1 | h1
    · exact Or.inl h1
    · exact Or.inr (List.mem_singleton.mp h1)

theorem vertexAddToLoop_step (g : PyGraph) (vId : Nat) (ig : Option (List Nat))
    (n : Nat) (hv : n ≤ vId) :
    ∀ (l : List Nat) (st st2 : Store), (∀ e ∈ l, n ≤ e) → HighClosed n st →
      vertexAddToLoop g vId ig st l = Except.ok st2 →
      StoreStep n st st2 := by
  intro l
  induction l with
  | nil =>
    intro st st2 _ hhc hok
    cases hok
    exact storeStep_refl n st hhc
  | cons eId rest ih =>
    intro st st2 hge hhc hok
    simp only [vertexAddToLoop] at hok
    cases hchk : addToCheck g.edges ig eId with
    | error er =>
      rw [hchk] at hok
      cases hok
    | ok u =>
      rw [hchk] at hok
      dsimp only at hok
      have hne : n ≤ eId := hge eId (List.mem_cons_self _ _)
      have hrest : ∀ e ∈ rest, n ≤ e := fun e he => hge e (List.mem_cons_of_mem _ he)
      cases hnb : (st.get eId).neighbours.contains vId with
      | false =>
        rw [hnb, if_pos (by rfl : (!false) = true)] at hok
        by_cases h1 : (st.get eId).vertex1 = none
        · rw [if_pos h1] at hok
          have hstep : StoreStep n st
              (st.set eId { st.get eId with vertex1 := some vId }) := by
            refine storeStep_set n st eId _ hne hhc ?_
            obtain ⟨ha, hb, hc⟩ := hhc eId hne
            refine ⟨ha, ?_, hc⟩
            intro x hx
            rcases List.mem_singleton.mp hx with rfl
            exact hv
          exact storeStep_trans hstep (ih _ st2 hrest hstep.2.2 hok)
        · rw [if_neg h1] at hok
          by_cases h2 : (st.get eId).vertex2 = none
          · rw [if_pos h2] at hok
            have hstep : StoreStep n st
                (st.set eId { st.get eId with vertex2 := some vId }) := by
              refine storeStep_set n st eId _ hne hhc ?_
              obtain ⟨ha, hb, hc⟩ := hhc eId hne
              refine ⟨ha, hb, ?_⟩
              intro x hx
              rcases List.mem_singleton.mp hx with rfl
              exact hv
            exact storeStep_trans hstep (ih _ st2 hrest hstep.2.2 hok)
          · rw [if_neg h2] at hok
            cases hru : raiseUnlessIgnored ig eId with
            | error er =>
              rw [hru] at hok
              cases hok
            | ok u2 =>
              rw [hru] at hok
              exact ih _ st2 hrest hhc hok
      | true =>
        rw [hnb, if_neg (by simp : ¬(!true) = true)] at hok
        exact ih _ st2 hrest hhc hok

theorem edgeAddToLoop_step (g : PyGraph) (eId : Nat) (ig : Option (List Nat))
    (n : Nat) (he : n ≤ eId) :
    ∀ (l : List Nat) (st st2 : Store), (∀ v ∈ l, n ≤ v) → HighClosed n st →
      edgeAddToLoop g eId ig st l = Except.ok st2 →
      StoreStep n st st2 := by
  intro l
  induction l with
  | nil =>
    intro st st2 _ hhc hok
    cases hok
    exact storeStep_refl n st hhc
  | cons v rest ih =>
    intro st st2 hge hhc hok
    simp only [edgeAddToLoop] at hok
    cases hchk : addToCheck g.vertices ig v with
    | error er =>
      rw [hchk] at hok
      cases hok
    | ok u =>
      rw [hchk] at hok
      dsimp only at hok
      have hnv : n ≤ v := hge v (List.mem_cons_self _ _)
      have hrest : ∀ w ∈ rest, n ≤ w := fun w hw => hge w (List.mem_cons_of_mem _ hw)
      have hstep : StoreStep n st
          (st.set v { st.get v with edges := pySetAdd (st.get v).edges eId }) := by
        refine storeStep_set n st v _ hnv hhc ?_
        obtain ⟨ha, hb, hc⟩ := hhc v hnv
        refine ⟨?_, hb, hc⟩
        intro x hx
        rcases mem_pySetAdd _ _ _ hx with h1 | rfl
        · exact ha x h1
        · exact he
      exact storeStep_trans hstep (ih _ st2 hrest hstep.2.2 hok)

theorem vertexDeleteLoop_step (vId : Nat) (ig : Option (List Nat)) (n : Nat) :
    ∀ (l : List Nat) (st st2 : Store), (∀ e ∈ l, n ≤ e) → HighClosed n st →
      vertexDeleteLoop vId ig st l = Except.ok st2 →
      StoreStep n st st2 := by
  intro l
  induction l with
  | nil =>
    intro st st2 _ hhc hok
    cases hok
    exact storeStep_refl n st hhc
  | cons eId rest ih =>
    intro st st2 hge hhc hok
    simp only [vertexDeleteLoop] at hok
    have hne : n ≤ eId := hge eId (List.mem_cons_self _ _)
    have hrest : ∀ e ∈ rest, n ≤ e := fun e hee => hge e (List.mem_cons_of_mem _ hee)
    cases hnb : (st.get eId).neighbours.contains vId with
    | true =>
      rw [hnb, ite_cond_true] at hok
      have hstep : StoreStep n st (st.set eId
          (if (if (st.get eId).vertex1 = some vId then
              { st.get eId with vertex1 := none } else st.get eId).vertex2 = some vId
            then { (if (st.get eId).vertex1 = some vId then
              { st.get eId with vertex1 := none } else st.get eId) with vertex2 := none }
            else (if (st.get eId).vertex1 = some vId then
              { st.get eId with vertex1 := none } else st.get eId))) := by
        refine storeStep_set n st eId _ hne hhc ?_
        have h0 : RefsGE n (st.get eId) := hhc eId hne
        have h1 : RefsGE n (if (st.get eId).vertex1 = some vId then
            { st.get eId with vertex1 := none } else st.get eId) := by
          by_cases hc : (st.get eId).vertex1 = some vId
          · rw [if_pos hc]
            refine ⟨h0.1, ?_, h0.2.2⟩
            intro x hx
            cases hx
          · rw [if_neg hc]
            exact h0
        by_cases hc2 : (if (st.get eId).vertex1 = some vId then
            { st.get eId with vertex1 := none } else st.get eId).vertex2 = some vId
        · rw [if_pos hc2]
          refine ⟨h1.1, h1.2.1, ?_⟩
          intro x hx
          cases hx
        · rw [if_neg hc2]
          exact h1
      exact storeStep_trans hstep (ih _ st2 hrest hstep.2.2 hok)
    | false =>
      rw [hnb, ite_cond_false] at hok
      cases hru : raiseUnlessIgnored ig eId with
      | error er =>
        rw [hru] at hok
        cases hok
      | ok u =>
        rw [hru] at hok
        exact ih _ st2 hrest hhc hok

theorem edgeDeleteVisit_step (eId : Nat) (ig : Option (List Nat)) (n : Nat)
    (vo : Option Nat) (st st2 : Store)
    (hvo : ∀ v, vo = some v → n ≤ v) (hhc : HighClosed n st)
    (hok : edgeDeleteVisit eId ig st vo = Except.ok st2) :
    StoreStep n st st2 := by
  cases vo with
  | none =>
    rw [edgeDeleteVisit_none] at hok
    cases hok
    exact storeStep_refl n st hhc
  | some v =>
    simp only [edgeDeleteVisit] at hok
    have hnv : n ≤ v := hvo v rfl
    cases hc : (st.get v).edges.contains eId with
    | true =>
      rw [hc, ite_cond_true] at hok
      cases hok
      refine storeStep_set n st v _ hnv hhc ?_
      obtain ⟨ha, hb, hcc⟩ := hhc v hnv
      refine ⟨?_, hb, hcc⟩
      intro x hx
      exact ha x (List.mem_of_mem_erase hx)
    | false =>
      rw [hc, ite_cond_false] at hok
      cases hru : raiseUnlessIgnored ig v with
      | error er =>
        rw [hru] at hok
        cases hok
      | ok u =>
        rw [hru] at hok
        cases hok
        exact storeStep_refl n st hhc

theorem vertexAddTo_step (st : Store) (g : PyGraph) (vId : Nat)
    (ig : Option (List Nat)) (n : Nat) (hv : n ≤ vId) (hhc : HighClosed n st)
    (st2 : Store) (g2 : PyGraph)
    (hok : vertexAddTo st g vId ig = Except.ok (st2, g2)) :
    StoreStep n st st2 := by
  simp only [vertexAddTo] at hok
  cases hl : vertexAddToLoop ⟨g.vertices ++ [vId], g.edges, g.faces⟩ vId ig st
      (st.get vId).edges with
  | error er =>
    rw [hl] at hok
    simp only [except_bind_error] at hok
    cases hok
  | ok st1 =>
    rw [hl] at hok
    simp only [except_bind_ok, except_pure_eq] at hok
    cases hok
    exact vertexAddToLoop_step _ vId ig n hv _ st st2 (hhc vId hv).1 hhc hl

theorem edgeAddTo_step (st : Store) (g : PyGraph) (eId : Nat)
    (ig : Option (List Nat)) (n : Nat) (he : n ≤ eId)
    (hk : (st.get eId).kind = EKind.edge) (hhc : HighClosed n st)
    (st2 : Store) (g2 : PyGraph)
    (hok : edgeAddTo st g eId ig = Except.ok (st2, g2)) :
    StoreStep n st st2 := by
  simp only [edgeAddTo] at hok
  cases hl : edgeAddToLoop ⟨g.vertices, g.edges ++ [eId], g.faces⟩ eId ig st
      (st.get eId).neighbours with
  | error er =>
    rw [hl] at hok
    simp only [except_bind_error] at hok
    cases hok
  | ok st1 =>
    rw [hl] at hok
    simp only [except_bind_ok, except_pure_eq] at hok
    cases hok
    exact edgeAddToLoop_step _ eId ig n he _ st st2
      (refsGE_neighbours_edge n (st.get eId) hk (hhc eId he)) hhc hl

theorem vertexDeleteFrom_step (st : Store) (g : PyGraph) (vId : Nat)
    (ig : Option (List Nat)) (n : Nat) (hv : n ≤ vId) (hhc : HighClosed n st)
    (st2 : Store) (g2 : PyGraph)
    (hok : vertexDeleteFrom st g vId ig = Except.ok (st2, g2)) :
    StoreStep n st st2 := by
  simp only [vertexDeleteFrom] at hok
  cases hlr : listRemove g.vertices vId with
  | error er =>
    rw [hlr] at hok
    simp only [except_bind_error] at hok
    cases hok
  | ok vs =>
    rw [hlr] at hok
    simp only [except_bind_ok] at hok
    cases hl : vertexDeleteLoop vId ig st (st.get vId).edges with
    | error er =>
      rw [hl] at hok
      simp only [except_bind_error] at hok
      cases hok
    | ok st1 =>
      rw [hl] at hok
      simp only [except_bind_ok, except_pure_eq] at hok
      cases hok
      exact vertexDeleteLoop_step vId ig n _ st st2 (hhc vId hv).1 hhc hl

theorem edgeDeleteFrom_step (st : Store) (g : PyGraph) (eId : Nat)
    (ig : Option (List Nat)) (n : Nat) (he : n ≤ eId) (hhc : HighClosed n st)
    (st2 : Store) (g2 : PyGraph)
    (hok : edgeDeleteFrom st g eId ig = Except.ok (st2, g2)) :
    StoreStep n st st2 := by
  simp only [edgeDeleteFrom] at hok
  cases hlr : listRemove g.edges eId with
  | error er =>
    rw [hlr] at hok
    simp only [except_bind_error] at hok
    cases hok
  | ok es =>
    rw [hlr] at hok
    simp only [except_bind_ok] at hok
    cases hv1 : edgeDeleteVisit eId ig st (st.get eId).vertex1 with
    | error er =>
      rw [hv1] at hok
      simp only [except_bind_error] at hok
      cases hok
    | ok st1 =>
      rw [hv1] at hok
      simp only [except_bind_ok] at hok
      have hstep1 : StoreStep n st st1 := by
        refine edgeDeleteVisit_step eId ig n _ st st1 ?_ hhc hv1
        intro v hveq
        refine (hhc eId he).2.1 v ?_
        rw [hveq]
        simp
      cases hv2 : edgeDeleteVisit eId ig st1 (st.get eId).vertex2 with
      | error er =>
        rw [hv2] at hok
        simp only [except_bind_error] at hok
        cases hok
      | ok st3 =>
        rw [hv2] at hok
        simp only [except_bind_ok, except_pure_eq] at hok
        cases hok
        have hstep2 : StoreStep n st1 st2 := by
          refine edgeDeleteVisit_step eId ig n _ st1 st2 ?_ hstep1.2.2 hv2
          intro v hveq
          refine (hhc eId he).2.2 v ?_
          rw [hveq]
          simp
        exact storeStep_trans hstep1 hstep2

theorem elemAddTo_step (st : Store) (g : PyGraph) (i : Nat)
    (ig : Option (List Nat)) (n : Nat) (hi : n ≤ i) (hhc : HighClosed n st)
    (st2 : Store) (g2 : PyGraph)
    (hok : elemAddTo st g i ig = Except.ok (st2, g2)) :
    StoreStep n st st2 := by
  unfold elemAddTo at hok
  cases hk : (st.get i).kind with
  | vertex =>
    rw [hk] at hok
    exact vertexAddTo_step st g i ig n hi hhc st2 g2 hok
  | edge =>
    rw [hk] at hok
    exact edgeAddTo_step st g i ig n hi hk hhc st2 g2 hok
  | face =>
    rw [hk] at hok
    have hok2 : Except.ok (Prod.mk st
        (⟨g.vertices, g.edges, g.faces ++ [i]⟩ : PyGraph)) = Except.ok (st2, g2) := hok
    cases hok2
    exact storeStep_refl n st hhc

theorem elemDeleteFrom_step (st : Store) (g : PyGraph) (i : Nat)
    (ig : Option (List Nat)) (n : Nat) (hi : n ≤ i) (hhc : HighClosed n st)
    (st2 : Store) (g2 : PyGraph)
    (hok : elemDeleteFrom st g i ig = Except.ok (st2, g2)) :
    StoreStep n st st2 := by
  unfold elemDeleteFrom at hok
  cases hk : (st.get i).kind with
  | vertex =>
    rw [hk] at hok
    exact vertexDeleteFrom_step st g i ig n hi hhc st2 g2 hok
  | edge =>
    rw [hk] at hok
    exact edgeDeleteFrom_step st g i ig n hi hhc st2 g2 hok
  | face =>
    rw [hk] at hok
    dsimp only at hok
    cases hlr : listRemove g.faces i with
    | error er =>
      rw [hlr] at hok
      simp only [except_bind_error] at hok
      cases hok
    | ok fs =>
      rw [hlr] at hok
      simp only [except_bind_ok, except_pure_eq] at hok
      cases hok
      exact storeStep_refl n st hhc

theorem pyGraphAdd_step (st : Store) (g : PyGraph) (i : Nat)
    (ig : Option (List Nat)) (n : Nat) (hi : n ≤ i) (hhc : HighClosed n st)
    (st2 : Store) (g2 : PyGraph)
    (hok : pyGraphAdd st g i ig = Except.ok (st2, g2)) :
    StoreStep n st st2 := by
  simp only [pyGraphAdd] at hok
  cases hgen : dhas (st.get i).attr ".generation" with
  | true =>
    rw [hgen, ite_cond_true] at hok
    exact elemAddTo_step st g i ig n hi hhc st2 g2 hok
  | false =>
    rw [hgen, ite_cond_false] at hok
    cases helc : elementListConnected st g with
    | error er =>
      rw [helc] at hok
      simp only [except_bind_error] at hok
      cases hok
    | ok elems =>
      rw [helc] at hok
      simp only [except_bind_ok] at hok
      cases hgg : getMaxGenerationList st elems with
      | error er =>
        rw [hgg] at hok
        simp only [except_bind_error] at hok
        cases hok
      | ok gen =>
        rw [hgg] at hok
        simp only [except_bind_ok] at hok
        have hstep1 : StoreStep n st (st.set i { st.get i with
            attr := dset (st.get i).attr ".generation" (Attr.i gen) }) :=
          storeStep_set n st i _ hi hhc (hhc i hi)
        exact storeStep_trans hstep1
          (elemAddTo_step _ g i ig n hi hstep1.2.2 st2 g2 hok)

theorem pyGraphDiscard_step (st : Store) (g : PyGraph) (i : Nat)
    (ig : Option (List Nat)) (n : Nat) (hi : n ≤ i) (hhc : HighClosed n st)
    (st2 : Store) (g2 : PyGraph)
    (hok : pyGraphDiscard st g i ig = Except.ok (st2, g2)) :
    StoreStep n st st2 := by
  unfold pyGraphDiscard at hok
  exact elemDeleteFrom_step st g i ig n hi hhc st2 g2 hok

theorem except_bind_ok_inv {ε α β : Type} {e : Except ε α} {f : α → Except ε β}
    {b : β} (h : (e >>= f) = Except.ok b) :
    ∃ a, e = Except.ok a ∧ f a = Except.ok b := by
  cases e with
  | error er =>
    rw [except_bind_error] at h
    cases h
  | ok a =>
    rw [except_bind_ok] at h
    exact ⟨a, rfl, h⟩

theorem storeStep_set_attr (n : Nat) (st : Store) (i : Nat)
    (hi : n ≤ i) (hhc : HighClosed n st) (a : List (String × Attr)) :
    StoreStep n st (st.set i { st.get i with attr := a }) :=
  storeStep_set n st i _ hi hhc (hhc i hi)

theorem severConnections_step (h : Hierarchy) (n : Nat)
    (hR : ∀ a y, dget? h.hostToResult a = some y → n ≤ y) :
    ∀ (ec : List (Nat × Nat)) (st st2 : Store), HighClosed n st →
      severConnections h st ec = Except.ok st2 → StoreStep n st st2 := by
  intro ec
  induction ec with
  | nil =>
    intro st st2 hhc hok
    cases hok
    exact storeStep_refl n st hhc
  | cons p rest ih =>
    intro st st2 hhc hok
    obtain ⟨mEdge, mVertex⟩ := p
    simp only [severConnections] at hok
    obtain ⟨rEdgeO, hre, hok⟩ := except_bind_ok_inv hok
    obtain ⟨rVertexO, hrv, hok⟩ := except_bind_ok_inv hok
    cases rEdgeO with
    | none => cases hok
    | some rE =>
      dsimp only at hok
      have hnE : n ≤ rE := by
        rcases hmap_MR_val h mEdge rE hre with ⟨a, ha⟩
        exact hR a rE ha
      obtain ⟨e1, herc, hok⟩ := except_bind_ok_inv hok
      have he1 : RefsGE n e1 := by
        refine edgeReplaceConnectionM_refsGE n (st.get rE) e1 _ true herc
          ?_ ?_ (hhc rE hnE)
        · intro r hr
          have hr2 : (if (st.get rE).vertex1 = rVertexO then none
              else (st.get rE).vertex1) = some r := Except.ok.inj hr
          by_cases hcc : (st.get rE).vertex1 = rVertexO
          · rw [if_pos hcc] at hr2
            cases hr2
          · rw [if_neg hcc] at hr2
            refine (hhc rE hnE).2.1 r ?_
            rw [hr2]
            simp
        · intro r hr
          have hr2 : (if (st.get rE).vertex2 = rVertexO then none
              else (st.get rE).vertex2) = some r := Except.ok.inj hr
          by_cases hcc : (st.get rE).vertex2 = rVertexO
          · rw [if_pos hcc] at hr2
            cases hr2
          · rw [if_neg hcc] at hr2
            refine (hhc rE hnE).2.2 r ?_
            rw [hr2]
            simp
      cases rVertexO with
      | none => cases hok
      | some rV =>
        dsimp only at hok
        have hnV : n ≤ rV := by
          rcases hmap_MR_val h mVertex rV hrv with ⟨a, ha⟩
          exact hR a rV ha
        have hstep1 : StoreStep n st (st.set rE e1) :=
          storeStep_set n st rE e1 hnE hhc he1
        cases hcv : ((st.set rE e1).get rV).edges.contains rE with
        | true =>
          rw [hcv, ite_cond_true] at hok
          have hstep2 : StoreStep n (st.set rE e1) ((st.set rE e1).set rV
              { (st.set rE e1).get rV with
                edges := ((st.set rE e1).get rV).edges.erase rE }) := by
            refine storeStep_set n _ rV _ hnV hstep1.2.2 ?_
            obtain ⟨ha, hb, hc⟩ := hstep1.2.2 rV hnV
            refine ⟨?_, hb, hc⟩
            intro x hx
            exact ha x (List.mem_of_mem_erase hx)
          exact storeStep_trans hstep1 (storeStep_trans hstep2
            (ih _ st2 hstep2.2.2 hok))
        | false =>
          rw [hcv, ite_cond_false] at hok
          cases hok

theorem removeElements_step (h : Hierarchy) (ec : List (Nat × Nat)) (n : Nat) :
    ∀ (l : List (Option Nat)) (st st2 : Store) (rg rg2 : PyGraph),
      HighClosed n st → (∀ o ∈ l, ∀ y, o = some y → n ≤ y) →
      removeElements h ec st rg l = Except.ok (st2, rg2) → StoreStep n st st2 := by
  intro l
  induction l with
  | nil =>
    intro st st2 rg rg2 hhc _ hok
    cases hok
    exact storeStep_refl n st hhc
  | cons rO rest ih =>
    intro st st2 rg rg2 hhc hl hok
    simp only [removeElements] at hok
    cases rO with
    | none => cases hok
    | some rEl =>
      dsimp only at hok
      obtain ⟨ign, hig, hok⟩ := except_bind_ok_inv hok
      obtain ⟨pr, hd, hok⟩ := except_bind_ok_inv hok
      obtain ⟨st1, rg1⟩ := pr
      dsimp only at hok
      have hnE : n ≤ rEl := hl (some rEl) (List.mem_cons_self _ _) rEl rfl
      have hstep1 : StoreStep n st st1 :=
        pyGraphDiscard_step st rg rEl (some ign) n hnE hhc st1 rg1 hd
      exact storeStep_trans hstep1
        (ih st1 st2 rg1 rg2 hstep1.2.2
          (fun o ho y hy => hl o (List.mem_cons_of_mem _ ho) y hy) hok)

theorem storeStep_of_through {n : Nat} {st stX st2 : Store}
    (h1 : StoreStep n st stX) (h2 : HighClosed n stX → StoreStep n stX st2) :
    StoreStep n st st2 :=
  storeStep_trans h1 (h2 h1.2.2)

theorem addElements_step (h : Hierarchy) (fns : ApplyFns) (newGen : Int)
    (toAddAll : List (Option Nat)) (n : Nat)
    (hR : ∀ a y, dget? h.hostToResult a = some y → n ≤ y) :
    ∀ (l : List (Option Nat)) (st st2 : Store) (rg rg2 : PyGraph),
      HighClosed n st → (∀ o ∈ l, ∀ y, o = some y → n ≤ y) →
      addElements h fns newGen toAddAll st rg l = Except.ok (st2, rg2) →
      StoreStep n st st2 := by
  intro l
  induction l with
  | nil =>
    intro st st2 rg rg2 hhc _ hok
    cases hok
    exact storeStep_refl n st hhc
  | cons cO rest ih =>
    intro st st2 rg rg2 hhc hl hok
    simp only [addElements] at hok
    cases cO with
    | none => cases hok
    | some c =>
      dsimp only at hok
      have hnc : n ≤ c := hl (some c) (List.mem_cons_self _ _) c rfl
      have hlrest : ∀ o ∈ rest, ∀ y, o = some y → n ≤ y :=
        fun o ho y hy => hl o (List.mem_cons_of_mem _ ho) y hy
      obtain ⟨ce1, herc, hok⟩ := except_bind_ok_inv hok
      have hce1 : RefsGE n ce1 := by
        refine elemReplaceConnectionM_refsGE n (st.get c) ce1 _ false herc
          ?_ (hhc c hnc)
        intro xo r hr
        cases xo with
        | none => cases hr
        | some v =>
          rcases hmap_CR_val h v r hr with ⟨a, ha⟩
          exact hR a r ha
      have hstep1 : StoreStep n st (st.set c ce1) :=
        storeStep_set n st c ce1 hnc hhc hce1
      by_cases hkv : ((st.set c ce1).get c).kind = EKind.vertex
      · rw [if_pos hkv] at hok
        obtain ⟨pp, hcp, hok⟩ := except_bind_ok_inv hok
        obtain ⟨y, hy, hok⟩ := except_bind_ok_inv hok
        rw [except_pure_eq] at hy
        cases hy
        obtain ⟨pr4, hpa, hok⟩ := except_bind_ok_inv hok
        obtain ⟨st4, rg1⟩ := pr4
        dsimp only at hok
        exact storeStep_of_through hstep1 (fun hc1 =>
          storeStep_of_through (storeStep_set_attr n _ c hnc hc1 _) (fun hc2 =>
          storeStep_of_through (storeStep_set_attr n _ c hnc hc2 _) (fun hc3 =>
          storeStep_of_through
            (pyGraphAdd_step _ rg c _ n hnc hc3 st4 rg1 hpa) (fun hc4 =>
          ih st4 st2 rg1 rg2 hc4 hlrest hok))))
      · rw [if_neg hkv] at hok
        obtain ⟨y, hy, hok⟩ := except_bind_ok_inv hok
        rw [except_pure_eq] at hy
        cases hy
        obtain ⟨pr4, hpa, hok⟩ := except_bind_ok_inv hok
        obtain ⟨st4, rg1⟩ := pr4
        dsimp only at hok
        exact storeStep_of_through hstep1 (fun hc1 =>
          storeStep_of_through (storeStep_set_attr n _ c hnc hc1 _) (fun hc2 =>
          storeStep_of_through
            (pyGraphAdd_step _ rg c _ n hnc hc2 st4 rg1 hpa) (fun hc3 =>
          ih st4 st2 rg1 rg2 hc3 hlrest hok)))

theorem changeElements_step (h : Hierarchy) (toRemoveR : List (Option Nat))
    (n : Nat)
    (hC : ∀ a y, dget? h.daughterToCopy a = some y → n ≤ y) :
    ∀ (l : List (Option Nat)) (st st2 : Store), HighClosed n st →
      (∀ o ∈ l, ∀ y, o = some y → n ≤ y) →
      changeElements h toRemoveR st l = Except.ok st2 → StoreStep n st st2 := by
  intro l
  induction l with
  | nil =>
    intro st st2 hhc _ hok
    cases hok
    exact storeStep_refl n st hhc
  | cons rO rest ih =>
    intro st st2 hhc hl hok
    simp only [changeElements] at hok
    cases rO with
    | none => cases hok
    | some r =>
      dsimp only at hok
      have hnr : n ≤ r := hl (some r) (List.mem_cons_self _ _) r rfl
      obtain ⟨re1, herc, hok⟩ := except_bind_ok_inv hok
      have hre1 : RefsGE n re1 := by
        refine elemReplaceConnectionM_refsGE n (st.get r) re1 _ false herc
          ?_ (hhc r hnr)
        intro xo rr hr
        by_cases hct : toRemoveR.contains xo = true
        · rw [if_pos hct] at hr
          cases xo with
          | none => cases hr
          | some v =>
            rcases hmap_RC_val h v rr hr with ⟨a, ha⟩
            exact hC a rr ha
        · rw [if_neg hct] at hr
          cases hr
      have hstep1 : StoreStep n st (st.set r re1) :=
        storeStep_set n st r re1 hnr hhc hre1
      exact storeStep_trans hstep1
        (ih _ st2 hstep1.2.2
          (fun o ho y hy => hl o (List.mem_cons_of_mem _ ho) y hy) hok)

theorem recomputeAttrLoop_step (fns : ApplyFns) (n : Nat) (target : Nat)
    (old : Option Nat) (ht : n ≤ target) :
    ∀ (l : List (String × Attr)) (st st2 : Store), HighClosed n st →
      recomputeAttrLoop fns st target old l = Except.ok st2 →
      StoreStep n st st2 := by
  intro l
  induction l with
  | nil =>
    intro st st2 hhc hok
    cases hok
    exact storeStep_refl n st hhc
  | cons nv rest ih =>
    intro st st2 hhc hok
    obtain ⟨name, v⟩ := nv
    simp only [recomputeAttrLoop] at hok
    by_cases hxy : (name == "x" || name == "y") = true
    · rw [if_pos hxy] at hok
      exact ih st st2 hhc hok
    · rw [if_neg hxy] at hok
      by_cases hnx : (name == "new_x") = true
      · rw [if_pos hnx] at hok
        obtain ⟨a, hda, hok⟩ := except_bind_ok_inv hok
        obtain ⟨y, hy, hok⟩ := except_bind_ok_inv hok
        rw [except_pure_eq] at hy
        cases hy
        dsimp only at hok
        rw [show (("x" : String) == ".new_pos") = false from rfl,
          ite_cond_false] at hok
        rw [show (strHasPre "." "x" && !(strHasPre ".svg_" "x")
          && !(strHasPre ".svgx_" "x")) = false from rfl, ite_cond_false] at hok
        obtain ⟨val, hev, hok⟩ := except_bind_ok_inv hok
        exact storeStep_of_through (storeStep_set_attr n st target ht hhc _)
          (fun hc1 =>
          storeStep_of_through (storeStep_set_attr n _ target ht hc1 _)
          (fun hc2 => ih _ st2 hc2 hok))
      · rw [if_neg hnx] at hok
        by_cases hny : (name == "new_y") = true
        · rw [if_pos hny] at hok
          obtain ⟨a, hda, hok⟩ := except_bind_ok_inv hok
          obtain ⟨y, hy, hok⟩ := except_bind_ok_inv hok
          rw [except_pure_eq] at hy
          cases hy
          dsimp only at hok
          rw [show (("y" : String) == ".new_pos") = false from rfl,
            ite_cond_false] at hok
          rw [show (strHasPre "." "y" && !(strHasPre ".svg_" "y")
            && !(strHasPre ".svgx_" "y")) = false from rfl, ite_cond_false] at hok
          obtain ⟨val, hev, hok⟩ := except_bind_ok_inv hok
          exact storeStep_of_through (storeStep_set_attr n st target ht hhc _)
            (fun hc1 =>
            storeStep_of_through (storeStep_set_attr n _ target ht hc1 _)
            (fun hc2 => ih _ st2 hc2 hok))
        · rw [if_neg hny] at hok
          obtain ⟨y, hy, hok⟩ := except_bind_ok_inv hok
          rw [except_pure_eq] at hy
          cases hy
          dsimp only at hok
          by_cases hnp : (name == ".new_pos") = true
          · rw [if_pos hnp] at hok
            obtain ⟨pp, hep, hok⟩ := except_bind_ok_inv hok
            obtain ⟨px, py⟩ := pp
            dsimp only at hok
            exact storeStep_of_through (storeStep_set_attr n st target ht hhc _)
              (fun hc1 => ih _ st2 hc1 hok)
          · rw [if_neg hnp] at hok
            by_cases hdot : (strHasPre "." name && !(strHasPre ".svg_" name)
                && !(strHasPre ".svgx_" name)) = true
            · rw [if_pos hdot] at hok
              exact ih st st2 hhc hok
            · rw [if_neg hdot] at hok
              obtain ⟨val, hev, hok⟩ := except_bind_ok_inv hok
              exact storeStep_of_through
                (storeStep_set_attr n st target ht hhc _)
                (fun hc1 => ih _ st2 hc1 hok)

theorem recomputeAll_step (fns : ApplyFns) (n : Nat) :
    ∀ (l : List (Nat × Option Nat × Option Nat)) (st st2 : Store),
      HighClosed n st → (∀ e ∈ l, ∀ t, e.2.1 = some t → n ≤ t) →
      recomputeAll fns st l = Except.ok st2 → StoreStep n st st2 := by
  intro l
  induction l with
  | nil =>
    intro st st2 hhc _ hok
    cases hok
    exact storeStep_refl n st hhc
  | cons e rest ih =>
    intro st st2 hhc hl hok
    obtain ⟨d, tO, old⟩ := e
    simp only [recomputeAll] at hok
    cases tO with
    | none => cases hok
    | some t =>
      dsimp only at hok
      obtain ⟨st1, h1, hok⟩ := except_bind_ok_inv hok
      have hnt : n ≤ t := hl (d, some t, old) (List.mem_cons_self _ _) t rfl
      have hstep1 : StoreStep n st st1 :=
        recomputeAttrLoop_step fns n t old hnt _ st st1 hhc h1
      exact storeStep_trans hstep1
        (ih st1 st2 hstep1.2.2
          (fun ee he tt htt => hl ee (List.mem_cons_of_mem _ he) tt htt) hok)

/-- C3: host immutability (frame property) of `Production.apply`. With
`non_recursive_copy` modelled from the spec, a successful `pyApply` on a
well-formed store whose host and daughter graphs are closed under their
adjacency references leaves every pre-existing store entry — every element
of the host, its attribute map and its adjacency references — unchanged:
all writes land at freshly allocated ids, so the host graph is identical
before and after the call. -/
theorem C3_host_frame (st : Store) (host : PyGraph) (opt : POption)
    (motherToHost : MapA) (fns : ApplyFns)
    (hwf : Store.wf st)
    (hhl : ∀ i ∈ host.elemsVef, i < st.next)
    (hhcl : ∀ i ∈ host.elemsVef, RefsIn host.elemsVef (st.get i))
    (hdl : ∀ i ∈ opt.daughterGraph.elemsVef, i < st.next)
    (hdcl : ∀ i ∈ opt.daughterGraph.elemsVef,
      RefsIn opt.daughterGraph.elemsVef (st.get i))
    (st2 : Store) (rg : PyGraph)
    (hok : pyApply st host opt motherToHost fns = Except.ok (st2, rg)) :
    ∀ i, i < st.next → st2.find? i = st.find? i := by
  obtain ⟨hwfB, hnB, hframeB, hhcB, hRB, hCB⟩ :=
    buildHierarchy_good st.next st host motherToHost opt (le_refl _) hwf
      hhl hhcl hdl hdcl (highClosed_of_wf st hwf)
  simp only [pyApply] at hok
  obtain ⟨toAddC, hta, hok⟩ := except_bind_ok_inv hok
  obtain ⟨toChangeR, htc, hok⟩ := except_bind_ok_inv hok
  obtain ⟨toRemoveR, htr, hok⟩ := except_bind_ok_inv hok
  obtain ⟨toCalcAdd, hca, hok⟩ := except_bind_ok_inv hok
  obtain ⟨toCalcChange, hcc, hok⟩ := except_bind_ok_inv hok
  obtain ⟨newGenBase, hng, hok⟩ := except_bind_ok_inv hok
  obtain ⟨stS, hsev, hok⟩ := except_bind_ok_inv hok
  obtain ⟨prR, hrem, hok⟩ := except_bind_ok_inv hok
  obtain ⟨stR, rgR⟩ := prR
  dsimp only at hok
  obtain ⟨prA, hadd, hok⟩ := except_bind_ok_inv hok
  obtain ⟨stA, rgA⟩ := prA
  dsimp only at hok
  obtain ⟨st5, hchg, hok⟩ := except_bind_ok_inv hok
  obtain ⟨st6, hrec, hok⟩ := except_bind_ok_inv hok
  obtain ⟨cons, hcons, hok⟩ := except_bind_ok_inv hok
  cases cons with
  | false =>
    rw [ite_cond_false] at hok
    cases hok
  | true =>
    rw [ite_cond_true] at hok
    have h62 : st6 = st2 := by
      cases hok
      rfl
    subst h62
    have hremFresh : ∀ o ∈ toRemoveR, ∀ y, o = some y → st.next ≤ y := by
      intro o ho y hy
      subst hy
      rcases mapM_ok_spec _ opt.toRemove toRemoveR htr (some y) ho with
        ⟨a, ha, hfa⟩
      rcases hmap_MR_val _ a y hfa with ⟨b, hb⟩
      exact hRB b y hb
    have haddFresh : ∀ o ∈ toAddC, ∀ y, o = some y → st.next ≤ y := by
      intro o ho y hy
      subst hy
      rcases mapM_ok_spec _ opt.toAdd toAddC hta (some y) ho with ⟨a, ha, hfa⟩
      rcases hmap_DC_val _ a y hfa with ⟨b, hb⟩
      exact hCB b y hb
    have hchgFresh : ∀ o ∈ toChangeR, ∀ y, o = some y → st.next ≤ y := by
      intro o ho y hy
      subst hy
      rcases mapM_ok_spec _ opt.toChange toChangeR htc (some y) ho with
        ⟨a, ha, hfa⟩
      rcases hmap_DR_val _ a y hfa with ⟨b, hb⟩
      exact hRB b y hb
    have hcalcAddFresh : ∀ e ∈ toCalcAdd, ∀ t, e.2.1 = some t →
        st.next ≤ t := by
      intro e he t ht
      rcases mapM_ok_spec _ opt.toAdd toCalcAdd hca e he with ⟨a, ha, hfa⟩
      obtain ⟨c, hc, hfa⟩ := except_bind_ok_inv hfa
      rw [except_pure_eq] at hfa
      cases hfa
      dsimp only at ht
      rw [ht] at hc
      rcases hmap_DC_val _ a t hc with ⟨b, hb⟩
      exact hCB b t hb
    have hcalcChangeFresh : ∀ e ∈ toCalcChange, ∀ t, e.2.1 = some t →
        st.next ≤ t := by
      intro e he t ht
      rcases mapM_ok_spec _ opt.toChange toCalcChange hcc e he with ⟨a, ha, hfa⟩
      obtain ⟨r, hr, hfa⟩ := except_bind_ok_inv hfa
      obtain ⟨ho2, hh2, hfa⟩ := except_bind_ok_inv hfa
      rw [except_pure_eq] at hfa
      cases hfa
      dsimp only at ht
      rw [ht] at hr
      rcases hmap_DR_val _ a t hr with ⟨b, hb⟩
      exact hRB b t hb
    have hcalcFresh : ∀ e ∈ toCalcAdd ++ toCalcChange, ∀ t, e.2.1 = some t →
        st.next ≤ t := by
      intro e he t ht
      rcases List.mem_append.mp he with h2 | h2
      · exact hcalcAddFresh e h2 t ht
      · exact hcalcChangeFresh e h2 t ht
    have hstepS : StoreStep st.next
        (buildHierarchy st host motherToHost opt).1 stS :=
      severConnections_step _ st.next hRB opt.edgeConnToRemove _ stS hhcB hsev
    have hstepR : StoreStep st.next stS stR :=
      removeElements_step _ opt.edgeConnToRemove st.next toRemoveR stS stR
        _ rgR hstepS.2.2 hremFresh hrem
    have hstepA : StoreStep st.next stR stA :=
      addElements_step _ fns (newGenBase + 1) toAddC st.next hRB toAddC
        stR stA rgR rgA hstepR.2.2 haddFresh hadd
    have hstepC : StoreStep st.next stA st5 :=
      changeElements_step _ toRemoveR st.next hCB toChangeR stA st5
        hstepA.2.2 hchgFresh hchg
    have hstepRe : StoreStep st.next st5 st6 :=
      recomputeAll_step fns st.next (toCalcAdd ++ toCalcChange) st5 st6
        hstepC.2.2 hcalcFresh hrec
    have hchain : StoreStep st.next
        (buildHierarchy st host motherToHost opt).1 st6 :=
      storeStep_trans hstepS (storeStep_trans hstepR
        (storeStep_trans hstepA (storeStep_trans hstepC hstepRe)))
    intro i hi
    exact (hchain.2.1 i hi).trans (hframeB i hi)

/-- Witness for C3_host_frame: a two-element store (host vertex 0 with a
generation attribute, mother vertex 10), empty daughter, mother matched to
the host vertex; apply succeeds and the host entry at id 0 is unchanged. -/
theorem C3_host_frame_witness :
    Store.wf (⟨[(0, mkVertex [(".generation", Attr.i 0)] []),
      (10, mkVertex [] [])], 11⟩ : Store) ∧
    Store.find?
      (⟨[(0, mkVertex [(".generation", Attr.i 0)] []), (10, mkVertex [] []),
         (11, mkVertex [(".generation", Attr.i 0)] [])], 12⟩ : Store) 0 =
    Store.find?
      (⟨[(0, mkVertex [(".generation", Attr.i 0)] []),
         (10, mkVertex [] [])], 11⟩ : Store) 0 :=
  ⟨by simp only [Store.wf]; decide,
   C3_host_frame
     ⟨[(0, mkVertex [(".generation", Attr.i 0)] []), (10, mkVertex [] [])], 11⟩
     ⟨[0], [], []⟩
     (mkPOption
       ⟨[(0, mkVertex [(".generation", Attr.i 0)] []), (10, mkVertex [] [])], 11⟩
       ⟨[10], [], []⟩ ⟨[], [], []⟩ [] 1)
     [(10, 0)]
     ⟨fun _ v _ _ => Except.ok v, fun _ _ _ => Except.ok (Attr.i 0, Attr.i 0),
      fun _ => Except.ok (Attr.i 0, Attr.i 0)⟩
     (by simp only [Store.wf]; decide)
     (by decide)
     (by simp only [RefsIn]; decide)
     (by decide)
     (by simp only [RefsIn]; decide)
     ⟨[(0, mkVertex [(".generation", Attr.i 0)] []), (10, mkVertex [] []),
       (11, mkVertex [(".generation", Attr.i 0)] [])], 12⟩
     ⟨[], [], []⟩
     (by
       have s123 : hmap (buildHierarchy (⟨[(0, mkVertex [(".generation", Attr.i 0)] []), (10, mkVertex [] [])], 11⟩ : Store) (⟨[0], [], []⟩ : PyGraph) [(10, 0)] (mkPOption ⟨[(0, mkVertex [(".generation", Attr.i 0)] []), (10, mkVertex [] [])], 11⟩ ⟨[10], [], []⟩ ⟨[], [], []⟩ [] 1)).2.2.2 10 (LevelKey.str "M") (LevelKey.str "R") =
           Except.ok (some 11) := by
         show hmapInt (buildHierarchy (⟨[(0, mkVertex [(".generation", Attr.i 0)] []), (10, mkVertex [] [])], 11⟩ : Store) (⟨[0], [], []⟩ : PyGraph) [(10, 0)] (mkPOption ⟨[(0, mkVertex [(".generation", Attr.i 0)] []), (10, mkVertex [] [])], 11⟩ ⟨[10], [], []⟩ ⟨[], [], []⟩ [] 1)).2.2.2 10 2 0 = Except.ok (some 11)
         rw [hmapInt.eq_def]
         show hmapInt (buildHierarchy (⟨[(0, mkVertex [(".generation", Attr.i 0)] []), (10, mkVertex [] [])], 11⟩ : Store) (⟨[0], [], []⟩ : PyGraph) [(10, 0)] (mkPOption ⟨[(0, mkVertex [(".generation", Attr.i 0)] []), (10, mkVertex [] [])], 11⟩ ⟨[10], [], []⟩ ⟨[], [], []⟩ [] 1)).2.2.2 0 1 0 = Except.ok (some 11)
         rw [hmapInt.eq_def]
         show hmapInt (buildHierarchy (⟨[(0, mkVertex [(".generation", Attr.i 0)] []), (10, mkVertex [] [])], 11⟩ : Store) (⟨[0], [], []⟩ : PyGraph) [(10, 0)] (mkPOption ⟨[(0, mkVertex [(".generation", Attr.i 0)] []), (10, mkVertex [] [])], 11⟩ ⟨[10], [], []⟩ ⟨[], [], []⟩ [] 1)).2.2.2 11 0 0 = Except.ok (some 11)
         rw [hmapInt.eq_def]
         rfl
       have hmr : List.mapM
           (fun x => hmap (buildHierarchy (⟨[(0, mkVertex [(".generation", Attr.i 0)] []), (10, mkVertex [] [])], 11⟩ : Store) (⟨[0], [], []⟩ : PyGraph) [(10, 0)] (mkPOption ⟨[(0, mkVertex [(".generation", Attr.i 0)] []), (10, mkVertex [] [])], 11⟩ ⟨[10], [], []⟩ ⟨[], [], []⟩ [] 1)).2.2.2 x (LevelKey.str "M") (LevelKey.str "R")) [10] =
           Except.ok [some 11] := by
         rw [List.mapM_cons, List.mapM_nil]
         simp only [s123, except_bind_ok, except_pure_eq]
       show pyApply (⟨[(0, mkVertex [(".generation", Attr.i 0)] []), (10, mkVertex [] [])], 11⟩ : Store) (⟨[0], [], []⟩ : PyGraph) (mkPOption ⟨[(0, mkVertex [(".generation", Attr.i 0)] []), (10, mkVertex [] [])], 11⟩ ⟨[10], [], []⟩ ⟨[], [], []⟩ [] 1) [(10, 0)] (⟨fun _ v _ _ => Except.ok v, fun _ _ _ => Except.ok (Attr.i 0, Attr.i 0), fun _ => Except.ok (Attr.i 0, Attr.i 0)⟩ : ApplyFns) =
         Except.ok ((⟨[(0, mkVertex [(".generation", Attr.i 0)] []), (10, mkVertex [] []), (11, mkVertex [(".generation", Attr.i 0)] [])], 12⟩ : Store), (⟨[], [], []⟩ : PyGraph))
       simp only [pyApply]
       rw [show (mkPOption ⟨[(0, mkVertex [(".generation", Attr.i 0)] []), (10, mkVertex [] [])], 11⟩ ⟨[10], [], []⟩ ⟨[], [], []⟩ [] 1).toRemove = [10] from rfl]
       rw [hmr]
       rfl)
     0 (by decide)⟩

/-! ## Claims C1/C2: matcher invariants -/

theorem pyMatchesArg_true_kind (ev : EvalFn) (c p : GElem) (ea : Bool)
    (h : pyMatchesArg ev c p ea = Except.ok true) : c.kind = p.kind := by
  unfold pyMatchesArg at h
  by_cases hf : c.kind = EKind.face
  · rw [if_pos hf] at h
    cases h
  · rw [if_neg hf] at h
    by_cases hk : c.kind = p.kind
    · exact hk
    · rw [if_pos hk] at h
      cases h

theorem dget?_of_mem_nodup {α β : Type} [DecidableEq α] :
    ∀ (m : List (α × β)), (dkeys m).Nodup → ∀ p ∈ m, dget? m p.1 = some p.2 := by
  intro m
  induction m with
  | nil =>
    intro _ p hp
    cases hp
  | cons q rest ih =>
    intro hnd p hp
    obtain ⟨k, v⟩ := q
    have hnd2 : (dkeys rest).Nodup ∧ k ∉ dkeys rest := by
      have h1 : (k :: dkeys rest).Nodup := hnd
      exact ⟨(List.nodup_cons.mp h1).2, (List.nodup_cons.mp h1).1⟩
    rcases List.mem_cons.mp hp with rfl | hp2
    · rw [dget?_cons, if_pos rfl]
    · rw [dget?_cons]
      by_cases hk : k = p.1
      · subst hk
        exact absurd (List.mem_map_of_mem Prod.fst hp2) hnd2.2
      · rw [if_neg hk]
        exact ih hnd2.1 p hp2

theorem dhas_dset_mono {α β : Type} [DecidableEq α] (m : List (α × β))
    (k k2 : α) (v : β) (h : dhas m k = true) : dhas (dset m k2 v) k = true := by
  by_cases hk : k2 = k
  · subst hk
    unfold dhas
    rw [dget?_dset_self]
    rfl
  · unfold dhas
    rw [dget?_dset_ne m k2 k v (fun hh => hk hh.symm)]
    exact h

theorem dhas_dset_self {α β : Type} [DecidableEq α] (m : List (α × β))
    (k : α) (v : β) : dhas (dset m k v) k = true := by
  unfold dhas
  rw [dget?_dset_self]
  rfl

theorem dset_length_fresh {α β : Type} [DecidableEq α] :
    ∀ (m : List (α × β)) (k : α) (v : β), dhas m k = false →
      (dset m k v).length = m.length + 1 := by
  intro m
  induction m with
  | nil =>
    intro k v _
    rfl
  | cons q rest ih =>
    intro k v hh
    obtain ⟨k2, v2⟩ := q
    have hne : ¬ k2 = k := by
      intro he
      unfold dhas at hh
      rw [dget?_cons, if_pos he] at hh
      cases hh
    rw [dset_cons, if_neg hne]
    simp only [List.length_cons]
    rw [ih k v]
    unfold dhas at hh ⊢
    rw [dget?_cons, if_neg hne] at hh
    exact hh

theorem mem_dkeys_iff {α β : Type} (m : List (α × β)) (x : α) :
    x ∈ dkeys m ↔ ∃ v, (x, v) ∈ m := by
  unfold dkeys
  constructor
  · intro hx
    rcases List.mem_map.mp hx with ⟨p, hp, hpe⟩
    refine ⟨p.2, ?_⟩
    rw [← hpe]
    rw [Prod.mk.eta]
    exact hp
  · rintro ⟨v, hv⟩
    exact List.mem_map_of_mem Prod.fst hv

theorem dhas_iff_mem_dkeys {α β : Type} [DecidableEq α] (m : List (α × β))
    (x : α) : dhas m x = true ↔ x ∈ dkeys m := by
  rw [dhas_iff_exists, mem_dkeys_iff]

theorem extendFrontier_mem (mapping : MapA) :
    ∀ (nbs : List Nat) (fr : MapA) (pid : Nat) (q : Nat × Nat),
      q ∈ extendFrontier mapping fr pid nbs →
      q ∈ fr ∨ (q.1 ∈ nbs ∧ q.2 = pid ∧ dhas mapping q.1 = false) := by
  intro nbs
  induction nbs with
  | nil =>
    intro fr pid q hq
    exact Or.inl hq
  | cons b rest ih =>
    intro fr pid q hq
    simp only [extendFrontier] at hq
    by_cases hh : dhas mapping b = true
    · rw [if_pos hh] at hq
      rcases ih fr pid q hq with h1 | ⟨h1, h2, h3⟩
      · exact Or.inl h1
      · exact Or.inr ⟨List.mem_cons_of_mem _ h1, h2, h3⟩
    · rw [if_neg hh] at hq
      rcases ih _ pid q hq with h1 | ⟨h1, h2, h3⟩
      · rcases mem_dset fr b pid q h1 with rfl | h2
        · refine Or.inr ⟨List.mem_cons_self _ _, rfl, ?_⟩
          cases hb : dhas mapping b
          · rfl
          · exact absurd hb hh
        · exact Or.inl h2
      · exact Or.inr ⟨List.mem_cons_of_mem _ h1, h2, h3⟩

theorem extendFrontier_keysNodup (mapping : MapA) :
    ∀ (nbs : List Nat) (fr : MapA) (pid : Nat), (dkeys fr).Nodup →
      (dkeys (extendFrontier mapping fr pid nbs)).Nodup := by
  intro nbs
  induction nbs with
  | nil =>
    intro fr pid h
    exact h
  | cons b rest ih =>
    intro fr pid h
    simp only [extendFrontier]
    by_cases hh : dhas mapping b = true
    · rw [if_pos hh]
      exact ih fr pid h
    · rw [if_neg hh]
      refine ih _ pid ?_
      rw [dkeys_dset]
      cases hb : dhas fr b
      · rw [ite_cond_false]
        simp only [List.nodup_append, List.nodup_cons, List.nodup_nil]
        refine ⟨h, by simp, ?_⟩
        intro a ha hb2
        rcases List.mem_singleton.mp hb2 with rfl
        rw [← dhas_iff_mem_dkeys] at ha
        rw [hb] at ha
        cases ha
      · rw [ite_cond_true]
        exact h

theorem extendFrontier_dhas_mono (mapping : MapA) :
    ∀ (nbs : List Nat) (fr : MapA) (pid : Nat) (x : Nat), dhas fr x = true →
      dhas (extendFrontier mapping fr pid nbs) x = true := by
  intro nbs
  induction nbs with
  | nil =>
    intro fr pid x h
    exact h
  | cons b rest ih =>
    intro fr pid x h
    simp only [extendFrontier]
    by_cases hh : dhas mapping b = true
    · rw [if_pos hh]
      exact ih fr pid x h
    · rw [if_neg hh]
      exact ih _ pid x (dhas_dset_mono fr x b pid h)

theorem extendFrontier_complete (mapping : MapA) :
    ∀ (nbs : List Nat) (fr : MapA) (pid : Nat) (x : Nat), x ∈ nbs →
      dhas mapping x = false →
      dhas (extendFrontier mapping fr pid nbs) x = true := by
  intro nbs
  induction nbs with
  | nil =>
    intro fr pid x hx _
    cases hx
  | cons b rest ih =>
    intro fr pid x hx hm
    simp only [extendFrontier]
    rcases List.mem_cons.mp hx with rfl | hx2
    · rw [if_neg (by rw [hm]; simp)]
      exact extendFrontier_dhas_mono mapping rest _ pid x (dhas_dset_self fr x pid)
    · by_cases hh : dhas mapping b = true
      · rw [if_pos hh]
        exact ih fr pid x hx2 hm
      · rw [if_neg hh]
        exact ih _ pid x hx2 hm

theorem dpopLast_spec {α β : Type} (m : List (α × β)) (p : α × β)
    (m2 : List (α × β)) (h : dpopLast m = some (p, m2)) :
    m = m2 ++ [p] := by
  unfold dpopLast at h
  cases hg : m.getLast? with
  | none =>
    rw [hg] at h
    cases h
  | some q =>
    rw [hg] at h
    cases h
    have hne : m ≠ [] := by
      intro he
      rw [he] at hg
      cases hg
    have h2 := List.dropLast_concat_getLast hne
    rw [List.getLast?_eq_getLast m hne] at hg
    cases hg
    exact h2.symm

theorem nodup_subset_length {α : Type} [DecidableEq α] (l1 l2 : List α)
    (h1 : l1.Nodup) (hsub : ∀ x ∈ l1, x ∈ l2) : l1.length ≤ l2.length := by
  calc l1.length = l1.toFinset.card := (List.toFinset_card_of_nodup h1).symm
    _ ≤ l2.toFinset.card := by
        refine Finset.card_le_card ?_
        intro x hx
        rw [List.mem_toFinset] at hx ⊢
        exact hsub x hx
    _ ≤ l2.length := l2.toFinset_card_le

theorem nodup_subset_full {α : Type} [DecidableEq α] (l1 l2 : List α)
    (h1 : l1.Nodup) (h2 : l2.Nodup) (hsub : ∀ x ∈ l1, x ∈ l2)
    (hlen : l2.length ≤ l1.length) : ∀ x ∈ l2, x ∈ l1 := by
  have hfs : l1.toFinset = l2.toFinset := by
    refine Finset.eq_of_subset_of_card_le ?_ ?_
    · intro x hx
      rw [List.mem_toFinset] at hx ⊢
      exact hsub x hx
    · rw [List.toFinset_card_of_nodup h1, List.toFinset_card_of_nodup h2]
      exact hlen
  intro x hx
  have hx2 : x ∈ l1.toFinset := by
    rw [hfs, List.mem_toFinset]
    exact hx
  rw [List.mem_toFinset] at hx2
  exact hx2

theorem elemsVef_length (g : PyGraph) : g.elemsVef.length = g.size := by
  unfold PyGraph.elemsVef PyGraph.size
  simp [List.length_append]
  omega

theorem mem_toList_some {α : Type} (o : Option α) (a : α)
    (h : a ∈ o.toList) : o = some a := by
  cases o with
  | none => cases h
  | some b =>
    rcases List.mem_singleton.mp h with rfl
    rfl

theorem mem_elemsVef_cases (g : PyGraph) (x : Nat) (h : x ∈ g.elemsVef) :
    x ∈ g.vertices ∨ x ∈ g.edges ∨ x ∈ g.faces := by
  unfold PyGraph.elemsVef at h
  rcases List.mem_append.mp h with h1 | h1
  · rcases List.mem_append.mp h1 with h2 | h2
    · exact Or.inl h2
    · exact Or.inr (Or.inl h2)
  · exact Or.inr (Or.inr h1)

theorem mem_elemsVef_v (g : PyGraph) (x : Nat) (h : x ∈ g.vertices) :
    x ∈ g.elemsVef := by
  unfold PyGraph.elemsVef
  exact List.mem_append.mpr (Or.inl (List.mem_append.mpr (Or.inl h)))

theorem mem_elemsVef_e (g : PyGraph) (x : Nat) (h : x ∈ g.edges) :
    x ∈ g.elemsVef := by
  unfold PyGraph.elemsVef
  exact List.mem_append.mpr (Or.inl (List.mem_append.mpr (Or.inr h)))

theorem mem_elemsVef_f (g : PyGraph) (x : Nat) (h : x ∈ g.faces) :
    x ∈ g.elemsVef := by
  unfold PyGraph.elemsVef
  exact List.mem_append.mpr (Or.inr h)

theorem nb_vertex (st : Store) (x : Nat) (hk : (st.get x).kind = EKind.vertex)
    (nb : Nat) (h : nb ∈ (st.get x).neighbours) : nb ∈ (st.get x).edges := by
  unfold GElem.neighbours at h
  rw [hk] at h
  exact h

theorem nb_edge (st : Store) (x : Nat) (hk : (st.get x).kind = EKind.edge)
    (nb : Nat) (h : nb ∈ (st.get x).neighbours) :
    (st.get x).vertex1 = some nb ∨ (st.get x).vertex2 = some nb := by
  unfold GElem.neighbours at h
  rw [hk] at h
  have h2 : nb ∈ (st.get x).vertex1.toList ++ (st.get x).vertex2.toList := h
  rcases List.mem_append.mp h2 with h3 | h3
  · exact Or.inl (mem_toList_some _ nb h3)
  · exact Or.inr (mem_toList_some _ nb h3)

theorem nb_face (st : Store) (x : Nat) (hk : (st.get x).kind = EKind.face)
    (nb : Nat) (h : nb ∈ (st.get x).neighbours) :
    nb ∈ (st.get x).fvertices ∨ nb ∈ (st.get x).fedges := by
  unfold GElem.neighbours at h
  rw [hk] at h
  have h2 : nb ∈ (st.get x).fvertices ++ (st.get x).fedges := h
  exact List.mem_append.mp h2

theorem wf_nb_mem (st : Store) (g : PyGraph) (hwf : GraphWf st g) :
    ∀ x ∈ g.elemsVef, ∀ nb ∈ (st.get x).neighbours, nb ∈ g.elemsVef := by
  obtain ⟨hnd, hk, hc, hr⟩ := hwf
  intro x hx nb hnb
  rcases mem_elemsVef_cases g x hx with h1 | h1 | h1
  · exact mem_elemsVef_e g nb (hc.1 x h1 nb (nb_vertex st x (hk.1 x h1) nb hnb))
  · exact mem_elemsVef_v g nb
      (hc.2.1 x h1 nb (nb_edge st x (hk.2.1 x h1) nb hnb))
  · rcases nb_face st x (hk.2.2 x h1) nb hnb with h2 | h2
    · exact mem_elemsVef_v g nb ((hc.2.2 x h1).1 nb h2)
    · exact mem_elemsVef_e g nb ((hc.2.2 x h1).2 nb h2)

theorem wf_nb_nonface (st : Store) (g : PyGraph) (hwf : GraphWf st g) :
    ∀ x ∈ g.elemsVef, ∀ nb ∈ (st.get x).neighbours,
      (st.get nb).kind ≠ EKind.face := by
  obtain ⟨hnd, hk, hc, hr⟩ := hwf
  intro x hx nb hnb
  rcases mem_elemsVef_cases g x hx with h1 | h1 | h1
  · rw [hk.2.1 nb (hc.1 x h1 nb (nb_vertex st x (hk.1 x h1) nb hnb))]
    intro hcon
    cases hcon
  · rw [hk.1 nb (hc.2.1 x h1 nb (nb_edge st x (hk.2.1 x h1) nb hnb))]
    intro hcon
    cases hcon
  · rcases nb_face st x (hk.2.2 x h1) nb hnb with h2 | h2
    · rw [hk.1 nb ((hc.2.2 x h1).1 nb h2)]
      intro hcon
      cases hcon
    · rw [hk.2.1 nb ((hc.2.2 x h1).2 nb h2)]
      intro hcon
      cases hcon

theorem wf_no_self (st : Store) (g : PyGraph) (hwf : GraphWf st g) :
    ∀ x ∈ g.elemsVef, x ∉ (st.get x).neighbours := by
  intro x hx hmem
  have hnf := wf_nb_nonface st g hwf x hx x hmem
  obtain ⟨hnd, hk, hc, hr⟩ := hwf
  rcases mem_elemsVef_cases g x hx with h1 | h1 | h1
  · have h2 : x ∈ g.edges := hc.1 x h1 x (nb_vertex st x (hk.1 x h1) x hmem)
    have hv := hk.1 x h1
    have he := hk.2.1 x h2
    rw [hv] at he
    cases he
  · have h2 : x ∈ g.vertices :=
      hc.2.1 x h1 x (nb_edge st x (hk.2.1 x h1) x hmem)
    have hv := hk.1 x h2
    have he := hk.2.1 x h1
    rw [hv] at he
    cases he
  · exact hnf (hk.2.2 x h1)

theorem contains_iff (l : List Nat) (x : Nat) : l.contains x = true ↔ x ∈ l := by
  simp

theorem dhas_dset_ne {α β : Type} [DecidableEq α] (m : List (α × β))
    (k k2 : α) (v : β) (h : k ≠ k2) : dhas (dset m k2 v) k = dhas m k := by
  unfold dhas
  rw [dget?_dset_ne m k2 k v h]

theorem dset_append {α β : Type} [DecidableEq α] :
    ∀ (m : List (α × β)) (k : α) (v : β), dhas m k = false →
      dset m k v = m ++ [(k, v)] := by
  intro m
  induction m with
  | nil =>
    intro k v _
    rfl
  | cons q rest ih =>
    intro k v hh
    obtain ⟨k2, v2⟩ := q
    have hne : ¬ k2 = k := by
      intro he
      unfold dhas at hh
      rw [dget?_cons, if_pos he] at hh
      cases hh
    rw [dset_cons, if_neg hne, List.cons_append]
    have hh2 : dhas rest k = false := by
      unfold dhas at hh ⊢
      rw [dget?_cons, if_neg hne] at hh
      exact hh
    rw [ih k v hh2]

theorem dvalues_mem {α β : Type} (m : List (α × β)) (p : α × β) (h : p ∈ m) :
    p.2 ∈ dvalues m := List.mem_map_of_mem Prod.snd h

theorem dkeys_append {α β : Type} (m1 m2 : List (α × β)) :
    dkeys (m1 ++ m2) = dkeys m1 ++ dkeys m2 := List.map_append Prod.fst m1 m2

theorem getAnyElement_mem (g : PyGraph) (a : Nat)
    (h : getAnyElement g = some a) : a ∈ g.elemsVef := by
  unfold getAnyElement getFirstElement at h
  by_cases h1 : g.vertices.length > 0
  · rw [if_pos h1] at h
    exact mem_elemsVef_v g a (List.mem_of_mem_head? h)
  · rw [if_neg h1] at h
    by_cases h2 : g.edges.length > 0
    · rw [if_pos h2] at h
      exact mem_elemsVef_e g a (List.mem_of_mem_head? h)
    · rw [if_neg h2, if_neg h2] at h
      cases h

theorem popSkip_mem (marked : List Nat) :
    ∀ (q : List Nat) (x : Nat) (rest : List Nat),
      popSkip marked q = some (x, rest) →
      x ∈ q ∧ ∀ y ∈ rest, y ∈ q := by
  intro q
  induction q with
  | nil =>
    intro x rest h
    cases h
  | cons a tl ih =>
    intro x rest h
    simp only [popSkip] at h
    by_cases hm : marked.contains a = true
    · rw [if_pos hm] at h
      obtain ⟨h1, h2⟩ := ih x rest h
      exact ⟨List.mem_cons_of_mem _ h1,
        fun y hy => List.mem_cons_of_mem _ (h2 y hy)⟩
    · rw [if_neg hm] at h
      cases h
      exact ⟨List.mem_cons_self _ _, fun y hy => List.mem_cons_of_mem _ hy⟩

theorem getUnconnected_mem (g : PyGraph) (s : IterSt) (x : Nat)
    (h : getUnconnected g s = some x) : x ∈ g.elemsVef := by
  unfold getUnconnected at h
  by_cases hl : s.marked.length < s.total
  · rw [if_pos hl] at h
    cases hv : g.vertices.find? (fun v => !(s.marked.contains v)) with
    | some v =>
      rw [hv] at h
      cases h
      exact mem_elemsVef_v g x (List.mem_of_find?_eq_some hv)
    | none =>
      rw [hv] at h
      exact mem_elemsVef_e g x (List.mem_of_find?_eq_some h)
  · rw [if_neg hl] at h
    cases h

theorem iterRun_mem (st : Store) (g : PyGraph) (hwf : GraphWf st g) :
    ∀ (fuel : Nat) (s : IterSt) (l : List Nat),
      (∀ x ∈ s.queue, x ∈ g.elemsVef) →
      iterRun st g fuel s = Except.ok l → ∀ x ∈ l, x ∈ g.elemsVef := by
  intro fuel
  induction fuel with
  | zero =>
    intro s l _ h
    cases h
  | succ n ih =>
    intro s l hq hok
    simp only [iterRun] at hok
    cases hn : iterNext st g s with
    | none =>
      rw [hn] at hok
      cases hok
      intro x hx
      cases hx
    | some pr =>
      obtain ⟨y, s2⟩ := pr
      rw [hn] at hok
      dsimp only at hok
      cases hrec : iterRun st g n s2 with
      | error er =>
        rw [hrec] at hok
        cases hok
      | ok l2 =>
        rw [hrec] at hok
        cases hok
        unfold iterNext at hn
        cases hp : popSkip s.marked s.queue with
        | some pq =>
          obtain ⟨z, q2⟩ := pq
          rw [hp] at hn
          cases hn
          have hz : y ∈ g.elemsVef :=
            hq y (popSkip_mem s.marked s.queue y q2 hp).1
          intro x hx
          rcases List.mem_cons.mp hx with rfl | hx2
          · exact hz
          · refine ih _ l2 ?_ hrec x hx2
            intro w hw
            rcases List.mem_append.mp hw with h1 | h1
            · exact hq w ((popSkip_mem s.marked s.queue y q2 hp).2 w h1)
            · exact wf_nb_mem st g hwf y hz w (List.mem_of_mem_filter h1)
        | none =>
          rw [hp] at hn
          cases hu : getUnconnected g s with
          | none =>
            rw [hu] at hn
            cases hn
          | some z =>
            rw [hu] at hn
            cases hn
            have hz : y ∈ g.elemsVef := getUnconnected_mem g s y hu
            intro x hx
            rcases List.mem_cons.mp hx with rfl | hx2
            · exact hz
            · refine ih _ l2 ?_ hrec x hx2
              intro w hw
              exact wf_nb_mem st g hwf y hz w (List.mem_of_mem_filter hw)

theorem elementListConnected_mem (st : Store) (g : PyGraph)
    (hwf : GraphWf st g) (l : List Nat)
    (hok : elementListConnected st g = Except.ok l) :
    ∀ x ∈ l, x ∈ g.elemsVef := by
  unfold elementListConnected at hok
  refine iterRun_mem st g hwf (iterFuel st g) (iterInit g) l ?_ hok
  intro x hx
  have hx2 : x ∈ (getFirstElement g).toList := hx
  exact getAnyElement_mem g x (mem_toList_some _ x hx2)

theorem collectCandidates_mem (st : Store) (evalAttrs : Bool) (ev : EvalFn)
    (mapping : MapA) (pe : GElem) (peId ppId ownParentId : Nat) :
    ∀ (nbs : List Nat) (possibles : List MapA),
      collectCandidates st evalAttrs ev mapping pe peId ppId ownParentId nbs =
        Except.ok possibles →
      ∀ nm ∈ possibles, ∃ cand ∈ nbs,
        nm = dset mapping peId cand ∧
        (dvalues mapping).contains cand = false ∧
        pyMatchesArg ev (st.get cand) pe evalAttrs = Except.ok true ∧
        matchedNeighboursCompatible st mapping cand peId = true := by
  intro nbs
  induction nbs with
  | nil =>
    intro possibles hok nm hnm
    cases hok
    cases hnm
  | cons cand rest ih =>
    intro possibles hok nm hnm
    simp only [collectCandidates] at hok
    obtain ⟨dir, hdir, hok⟩ := except_bind_ok_inv hok
    by_cases hd : (!dir) = true
    · rw [if_pos hd] at hok
      obtain ⟨c2, hc2, hrest⟩ := ih possibles hok nm hnm
      exact ⟨c2, List.mem_cons_of_mem _ hc2, hrest⟩
    · rw [if_neg hd] at hok
      by_cases hu : (dvalues mapping).contains cand = true
      · rw [if_pos hu] at hok
        obtain ⟨c2, hc2, hrest⟩ := ih possibles hok nm hnm
        exact ⟨c2, List.mem_cons_of_mem _ hc2, hrest⟩
      · rw [if_neg hu] at hok
        obtain ⟨m, hm, hok⟩ := except_bind_ok_inv hok
        by_cases hmm : (!m) = true
        · rw [if_pos hmm] at hok
          obtain ⟨c2, hc2, hrest⟩ := ih possibles hok nm hnm
          exact ⟨c2, List.mem_cons_of_mem _ hc2, hrest⟩
        · rw [if_neg hmm] at hok
          by_cases hmc :
              (!(matchedNeighboursCompatible st mapping cand peId)) = true
          · rw [if_pos hmc] at hok
            obtain ⟨c2, hc2, hrest⟩ := ih possibles hok nm hnm
            exact ⟨c2, List.mem_cons_of_mem _ hc2, hrest⟩
          · rw [if_neg hmc] at hok
            obtain ⟨restMs, hrm, hok⟩ := except_bind_ok_inv hok
            cases hok
            rcases List.mem_cons.mp hnm with rfl | hnm2
            · refine ⟨cand, List.mem_cons_self _ _, rfl, ?_, ?_, ?_⟩
              · cases hcu : (dvalues mapping).contains cand
                · rfl
                · exact absurd hcu hu
              · have hmt : m = true := by
                  cases m
                  · exact absurd rfl hmm
                  · rfl
                rw [hmt] at hm
                exact hm
              · cases hq : matchedNeighboursCompatible st mapping cand peId
                · rw [hq] at hmc
                  exact absurd rfl hmc
                · rfl
            · obtain ⟨c2, hc2, hrest⟩ := ih restMs hrm nm hnm2
              exact ⟨c2, List.mem_cons_of_mem _ hc2, hrest⟩

theorem taskOK_extend (st : Store) (host pattern : PyGraph) (evalAttrs : Bool)
    (ev : EvalFn) (anchorId : Nat)
    (hwfH : GraphWf st host) (hwfP : GraphWf st pattern)
    (t : MTask) (hT : TaskOK st host pattern evalAttrs ev anchorId t)
    (peId ppId : Nat) (frontier1 : MapA)
    (hpop : dpopLast t.frontier = some ((peId, ppId), frontier1))
    (ownParentId : Nat) (hpar : dget? t.mapping ppId = some ownParentId)
    (possibles : List MapA)
    (hcc : collectCandidates st evalAttrs ev t.mapping (st.get peId) peId ppId
      ownParentId (st.get ownParentId).neighbours = Except.ok possibles)
    (nm : MapA) (hnm : nm ∈ possibles) :
    TaskOK st host pattern evalAttrs ev anchorId
      ⟨nm, extendFrontier t.mapping frontier1 peId (st.get peId).neighbours⟩ := by
  obtain ⟨cand, hcandNb, hnmEq, hunused, hmatch, hcompat⟩ :=
    collectCandidates_mem st evalAttrs ev t.mapping (st.get peId) peId ppId
      ownParentId (st.get ownParentId).neighbours possibles hcc nm hnm
  subst hnmEq
  have hfr : t.frontier = frontier1 ++ [(peId, ppId)] :=
    dpopLast_spec t.frontier _ frontier1 hpop
  have hpeF : (peId, ppId) ∈ t.frontier := by
    rw [hfr]
    exact List.mem_append.mpr (Or.inr (List.mem_singleton.mpr rfl))
  have hpePat : peId ∈ pattern.elemsVef := hT.fKeysPat (peId, ppId) hpeF
  have hpeUn : dhas t.mapping peId = false := hT.fUnmapped (peId, ppId) hpeF
  have hparMem : (ppId, ownParentId) ∈ t.mapping := dget?_eq_some_mem hpar
  have hparHost : ownParentId ∈ host.elemsVef := hT.valsHost _ hparMem
  have hcandHost : cand ∈ host.elemsVef :=
    wf_nb_mem st host hwfH ownParentId hparHost cand hcandNb
  have hfrKeys : (dkeys frontier1).Nodup ∧ ∀ a ∈ dkeys frontier1, a ≠ peId := by
    have h1 := hT.fKeysNodup
    rw [hfr, dkeys_append] at h1
    rw [List.nodup_append] at h1
    refine ⟨h1.1, ?_⟩
    intro a ha he
    subst he
    exact h1.2.2 ha (List.mem_singleton.mpr rfl)
  have hfrSub : ∀ q ∈ frontier1, q ∈ t.frontier := by
    rw [hfr]
    exact fun q hq => List.mem_append.mpr (Or.inl hq)
  have hpeNoSelf : peId ∉ (st.get peId).neighbours :=
    wf_no_self st pattern hwfP peId hpePat
  have hmnc : ∀ onb ∈ (st.get peId).neighbours, ∀ img,
      dget? t.mapping onb = some img →
      (st.get cand).neighbours.contains img = true := by
    intro onb honb img himg
    unfold matchedNeighboursCompatible at hcompat
    have h2 := List.all_eq_true.mp hcompat onb honb
    rw [himg] at h2
    exact h2
  have hmemNew : ∀ p ∈ dset t.mapping peId cand, p = (peId, cand) ∨
      p ∈ t.mapping := mem_dset t.mapping peId cand
  refine ⟨?_, ?_, ?_, ?_, ?_, ?_, ?_, ?_, ?_, ?_, ?_, ?_, ?_⟩
  · intro p hp
    rcases hmemNew p hp with rfl | hp2
    · exact hpePat
    · exact hT.keysPat p hp2
  · intro p hp
    rcases hmemNew p hp with rfl | hp2
    · exact hcandHost
    · exact hT.valsHost p hp2
  · rw [dkeys_dset, hpeUn, ite_cond_false]
    rw [List.nodup_append]
    refine ⟨hT.keysNodup, List.nodup_singleton peId, ?_⟩
    intro a ha hb
    rcases List.mem_singleton.mp hb with rfl
    have h2 : dhas t.mapping a = true := (dhas_iff_mem_dkeys t.mapping a).mpr ha
    rw [hpeUn] at h2
    cases h2
  · intro p hp q hq he
    rcases hmemNew p hp with rfl | hp2
    · rcases hmemNew q hq with rfl | hq2
      · rfl
      · have h2 : q.2 ∈ dvalues t.mapping := dvalues_mem t.mapping q hq2
        rw [← he] at h2
        have h3 : (dvalues t.mapping).contains cand = true :=
          (contains_iff _ _).mpr h2
        rw [hunused] at h3
        cases h3
    · rcases hmemNew q hq with rfl | hq2
      · have h2 : p.2 ∈ dvalues t.mapping := dvalues_mem t.mapping p hp2
        rw [he] at h2
        have h3 : (dvalues t.mapping).contains cand = true :=
          (contains_iff _ _).mpr h2
        rw [hunused] at h3
        cases h3
      · exact hT.inj p hp2 q hq2 he
  · intro p hp
    rcases hmemNew p hp with rfl | hp2
    · exact hmatch
    · exact hT.matchesAll p hp2
  · intro p hp nb hnb hn hget
    by_cases hnb_pe : nb = peId
    · subst hnb_pe
      rw [dget?_dset_self] at hget
      cases hget
      rcases hmemNew p hp with rfl | hp2
      · exact absurd hnb hpeNoSelf
      · have hrecip : p.1 ∈ (st.get nb).neighbours :=
          hwfP.2.2.2 p.1 (hT.keysPat p hp2) nb hnb
        have hgetp : dget? t.mapping p.1 = some p.2 :=
          dget?_of_mem_nodup t.mapping hT.keysNodup p hp2
        have h2 : (st.get cand).neighbours.contains p.2 = true :=
          hmnc p.1 hrecip p.2 hgetp
        have h3 : cand ∈ (st.get p.2).neighbours :=
          hwfH.2.2.2 cand hcandHost p.2 ((contains_iff _ _).mp h2)
        exact (contains_iff _ _).mpr h3
    · rw [dget?_dset_ne t.mapping peId nb cand hnb_pe] at hget
      rcases hmemNew p hp with rfl | hp2
      · exact hmnc nb hnb hn hget
      · exact hT.adj p hp2 nb hnb hn hget
  · intro q hq
    rcases extendFrontier_mem t.mapping (st.get peId).neighbours frontier1
        peId q hq with h1 | ⟨h1, h2, h3⟩
    · exact hT.fKeysPat q (hfrSub q h1)
    · exact wf_nb_mem st pattern hwfP peId hpePat q.1 h1
  · exact extendFrontier_keysNodup t.mapping (st.get peId).neighbours frontier1
      peId hfrKeys.1
  · intro q hq
    rcases extendFrontier_mem t.mapping (st.get peId).neighbours frontier1
        peId q hq with h1 | ⟨h1, h2, h3⟩
    · have hne : q.1 ≠ peId :=
        hfrKeys.2 q.1 (List.mem_map_of_mem Prod.fst h1)
      rw [dhas_dset_ne t.mapping q.1 peId cand hne]
      exact hT.fUnmapped q (hfrSub q h1)
    · have hne : q.1 ≠ peId := fun he => hpeNoSelf (he ▸ h1)
      rw [dhas_dset_ne t.mapping q.1 peId cand hne]
      exact h3
  · intro q hq
    rcases extendFrontier_mem t.mapping (st.get peId).neighbours frontier1
        peId q hq with h1 | ⟨h1, h2, h3⟩
    · exact dhas_dset_mono t.mapping q.2 peId cand
        (hT.fParentMapped q (hfrSub q h1))
    · rw [h2]
      exact dhas_dset_self t.mapping peId cand
  · intro p hp nb hnb
    rcases hmemNew p hp with rfl | hp2
    · cases hcase : dhas t.mapping nb
      · exact Or.inr (extendFrontier_complete t.mapping
          (st.get peId).neighbours frontier1 peId nb hnb hcase)
      · exact Or.inl (dhas_dset_mono t.mapping nb peId cand hcase)
    · rcases hT.boundary p hp2 nb hnb with h1 | h1
      · exact Or.inl (dhas_dset_mono t.mapping nb peId cand h1)
      · have h2 : nb ∈ dkeys frontier1 ++ [peId] := by
          have h3 := (dhas_iff_mem_dkeys t.frontier nb).mp h1
          rw [hfr, dkeys_append] at h3
          exact h3
        rcases List.mem_append.mp h2 with h3 | h3
        · exact Or.inr (extendFrontier_dhas_mono t.mapping
            (st.get peId).neighbours frontier1 peId nb
            ((dhas_iff_mem_dkeys frontier1 nb).mpr h3))
        · rcases List.mem_singleton.mp h3 with rfl
          exact Or.inl (dhas_dset_self t.mapping nb cand)
  · exact dhas_dset_mono t.mapping anchorId peId cand hT.anchorMapped
  · intro q hq
    rcases extendFrontier_mem t.mapping (st.get peId).neighbours frontier1
        peId q hq with h1 | ⟨h1, h2, h3⟩
    · exact hT.fAdj q (hfrSub q h1)
    · rw [h2]
      exact h1

theorem initialTasks_ok (st : Store) (host pattern : PyGraph)
    (evalAttrs : Bool) (ev : EvalFn) (anchorId : Nat)
    (hwfH : GraphWf st host) (hwfP : GraphWf st pattern)
    (hanch : anchorId ∈ pattern.elemsVef) :
    ∀ (anchors : List Nat), (∀ a ∈ anchors, a ∈ host.elemsVef) →
      ∀ tasks, initialTasks st evalAttrs ev anchorId anchors = Except.ok tasks →
      ∀ t ∈ tasks, TaskOK st host pattern evalAttrs ev anchorId t := by
  have hNoSelf : anchorId ∉ (st.get anchorId).neighbours :=
    wf_no_self st pattern hwfP anchorId hanch
  intro anchors
  induction anchors with
  | nil =>
    intro _ tasks hok t ht
    cases hok
    cases ht
  | cons own rest ih =>
    intro hmem tasks hok t ht
    simp only [initialTasks] at hok
    obtain ⟨m, hm, hok⟩ := except_bind_ok_inv hok
    obtain ⟨ts, hts, hok⟩ := except_bind_ok_inv hok
    cases m with
    | false =>
      rw [ite_cond_false] at hok
      cases hok
      exact ih (fun a ha => hmem a (List.mem_cons_of_mem _ ha)) tasks hts t ht
    | true =>
      rw [ite_cond_true] at hok
      cases hok
      rcases List.mem_cons.mp ht with rfl | ht2
      · refine ⟨?_, ?_, ?_, ?_, ?_, ?_, ?_, ?_, ?_, ?_, ?_, ?_, ?_⟩
        · intro p hp
          rcases List.mem_singleton.mp hp with rfl
          exact hanch
        · intro p hp
          rcases List.mem_singleton.mp hp with rfl
          exact hmem own (List.mem_cons_self _ _)
        · simp [dkeys]
        · intro p hp q hq _
          rcases List.mem_singleton.mp hp with rfl
          rcases List.mem_singleton.mp hq with rfl
          rfl
        · intro p hp
          rcases List.mem_singleton.mp hp with rfl
          exact hm
        · intro p hp nb hnb hn hget
          rcases List.mem_singleton.mp hp with rfl
          by_cases hx : anchorId = nb
          · subst hx
            exact absurd hnb hNoSelf
          · rw [dget?_cons, if_neg hx, dget?_nil] at hget
            cases hget
        · intro q hq
          rcases extendFrontier_mem [] (st.get anchorId).neighbours [] anchorId
              q hq with h1 | ⟨h1, h2, h3⟩
          · cases h1
          · exact wf_nb_mem st pattern hwfP anchorId hanch q.1 h1
        · exact extendFrontier_keysNodup [] (st.get anchorId).neighbours []
            anchorId List.nodup_nil
        · intro q hq
          rcases extendFrontier_mem [] (st.get anchorId).neighbours [] anchorId
              q hq with h1 | ⟨h1, h2, h3⟩
          · cases h1
          · have hne : ¬ anchorId = q.1 := fun he => hNoSelf (he ▸ h1)
            unfold dhas
            rw [dget?_cons, if_neg hne, dget?_nil]
            rfl
        · intro q hq
          rcases extendFrontier_mem [] (st.get anchorId).neighbours [] anchorId
              q hq with h1 | ⟨h1, h2, h3⟩
          · cases h1
          · rw [h2]
            unfold dhas
            rw [dget?_cons, if_pos rfl]
            rfl
        · intro p hp nb hnb
          rcases List.mem_singleton.mp hp with rfl
          exact Or.inr (extendFrontier_complete [] (st.get anchorId).neighbours
            [] anchorId nb hnb rfl)
        · unfold dhas
          rw [dget?_cons, if_pos rfl]
          rfl
        · intro q hq
          rcases extendFrontier_mem [] (st.get anchorId).neighbours [] anchorId
              q hq with h1 | ⟨h1, h2, h3⟩
          · cases h1
          · rw [h2]
            exact h1
      · exact ih (fun a ha => hmem a (List.mem_cons_of_mem _ ha)) ts hts t ht2

theorem matchLoop_sound (st : Store) (host pattern : PyGraph)
    (evalAttrs : Bool) (ev : EvalFn) (anchorId : Nat)
    (hwfH : GraphWf st host) (hwfP : GraphWf st pattern) :
    ∀ (fuel : Nat) (tasks : List MTask) (results out : List MapA),
      (∀ t ∈ tasks, TaskOK st host pattern evalAttrs ev anchorId t) →
      (∀ m ∈ results, MapOK st host pattern evalAttrs ev m) →
      matchLoop st pattern.size evalAttrs ev fuel tasks results =
        Except.ok out →
      ∀ m ∈ out, MapOK st host pattern evalAttrs ev m := by
  intro fuel
  induction fuel with
  | zero =>
    intro tasks results out _ _ h
    cases h
  | succ n ih =>
    intro tasks results out hT hR hok
    cases tasks with
    | nil =>
      simp only [matchLoop] at hok
      cases hok
      exact hR
    | cons task rest =>
      simp only [matchLoop] at hok
      by_cases hcomp :
          (task.mapping.length == pattern.size && task.frontier.isEmpty) = true
      · rw [if_pos hcomp] at hok
        cases hcm : checkMatching st task.mapping with
        | error er =>
          rw [hcm] at hok
          cases hok
        | ok b =>
          cases b with
          | false =>
            rw [hcm] at hok
            cases hok
          | true =>
            rw [hcm] at hok
            dsimp only at hok
            refine ih rest _ out
              (fun t ht => hT t (List.mem_cons_of_mem _ ht)) ?_ hok
            have hMOK : MapOK st host pattern evalAttrs ev task.mapping := by
              have hTt := hT task (List.mem_cons_self _ _)
              have hlen : task.mapping.length = pattern.size := by
                rw [Bool.and_eq_true] at hcomp
                exact beq_iff_eq.mp hcomp.1
              exact ⟨hTt.keysPat, hTt.valsHost, hTt.keysNodup, hTt.inj,
                hTt.matchesAll, hTt.adj, hlen⟩
            intro m hm
            by_cases hrc : resultsContains results task.mapping = true
            · rw [if_pos hrc] at hm
              exact hR m hm
            · rw [if_neg hrc] at hm
              rcases List.mem_append.mp hm with h1 | h1
              · exact hR m h1
              · rcases List.mem_singleton.mp h1 with rfl
                exact hMOK
      · rw [if_neg hcomp] at hok
        by_cases hfull : (task.mapping.length == pattern.size) = true
        · rw [if_pos hfull] at hok
          cases hok
        · rw [if_neg hfull] at hok
          by_cases hfe : task.frontier.isEmpty = true
          · rw [if_pos hfe] at hok
            cases hok
          · rw [if_neg hfe] at hok
            cases hpop : dpopLast task.frontier with
            | none =>
              rw [hpop] at hok
              cases hok
            | some pr =>
              obtain ⟨pp, frontier1⟩ := pr
              obtain ⟨peId, ppId⟩ := pp
              rw [hpop] at hok
              dsimp only at hok
              cases hpar : dget? task.mapping ppId with
              | none =>
                rw [hpar] at hok
                cases hok
              | some ownParentId =>
                rw [hpar] at hok
                dsimp only at hok
                cases hcc : collectCandidates st evalAttrs ev task.mapping
                    (st.get peId) peId ppId ownParentId
                    (st.get ownParentId).neighbours with
                | error er =>
                  rw [hcc] at hok
                  cases hok
                | ok possibles =>
                  rw [hcc] at hok
                  dsimp only at hok
                  by_cases hemp : possibles.isEmpty = true
                  · rw [if_pos hemp] at hok
                    exact ih rest results out
                      (fun t ht => hT t (List.mem_cons_of_mem _ ht)) hR hok
                  · rw [if_neg hemp] at hok
                    refine ih _ results out ?_ hR hok
                    intro t2 ht2
                    rcases List.mem_append.mp ht2 with h1 | h1
                    · rw [List.mem_reverse] at h1
                      rcases List.mem_map.mp h1 with ⟨nm, hnm, rfl⟩
                      exact taskOK_extend st host pattern evalAttrs ev anchorId
                        hwfH hwfP task (hT task (List.mem_cons_self _ _))
                        peId ppId frontier1 hpop ownParentId hpar possibles
                        hcc nm hnm
                    · exact hT t2 (List.mem_cons_of_mem _ h1)

/-- C1: matcher soundness (amended).  Every mapping returned by a successful
`Graph.match` on well-formed host and pattern graphs is injective, covers
every pattern element, maps each pattern element to a host element of the
same kind for which `matches` holds, and preserves adjacency.  The original
claim's directed-edge clause — the vertex1/vertex2 role of a directed
pattern edge is preserved by its image — is dropped: the direction filter
tests only the slot holding the popped parent (vertex1 taking precedence),
so a directed self-loop pattern edge can be mapped onto a host edge whose
vertex2 role is not preserved; see the counterexample. -/
theorem C1_match_soundness (st : Store) (host pattern : PyGraph)
    (evalAttrs : Bool) (ev : EvalFn)
    (hwfH : GraphWf st host) (hwfP : GraphWf st pattern)
    (results : List MapA)
    (hok : graphMatch st host pattern evalAttrs ev = Except.ok results) :
    ∀ m ∈ results,
      (∀ p ∈ m, p.1 ∈ pattern.elemsVef ∧ p.2 ∈ host.elemsVef) ∧
      (∀ p ∈ m, ∀ q ∈ m, p.2 = q.2 → p.1 = q.1) ∧
      (∀ x ∈ pattern.elemsVef, ∃ hx, dget? m x = some hx) ∧
      (∀ p ∈ m, (st.get p.2).kind = (st.get p.1).kind ∧
        pyMatchesArg ev (st.get p.2) (st.get p.1) evalAttrs = Except.ok true) ∧
      (∀ p ∈ m, ∀ nb ∈ (st.get p.1).neighbours, ∀ hn,
        dget? m nb = some hn → hn ∈ (st.get p.2).neighbours) := by
  unfold graphMatch at hok
  cases hga : getAnyElement pattern with
  | none =>
    rw [hga] at hok
    cases hok
    intro m hm
    cases hm
  | some anchorId =>
    rw [hga] at hok
    obtain ⟨anchors, hanc, hok⟩ := except_bind_ok_inv hok
    obtain ⟨tasks, htk, hok⟩ := except_bind_ok_inv hok
    have hanchP : anchorId ∈ pattern.elemsVef :=
      getAnyElement_mem pattern anchorId hga
    have hancMem : ∀ a ∈ anchors, a ∈ host.elemsVef :=
      elementListConnected_mem st host hwfH anchors hanc
    have htOK := initialTasks_ok st host pattern evalAttrs ev anchorId hwfH
      hwfP hanchP anchors hancMem tasks htk
    have hsound := matchLoop_sound st host pattern evalAttrs ev anchorId hwfH
      hwfP (matchFuel st host pattern) tasks.reverse [] results
      (fun t ht => htOK t (List.mem_reverse.mp ht))
      (fun m hm => absurd hm (List.not_mem_nil m)) hok
    intro m hm
    have hMOK := hsound m hm
    refine ⟨fun p hp => ⟨hMOK.keysPat p hp, hMOK.valsHost p hp⟩, hMOK.inj, ?_,
      fun p hp => ⟨pyMatchesArg_true_kind ev _ _ _ (hMOK.matchesAll p hp),
        hMOK.matchesAll p hp⟩,
      fun p hp nb hnb hn hget =>
        (contains_iff _ _).mp (hMOK.adj p hp nb hnb hn hget)⟩
    intro x hx
    have hsub : ∀ k ∈ dkeys m, k ∈ pattern.elemsVef := by
      intro k hk
      rcases (mem_dkeys_iff m k).mp hk with ⟨v, hv⟩
      exact hMOK.keysPat (k, v) hv
    have hlen2 : pattern.elemsVef.length ≤ (dkeys m).length := by
      have h1 : (dkeys m).length = m.length := List.length_map m Prod.fst
      rw [h1, hMOK.lenEq, ← elemsVef_length]
    have hx2 : x ∈ dkeys m :=
      nodup_subset_full (dkeys m) pattern.elemsVef hMOK.keysNodup hwfP.1 hsub
        hlen2 x hx
    have hx3 : dhas m x = true := (dhas_iff_mem_dkeys m x).mpr hx2
    unfold dhas at hx3
    exact Option.isSome_iff_exists.mp hx3

/-- Counterexample to C1's directed-edge clause: the pattern is one vertex
with a directed self-loop edge, the host a plain two-vertex edge.  `match`
returns the mapping vertex 10 to 0, edge 11 to 2, although the pattern
edge's vertex2 is the pattern vertex (whose image is 0) while the image
edge's vertex2 is 1: the direction filter only ever tested the vertex1
slot. -/
theorem C1_direction_counterexample :
    graphMatch
      ⟨[(0, mkVertex [] [2]), (1, mkVertex [] [2]),
        (2, mkEdge [] (some 0) (some 1)), (10, mkVertex [] [11]),
        (11, mkEdge [(".directed", Attr.b true)] (some 10) (some 10))], 12⟩
      ⟨[0, 1], [2], []⟩ ⟨[10], [11], []⟩ false
      (fun _ _ _ => Except.error PyErr.valueError) =
      Except.ok [[(10, 0), (11, 2)]] ∧
    isDirectedEdge (Store.get
      ⟨[(0, mkVertex [] [2]), (1, mkVertex [] [2]),
        (2, mkEdge [] (some 0) (some 1)), (10, mkVertex [] [11]),
        (11, mkEdge [(".directed", Attr.b true)] (some 10) (some 10))], 12⟩
      11) = true ∧
    (Store.get
      ⟨[(0, mkVertex [] [2]), (1, mkVertex [] [2]),
        (2, mkEdge [] (some 0) (some 1)), (10, mkVertex [] [11]),
        (11, mkEdge [(".directed", Attr.b true)] (some 10) (some 10))], 12⟩
      11).vertex2 = some 10 ∧
    dget? [(10, 0), (11, 2)] 10 = some 0 ∧
    dget? [(10, 0), (11, 2)] 11 = some 2 ∧
    ¬ (Store.get
      ⟨[(0, mkVertex [] [2]), (1, mkVertex [] [2]),
        (2, mkEdge [] (some 0) (some 1)), (10, mkVertex [] [11]),
        (11, mkEdge [(".directed", Attr.b true)] (some 10) (some 10))], 12⟩
      2).vertex2 = some 0 :=
  ⟨rfl, rfl, rfl, rfl, rfl, by decide⟩

/-- Witness for C1_match_soundness: a one-vertex host matched by a
one-vertex pattern; the returned mapping is the singleton pattern vertex 10
to host vertex 0 and satisfies every amended conjunct. -/
theorem C1_match_soundness_witness :
    GraphWf ⟨[(0, mkVertex [] []), (10, mkVertex [] [])], 11⟩
      ⟨[0], [], []⟩ ∧
    GraphWf ⟨[(0, mkVertex [] []), (10, mkVertex [] [])], 11⟩
      ⟨[10], [], []⟩ ∧
    ((∀ p ∈ [(10, 0)], p.1 ∈ (⟨[10], [], []⟩ : PyGraph).elemsVef ∧
        p.2 ∈ (⟨[0], [], []⟩ : PyGraph).elemsVef) ∧
      (∀ p ∈ [(10, 0)], ∀ q ∈ [(10, 0)],
        Prod.snd p = Prod.snd q → Prod.fst p = Prod.fst q) ∧
      (∀ x ∈ (⟨[10], [], []⟩ : PyGraph).elemsVef,
        ∃ hx, dget? [(10, 0)] x = some hx) ∧
      (∀ p ∈ [(10, 0)],
        (Store.get ⟨[(0, mkVertex [] []), (10, mkVertex [] [])], 11⟩
          p.2).kind =
        (Store.get ⟨[(0, mkVertex [] []), (10, mkVertex [] [])], 11⟩
          p.1).kind ∧
        pyMatchesArg (fun _ _ _ => Except.error PyErr.valueError)
          (Store.get ⟨[(0, mkVertex [] []), (10, mkVertex [] [])], 11⟩ p.2)
          (Store.get ⟨[(0, mkVertex [] []), (10, mkVertex [] [])], 11⟩ p.1)
          false = Except.ok true) ∧
      (∀ p ∈ [(10, 0)], ∀ nb ∈ (Store.get
          ⟨[(0, mkVertex [] []), (10, mkVertex [] [])], 11⟩
          p.1).neighbours, ∀ hn,
        dget? [(10, 0)] nb = some hn →
        hn ∈ (Store.get ⟨[(0, mkVertex [] []), (10, mkVertex [] [])], 11⟩
          p.2).neighbours)) := by
  have hwfH : GraphWf ⟨[(0, mkVertex [] []), (10, mkVertex [] [])], 11⟩
      ⟨[0], [], []⟩ := by
    refine ⟨by decide, ⟨by decide, by decide, by decide⟩,
      ⟨by decide, ?_, by decide⟩, by simp only [GraphReciprocal]; decide⟩
    intro e he
    exact absurd he (List.not_mem_nil e)
  have hwfP : GraphWf ⟨[(0, mkVertex [] []), (10, mkVertex [] [])], 11⟩
      ⟨[10], [], []⟩ := by
    refine ⟨by decide, ⟨by decide, by decide, by decide⟩,
      ⟨by decide, ?_, by decide⟩, by simp only [GraphReciprocal]; decide⟩
    intro e he
    exact absurd he (List.not_mem_nil e)
  exact ⟨hwfH, hwfP,
    C1_match_soundness ⟨[(0, mkVertex [] []), (10, mkVertex [] [])], 11⟩
      ⟨[0], [], []⟩ ⟨[10], [], []⟩ false
      (fun _ _ _ => Except.error PyErr.valueError) hwfH hwfP
      [[(10, 0)]] rfl [(10, 0)] (List.mem_singleton.mpr rfl)⟩

theorem popSkip_unmarked (marked : List Nat) :
    ∀ (q : List Nat) (x : Nat) (rest : List Nat),
      popSkip marked q = some (x, rest) → marked.contains x = false := by
  intro q
  induction q with
  | nil =>
    intro x rest h
    cases h
  | cons a tl ih =>
    intro x rest h
    simp only [popSkip] at h
    by_cases hm : marked.contains a = true
    · rw [if_pos hm] at h
      exact ih x rest h
    · rw [if_neg hm] at h
      cases h
      cases hb : marked.contains a
      · rfl
      · exact absurd hb hm

theorem mem_ve_of_nonface (st : Store) (g : PyGraph) (hwf : GraphWf st g)
    (x : Nat) (hx : x ∈ g.elemsVef) (hnf : (st.get x).kind ≠ EKind.face) :
    x ∈ g.vertices ++ g.edges := by
  rcases mem_elemsVef_cases g x hx with h1 | h1 | h1
  · exact List.mem_append.mpr (Or.inl h1)
  · exact List.mem_append.mpr (Or.inr h1)
  · exact absurd (hwf.2.1.2.2 x h1) hnf

theorem ve_nodup (st : Store) (g : PyGraph) (hwf : GraphWf st g) :
    (g.vertices ++ g.edges).Nodup := by
  have h1 := hwf.1
  unfold PyGraph.elemsVef at h1
  exact (List.nodup_append.mp h1).1

theorem nb_in_ve (st : Store) (g : PyGraph) (hwf : GraphWf st g) (y : Nat)
    (hy : y ∈ g.elemsVef) (nb : Nat) (hnb : nb ∈ (st.get y).neighbours) :
    nb ∈ g.vertices ++ g.edges :=
  mem_ve_of_nonface st g hwf nb (wf_nb_mem st g hwf y hy nb hnb)
    (wf_nb_nonface st g hwf y hy nb hnb)

theorem mem_elemsVef_of_ve (g : PyGraph) (x : Nat)
    (h : x ∈ g.vertices ++ g.edges) : x ∈ g.elemsVef := by
  rcases List.mem_append.mp h with h1 | h1
  · exact mem_elemsVef_v g x h1
  · exact mem_elemsVef_e g x h1

theorem iterRun_good (st : Store) (g : PyGraph) (hwf : GraphWf st g) :
    ∀ (fuel : Nat) (s : IterSt) (l : List Nat),
      (∀ x ∈ s.queue, x ∈ g.vertices ++ g.edges) →
      (∀ x ∈ s.marked, x ∈ g.vertices ++ g.edges) →
      s.marked.Nodup →
      s.total = (g.vertices ++ g.edges).length →
      iterRun st g fuel s = Except.ok l →
      (∀ x ∈ l, x ∈ g.vertices ++ g.edges) ∧ l.Nodup ∧
      (∀ x ∈ l, x ∉ s.marked) ∧
      (∀ x ∈ g.vertices ++ g.edges, x ∈ s.marked ∨ x ∈ l) := by
  intro fuel
  induction fuel with
  | zero =>
    intro s l _ _ _ _ h
    cases h
  | succ n ih =>
    intro s l hq hmv hmn htot hok
    simp only [iterRun] at hok
    cases hn : iterNext st g s with
    | none =>
      rw [hn] at hok
      cases hok
      refine ⟨fun x hx => absurd hx (List.not_mem_nil x), List.nodup_nil,
        fun x hx => absurd hx (List.not_mem_nil x), ?_⟩
      unfold iterNext at hn
      cases hp : popSkip s.marked s.queue with
      | some pq =>
        rw [hp] at hn
        cases hn
      | none =>
        rw [hp] at hn
        cases hu : getUnconnected g s with
        | some z =>
          rw [hu] at hn
          cases hn
        | none =>
          unfold getUnconnected at hu
          by_cases hlt : s.marked.length < s.total
          · rw [if_pos hlt] at hu
            cases hv : g.vertices.find? (fun v => !(s.marked.contains v)) with
            | some v =>
              rw [hv] at hu
              cases hu
            | none =>
              rw [hv] at hu
              intro x hx
              left
              rcases List.mem_append.mp hx with h1 | h1
              · have h2 := List.find?_eq_none.mp hv x h1
                cases hb : s.marked.contains x
                · exact absurd (by rw [hb]; rfl) h2
                · exact (contains_iff _ _).mp hb
              · have h2 := List.find?_eq_none.mp hu x h1
                cases hb : s.marked.contains x
                · exact absurd (by rw [hb]; rfl) h2
                · exact (contains_iff _ _).mp hb
          · rw [if_neg hlt] at hu
            intro x hx
            left
            refine nodup_subset_full s.marked (g.vertices ++ g.edges) hmn
              (ve_nodup st g hwf) hmv ?_ x hx
            rw [← htot]
            omega
    | some pr =>
      obtain ⟨y, s2⟩ := pr
      rw [hn] at hok
      dsimp only at hok
      cases hrec : iterRun st g n s2 with
      | error er =>
        rw [hrec] at hok
        cases hok
      | ok l2 =>
        rw [hrec] at hok
        cases hok
        unfold iterNext at hn
        cases hp : popSkip s.marked s.queue with
        | some pq =>
          obtain ⟨z, q2⟩ := pq
          rw [hp] at hn
          cases hn
          have hyq := (popSkip_mem s.marked s.queue y q2 hp).1
          have hyve : y ∈ g.vertices ++ g.edges := hq y hyq
          have hyun : s.marked.contains y = false :=
            popSkip_unmarked s.marked s.queue y q2 hp
          have hynm : y ∉ s.marked := by
            intro hc
            rw [(contains_iff s.marked y).mpr hc] at hyun
            cases hyun
          obtain ⟨ih1, ih2, ih3, ih4⟩ := ih
            ⟨y :: s.marked, q2 ++ List.filter
              (fun nn => !((y :: s.marked).contains nn))
              (st.get y).neighbours, s.total⟩ l2
            (by
              intro w hw
              rcases List.mem_append.mp hw with h1 | h1
              · exact hq w ((popSkip_mem s.marked s.queue y q2 hp).2 w h1)
              · exact nb_in_ve st g hwf y (mem_elemsVef_of_ve g y hyve) w
                  (List.mem_of_mem_filter h1))
            (by
              intro w hw
              rcases List.mem_cons.mp hw with rfl | h1
              · exact hyve
              · exact hmv w h1)
            (List.nodup_cons.mpr ⟨hynm, hmn⟩)
            htot hrec
          refine ⟨?_, ?_, ?_, ?_⟩
          · intro x hx
            rcases List.mem_cons.mp hx with rfl | hx2
            · exact hyve
            · exact ih1 x hx2
          · refine List.nodup_cons.mpr ⟨?_, ih2⟩
            intro hc
            exact ih3 y hc (List.mem_cons_self _ _)
          · intro x hx
            rcases List.mem_cons.mp hx with rfl | hx2
            · exact hynm
            · exact fun hc => ih3 x hx2 (List.mem_cons_of_mem _ hc)
          · intro x hx
            rcases ih4 x hx with h1 | h1
            · rcases List.mem_cons.mp h1 with rfl | h2
              · exact Or.inr (List.mem_cons_self _ _)
              · exact Or.inl h2
            · exact Or.inr (List.mem_cons_of_mem _ h1)
        | none =>
          rw [hp] at hn
          cases hu : getUnconnected g s with
          | none =>
            rw [hu] at hn
            cases hn
          | some z =>
            rw [hu] at hn
            cases hn
            have hyve : y ∈ g.vertices ++ g.edges := by
              unfold getUnconnected at hu
              by_cases hlt : s.marked.length < s.total
              · rw [if_pos hlt] at hu
                cases hv : g.vertices.find? (fun v => !(s.marked.contains v)) with
                | some v =>
                  rw [hv] at hu
                  cases hu
                  exact List.mem_append.mpr
                    (Or.inl (List.mem_of_find?_eq_some hv))
                | none =>
                  rw [hv] at hu
                  exact List.mem_append.mpr
                    (Or.inr (List.mem_of_find?_eq_some hu))
              · rw [if_neg hlt] at hu
                cases hu
            have hyun : s.marked.contains y = false := by
              unfold getUnconnected at hu
              by_cases hlt : s.marked.length < s.total
              · rw [if_pos hlt] at hu
                cases hv : g.vertices.find? (fun v => !(s.marked.contains v)) with
                | some v =>
                  rw [hv] at hu
                  cases hu
                  have h2 := List.find?_some hv
                  cases hb : s.marked.contains y
                  · rfl
                  · rw [hb] at h2
                    cases h2
                | none =>
                  rw [hv] at hu
                  have h2 := List.find?_some hu
                  cases hb : s.marked.contains y
                  · rfl
                  · rw [hb] at h2
                    cases h2
              · rw [if_neg hlt] at hu
                cases hu
            have hynm : y ∉ s.marked := by
              intro hc
              rw [(contains_iff s.marked y).mpr hc] at hyun
              cases hyun
            obtain ⟨ih1, ih2, ih3, ih4⟩ := ih
              ⟨y :: s.marked, List.filter
                (fun nn => !((y :: s.marked).contains nn))
                (st.get y).neighbours, s.total⟩ l2
              (by
                intro w hw
                exact nb_in_ve st g hwf y (mem_elemsVef_of_ve g y hyve) w
                  (List.mem_of_mem_filter hw))
              (by
                intro w hw
                rcases List.mem_cons.mp hw with rfl | h1
                · exact hyve
                · exact hmv w h1)
              (List.nodup_cons.mpr ⟨hynm, hmn⟩)
              htot hrec
            refine ⟨?_, ?_, ?_, ?_⟩
            · intro x hx
              rcases List.mem_cons.mp hx with rfl | hx2
              · exact hyve
              · exact ih1 x hx2
            · refine List.nodup_cons.mpr ⟨?_, ih2⟩
              intro hc
              exact ih3 y hc (List.mem_cons_self _ _)
            · intro x hx
              rcases List.mem_cons.mp hx with rfl | hx2
              · exact hynm
              · exact fun hc => ih3 x hx2 (List.mem_cons_of_mem _ hc)
            · intro x hx
              rcases ih4 x hx with h1 | h1
              · rcases List.mem_cons.mp h1 with rfl | h2
                · exact Or.inr (List.mem_cons_self _ _)
                · exact Or.inl h2
              · exact Or.inr (List.mem_cons_of_mem _ h1)

theorem elementListConnected_good (st : Store) (g : PyGraph)
    (hwf : GraphWf st g) (l : List Nat)
    (hok : elementListConnected st g = Except.ok l) :
    (∀ x ∈ l, x ∈ g.vertices ++ g.edges) ∧ l.Nodup ∧
    (∀ x ∈ g.vertices ++ g.edges, x ∈ l) := by
  unfold elementListConnected at hok
  have h := iterRun_good st g hwf (iterFuel st g) (iterInit g) l
    (by
      intro x hx
      have hx2 : x ∈ (getFirstElement g).toList := hx
      have hsome : getFirstElement g = some x := mem_toList_some _ x hx2
      unfold getFirstElement at hsome
      by_cases h1 : g.vertices.length > 0
      · rw [if_pos h1] at hsome
        exact List.mem_append.mpr (Or.inl (List.mem_of_mem_head? hsome))
      · rw [if_neg h1] at hsome
        by_cases h2 : g.edges.length > 0
        · rw [if_pos h2] at hsome
          exact List.mem_append.mpr (Or.inr (List.mem_of_mem_head? hsome))
        · rw [if_neg h2, if_neg h2] at hsome
          cases hsome)
    (fun x hx => absurd hx (List.not_mem_nil x))
    List.nodup_nil
    (List.length_append g.vertices g.edges).symm hok
  obtain ⟨h1, h2, h3, h4⟩ := h
  refine ⟨h1, h2, ?_⟩
  intro x hx
  rcases h4 x hx with h5 | h5
  · exact absurd h5 (List.not_mem_nil x)
  · exact h5

theorem pyMatchesArg_false_total (ev : EvalFn) (c p : GElem)
    (hc : c.kind ≠ EKind.face) :
    ∃ b, pyMatchesArg ev c p false = Except.ok b := by
  unfold pyMatchesArg
  rw [if_neg hc]
  by_cases hk : c.kind ≠ p.kind
  · rw [if_pos hk]
    exact ⟨false, rfl⟩
  · rw [if_neg hk, ite_cond_false]
    exact ⟨matchesAttrsEq c.attr p.attr, rfl⟩

theorem directionCheck_ok (st : Store) (pe : GElem) (ppId ownParentId cand : Nat)
    (hslots : isDirectedEdge pe = true →
      pe.vertex1 = some ppId ∨ pe.vertex2 = some ppId) :
    ∃ b, directionCheck st pe ppId ownParentId cand = Except.ok b := by
  unfold directionCheck
  by_cases hd : isDirectedEdge pe = true
  · rw [if_pos hd]
    by_cases h1 : pe.vertex1 = some ppId
    · rw [if_pos h1]
      exact ⟨_, rfl⟩
    · rw [if_neg h1]
      rcases hslots hd with h2 | h2
      · exact absurd h2 h1
      · rw [if_pos h2]
        exact ⟨_, rfl⟩
  · rw [if_neg hd]
    exact ⟨true, rfl⟩

theorem collectCandidates_ok (st : Store) (ev : EvalFn) (mapping : MapA)
    (pe : GElem) (peId ppId ownParentId : Nat)
    (hslots : isDirectedEdge pe = true →
      pe.vertex1 = some ppId ∨ pe.vertex2 = some ppId) :
    ∀ (nbs : List Nat), (∀ c ∈ nbs, (st.get c).kind ≠ EKind.face) →
      ∃ ps, collectCandidates st false ev mapping pe peId ppId ownParentId
        nbs = Except.ok ps := by
  intro nbs
  induction nbs with
  | nil =>
    intro _
    exact ⟨[], rfl⟩
  | cons cand rest ih =>
    intro hnf
    obtain ⟨ps, hps⟩ := ih (fun c hc => hnf c (List.mem_cons_of_mem _ hc))
    obtain ⟨dir, hdir⟩ := directionCheck_ok st pe ppId ownParentId cand hslots
    simp only [collectCandidates, hdir, except_bind_ok]
    by_cases hd : (!dir) = true
    · rw [if_pos hd]
      exact ⟨ps, hps⟩
    · rw [if_neg hd]
      by_cases hu : (dvalues mapping).contains cand = true
      · rw [if_pos hu]
        exact ⟨ps, hps⟩
      · rw [if_neg hu]
        obtain ⟨b, hb⟩ := pyMatchesArg_false_total ev (st.get cand) pe
          (hnf cand (List.mem_cons_self _ _))
        rw [hb]
        simp only [except_bind_ok]
        by_cases hm : (!b) = true
        · rw [if_pos hm]
          exact ⟨ps, hps⟩
        · rw [if_neg hm]
          by_cases hmc :
              (!(matchedNeighboursCompatible st mapping cand peId)) = true
          · rw [if_pos hmc]
            exact ⟨ps, hps⟩
          · rw [if_neg hmc]
            rw [hps]
            simp only [except_bind_ok]
            exact ⟨dset mapping peId cand :: ps, rfl⟩

theorem collectCandidates_complete (st : Store) (ev : EvalFn) (mapping : MapA)
    (pe : GElem) (peId ppId ownParentId : Nat) (cand : Nat)
    (hdir : directionCheck st pe ppId ownParentId cand = Except.ok true)
    (hu : (dvalues mapping).contains cand = false)
    (hm : pyMatchesArg ev (st.get cand) pe false = Except.ok true)
    (hmc : matchedNeighboursCompatible st mapping cand peId = true) :
    ∀ (nbs : List Nat) (ps : List MapA), cand ∈ nbs →
      collectCandidates st false ev mapping pe peId ppId ownParentId nbs =
        Except.ok ps →
      dset mapping peId cand ∈ ps := by
  intro nbs
  induction nbs with
  | nil =>
    intro ps hc
    cases hc
  | cons a rest ih =>
    intro ps hc hok
    simp only [collectCandidates] at hok
    obtain ⟨dir2, hdir2, hok⟩ := except_bind_ok_inv hok
    rcases List.mem_cons.mp hc with rfl | hc2
    · rw [hdir] at hdir2
      cases hdir2
      rw [show (!true) = false from rfl, ite_cond_false] at hok
      rw [hu, ite_cond_false] at hok
      obtain ⟨b, hb, hok⟩ := except_bind_ok_inv hok
      rw [hm] at hb
      cases hb
      rw [show (!true) = false from rfl, ite_cond_false] at hok
      rw [hmc] at hok
      rw [show (!true) = false from rfl, ite_cond_false] at hok
      obtain ⟨restMs, hrm, hok⟩ := except_bind_ok_inv hok
      cases hok
      exact List.mem_cons_self _ _
    · by_cases hd : (!dir2) = true
      · rw [if_pos hd] at hok
        exact ih ps hc2 hok
      · rw [if_neg hd] at hok
        by_cases hu2 : (dvalues mapping).contains a = true
        · rw [if_pos hu2] at hok
          exact ih ps hc2 hok
        · rw [if_neg hu2] at hok
          obtain ⟨b, hb, hok⟩ := except_bind_ok_inv hok
          by_cases hm2 : (!b) = true
          · rw [if_pos hm2] at hok
            exact ih ps hc2 hok
          · rw [if_neg hm2] at hok
            by_cases hmc2 :
                (!(matchedNeighboursCompatible st mapping a peId)) = true
            · rw [if_pos hmc2] at hok
              exact ih ps hc2 hok
            · rw [if_neg hmc2] at hok
              obtain ⟨restMs, hrm, hok⟩ := except_bind_ok_inv hok
              cases hok
              exact List.mem_cons_of_mem _ (ih restMs hc2 hrm)

theorem collectCandidates_length (st : Store) (evalAttrs : Bool) (ev : EvalFn)
    (mapping : MapA) (pe : GElem) (peId ppId ownParentId : Nat) :
    ∀ (nbs : List Nat) (ps : List MapA),
      collectCandidates st evalAttrs ev mapping pe peId ppId ownParentId nbs =
        Except.ok ps →
      ps.length ≤ nbs.length := by
  intro nbs
  induction nbs with
  | nil =>
    intro ps hok
    cases hok
    exact Nat.le_refl 0
  | cons a rest ih =>
    intro ps hok
    simp only [collectCandidates] at hok
    obtain ⟨dir, hdir, hok⟩ := except_bind_ok_inv hok
    by_cases hd : (!dir) = true
    · rw [if_pos hd] at hok
      exact Nat.le_succ_of_le (ih ps hok)
    · rw [if_neg hd] at hok
      by_cases hu : (dvalues mapping).contains a = true
      · rw [if_pos hu] at hok
        exact Nat.le_succ_of_le (ih ps hok)
      · rw [if_neg hu] at hok
        obtain ⟨b, hb, hok⟩ := except_bind_ok_inv hok
        by_cases hm : (!b) = true
        · rw [if_pos hm] at hok
          exact Nat.le_succ_of_le (ih ps hok)
        · rw [if_neg hm] at hok
          by_cases hmc :
              (!(matchedNeighboursCompatible st mapping a peId)) = true
          · rw [if_pos hmc] at hok
            exact Nat.le_succ_of_le (ih ps hok)
          · rw [if_neg hmc] at hok
            obtain ⟨restMs, hrm, hok⟩ := except_bind_ok_inv hok
            cases hok
            simp only [List.length_cons]
            exact Nat.succ_le_succ (ih restMs hrm)

theorem checkMatchingPair_ok (st : Store) (mapping : MapA) (he : Nat) :
    ∀ (l : List Nat),
      (∀ mn ∈ l, ∃ hn, dget? mapping mn = some hn ∧
        (st.get he).neighbours.contains hn = true) →
      checkMatchingPair st mapping he l = Except.ok true := by
  intro l
  induction l with
  | nil =>
    intro _
    rfl
  | cons mn rest ih =>
    intro hl
    obtain ⟨hn, hget, hcont⟩ := hl mn (List.mem_cons_self _ _)
    simp only [checkMatchingPair, hget, hcont, ite_cond_true]
    exact ih (fun x hx => hl x (List.mem_cons_of_mem _ hx))

theorem checkMatchingGo_ok (st : Store) (mapping : MapA) :
    ∀ (l : MapA),
      (∀ p ∈ l, ∀ mn ∈ (st.get p.1).neighbours, ∃ hn,
        dget? mapping mn = some hn ∧
        (st.get p.2).neighbours.contains hn = true) →
      checkMatchingGo st mapping l = Except.ok true := by
  intro l
  induction l with
  | nil =>
    intro _
    rfl
  | cons p rest ih =>
    intro hl
    obtain ⟨me, he⟩ := p
    have h1 : checkMatchingPair st mapping he (st.get me).neighbours =
        Except.ok true :=
      checkMatchingPair_ok st mapping he (st.get me).neighbours
        (hl (me, he) (List.mem_cons_self _ _))
    simp only [checkMatchingGo, h1, except_bind_ok, ite_cond_true]
    exact ih (fun q hq => hl q (List.mem_cons_of_mem _ hq))

theorem initialTasks_total (st : Store) (ev : EvalFn) (anchorId : Nat) :
    ∀ (anchors : List Nat), (∀ a ∈ anchors, (st.get a).kind ≠ EKind.face) →
      ∃ ts, initialTasks st false ev anchorId anchors = Except.ok ts := by
  intro anchors
  induction anchors with
  | nil =>
    intro _
    exact ⟨[], rfl⟩
  | cons own rest ih =>
    intro hnf
    obtain ⟨ts, hts⟩ := ih (fun a ha => hnf a (List.mem_cons_of_mem _ ha))
    obtain ⟨b, hb⟩ := pyMatchesArg_false_total ev (st.get own)
      (st.get anchorId) (hnf own (List.mem_cons_self _ _))
    simp only [initialTasks, hb, hts, except_bind_ok]
    cases b with
    | false =>
      rw [ite_cond_false]
      exact ⟨ts, rfl⟩
    | true =>
      rw [ite_cond_true]
      exact ⟨_, rfl⟩

theorem initialTasks_contains (st : Store) (ev : EvalFn) (anchorId own : Nat)
    (hmatch : pyMatchesArg ev (st.get own) (st.get anchorId) false =
      Except.ok true) :
    ∀ (anchors : List Nat) (ts : List MTask), own ∈ anchors →
      initialTasks st false ev anchorId anchors = Except.ok ts →
      MTask.mk [(anchorId, own)]
        (extendFrontier [] [] anchorId (st.get anchorId).neighbours) ∈ ts := by
  intro anchors
  induction anchors with
  | nil =>
    intro ts hc
    cases hc
  | cons a rest ih =>
    intro ts hc hok
    simp only [initialTasks] at hok
    obtain ⟨m, hm, hok⟩ := except_bind_ok_inv hok
    obtain ⟨ts2, hts2, hok⟩ := except_bind_ok_inv hok
    rcases List.mem_cons.mp hc with rfl | hc2
    · rw [hmatch] at hm
      cases hm
      rw [ite_cond_true] at hok
      cases hok
      exact List.mem_cons_self _ _
    · cases m with
      | false =>
        rw [ite_cond_false] at hok
        cases hok
        exact ih ts hc2 hts2
      | true =>
        rw [ite_cond_true] at hok
        cases hok
        exact List.mem_cons_of_mem _ (ih ts2 hc2 hts2)

theorem initialTasks_shape (st : Store) (evalAttrs : Bool) (ev : EvalFn)
    (anchorId : Nat) :
    ∀ (anchors : List Nat) (ts : List MTask),
      initialTasks st evalAttrs ev anchorId anchors = Except.ok ts →
      (∀ t ∈ ts, t.mapping.length = 1) ∧ ts.length ≤ anchors.length := by
  intro anchors
  induction anchors with
  | nil =>
    intro ts hok
    cases hok
    exact ⟨fun t ht => absurd ht (List.not_mem_nil t), Nat.le_refl 0⟩
  | cons a rest ih =>
    intro ts hok
    simp only [initialTasks] at hok
    obtain ⟨m, hm, hok⟩ := except_bind_ok_inv hok
    obtain ⟨ts2, hts2, hok⟩ := except_bind_ok_inv hok
    obtain ⟨ih1, ih2⟩ := ih ts2 hts2
    cases m with
    | false =>
      rw [ite_cond_false] at hok
      cases hok
      exact ⟨ih1, Nat.le_succ_of_le ih2⟩
    | true =>
      rw [ite_cond_true] at hok
      cases hok
      refine ⟨?_, by simp only [List.length_cons]; omega⟩
      intro t ht
      rcases List.mem_cons.mp ht with rfl | ht2
      · rfl
      · exact ih1 t ht2

theorem foldl_max_ge : ∀ (l : List Nat) (a : Nat),
    a ≤ l.foldl Nat.max a ∧ ∀ x ∈ l, x ≤ l.foldl Nat.max a := by
  intro l
  induction l with
  | nil =>
    intro a
    exact ⟨Nat.le_refl a, fun x hx => absurd hx (List.not_mem_nil x)⟩
  | cons h t ih =>
    intro a
    simp only [List.foldl_cons]
    obtain ⟨ih1, ih2⟩ := ih (Nat.max a h)
    refine ⟨Nat.le_trans (Nat.le_max_left a h) ih1, ?_⟩
    intro x hx
    rcases List.mem_cons.mp hx with rfl | hx2
    · exact Nat.le_trans (Nat.le_max_right a x) ih1
    · exact ih2 x hx2

theorem maxNbLen_ge (st : Store) (i : Nat) :
    (st.get i).neighbours.length ≤ maxNbLen st := by
  unfold maxNbLen
  cases hf : dget? st.elems i with
  | none =>
    have hg : st.get i = mkVertex [] [] := by
      unfold Store.get Store.find?
      rw [hf]
      rfl
    rw [hg]
    exact Nat.zero_le _
  | some e =>
    have hg : st.get i = e := by
      unfold Store.get Store.find?
      rw [hf]
      rfl
    rw [hg]
    have hmem : (i, e) ∈ st.elems := dget?_eq_some_mem hf
    have h2 : e.neighbours.length ∈
        st.elems.map (fun p => p.2.neighbours.length) :=
      List.mem_map_of_mem (fun p => p.2.neighbours.length) hmem
    exact (foldl_max_ge _ 0).2 _ h2

theorem sum_map_const {α : Type} :
    ∀ (l : List α) (f : α → Nat) (c : Nat), (∀ x ∈ l, f x = c) →
      (l.map f).sum = l.length * c := by
  intro l
  induction l with
  | nil =>
    intro f c _
    simp
  | cons a t ih =>
    intro f c hc
    simp only [List.map_cons, List.sum_cons, List.length_cons]
    rw [hc a (List.mem_cons_self _ _),
      ih f c (fun x hx => hc x (List.mem_cons_of_mem _ hx)), Nat.succ_mul]
    omega

theorem taskMeasure_cons (psize B : Nat) (t : MTask) (ts : List MTask) :
    taskMeasure psize B (t :: ts) =
      B ^ (psize + 1 - t.mapping.length) + taskMeasure psize B ts := by
  simp [taskMeasure]

theorem taskMeasure_append (psize B : Nat) (l1 l2 : List MTask) :
    taskMeasure psize B (l1 ++ l2) =
      taskMeasure psize B l1 + taskMeasure psize B l2 := by
  unfold taskMeasure
  rw [List.map_append, List.sum_append]

theorem taskMeasure_reverse (psize B : Nat) (l : List MTask) :
    taskMeasure psize B l.reverse = taskMeasure psize B l := by
  unfold taskMeasure
  rw [List.map_reverse, List.sum_reverse]

theorem getLast?_none_nil {α : Type} (l : List α) (h : l.getLast? = none) :
    l = [] := by
  cases l with
  | nil => rfl
  | cons a t =>
    exfalso
    have h2 := List.getLast?_isSome.mpr (List.cons_ne_nil a t)
    rw [h] at h2
    cases h2

theorem taskOK_keys_le (st : Store) (host pattern : PyGraph)
    (evalAttrs : Bool) (ev : EvalFn) (anchorId : Nat) (t : MTask)
    (hwfP : GraphWf st pattern)
    (hT : TaskOK st host pattern evalAttrs ev anchorId t) :
    t.mapping.length ≤ pattern.size := by
  have h1 : (dkeys t.mapping).length ≤ pattern.elemsVef.length := by
    refine nodup_subset_length (dkeys t.mapping) pattern.elemsVef
      hT.keysNodup ?_
    intro k hk
    rcases (mem_dkeys_iff t.mapping k).mp hk with ⟨v, hv⟩
    exact hT.keysPat (k, v) hv
  have h2 : (dkeys t.mapping).length = t.mapping.length :=
    List.length_map t.mapping Prod.fst
  have h3 := elemsVef_length pattern
  omega

theorem taskOK_coverage (st : Store) (host pattern : PyGraph)
    (evalAttrs : Bool) (ev : EvalFn) (anchorId : Nat) (t : MTask)
    (hwfP : GraphWf st pattern)
    (hT : TaskOK st host pattern evalAttrs ev anchorId t)
    (hlen : t.mapping.length = pattern.size) :
    ∀ x ∈ pattern.elemsVef, dhas t.mapping x = true := by
  intro x hx
  have hsub : ∀ k ∈ dkeys t.mapping, k ∈ pattern.elemsVef := by
    intro k hk
    rcases (mem_dkeys_iff t.mapping k).mp hk with ⟨v, hv⟩
    exact hT.keysPat (k, v) hv
  have hlen2 : pattern.elemsVef.length ≤ (dkeys t.mapping).length := by
    have h1 : (dkeys t.mapping).length = t.mapping.length :=
      List.length_map t.mapping Prod.fst
    have h2 := elemsVef_length pattern
    omega
  exact (dhas_iff_mem_dkeys t.mapping x).mpr
    (nodup_subset_full (dkeys t.mapping) pattern.elemsVef hT.keysNodup
      hwfP.1 hsub hlen2 x hx)

theorem goodTask_spawn (st : Store) (host pattern : PyGraph) (ev : EvalFn)
    (memb : Nat → Nat) (anchorId : Nat)
    (hwfH : GraphWf st host) (hwfP : GraphWf st pattern)
    (hmembInj : ∀ x ∈ pattern.elemsVef, ∀ y ∈ pattern.elemsVef,
      memb x = memb y → x = y)
    (hmembMatches : ∀ x ∈ pattern.elemsVef,
      pyMatchesArg ev (st.get (memb x)) (st.get x) false = Except.ok true)
    (hmembAdj : ∀ x ∈ pattern.elemsVef, ∀ y ∈ (st.get x).neighbours,
      memb y ∈ (st.get (memb x)).neighbours)
    (hmembDir : ∀ e ∈ pattern.elemsVef, isDirectedEdge (st.get e) = true →
      (∀ v, (st.get e).vertex1 = some v →
        (st.get (memb e)).vertex1 = some (memb v)) ∧
      (∀ v, (st.get e).vertex2 = some v →
        (st.get (memb e)).vertex2 = some (memb v)))
    (t : MTask) (hT : TaskOK st host pattern false ev anchorId t)
    (hgood : GoodTask memb t)
    (peId ppId : Nat) (frontier1 : MapA)
    (hpop : dpopLast t.frontier = some ((peId, ppId), frontier1))
    (ownParentId : Nat) (hpar : dget? t.mapping ppId = some ownParentId)
    (possibles : List MapA)
    (hcc : collectCandidates st false ev t.mapping (st.get peId) peId ppId
      ownParentId (st.get ownParentId).neighbours = Except.ok possibles) :
    dset t.mapping peId (memb peId) ∈ possibles := by
  have hpeF : (peId, ppId) ∈ t.frontier := by
    rw [dpopLast_spec t.frontier _ frontier1 hpop]
    exact List.mem_append.mpr (Or.inr (List.mem_singleton.mpr rfl))
  have hpePat : peId ∈ pattern.elemsVef := hT.fKeysPat _ hpeF
  have hpeUn : dhas t.mapping peId = false := hT.fUnmapped _ hpeF
  have hparMem : (ppId, ownParentId) ∈ t.mapping := dget?_eq_some_mem hpar
  have hppPat : ppId ∈ pattern.elemsVef := hT.keysPat _ hparMem
  have hOwn : ownParentId = memb ppId := hgood _ hparMem
  have hppNb : ppId ∈ (st.get peId).neighbours :=
    hwfP.2.2.2 ppId hppPat peId (hT.fAdj _ hpeF)
  have hcandNb : memb peId ∈ (st.get ownParentId).neighbours := by
    rw [hOwn]
    exact hmembAdj ppId hppPat peId (hT.fAdj _ hpeF)
  have hdirok : directionCheck st (st.get peId) ppId ownParentId
      (memb peId) = Except.ok true := by
    unfold directionCheck
    by_cases hd : isDirectedEdge (st.get peId) = true
    · rw [if_pos hd]
      obtain ⟨hs1, hs2⟩ := hmembDir peId hpePat hd
      have hkind : (st.get peId).kind = EKind.edge := by
        unfold isDirectedEdge at hd
        rw [Bool.and_eq_true] at hd
        exact of_decide_eq_true hd.1
      by_cases hv1 : (st.get peId).vertex1 = some ppId
      · rw [if_pos hv1, hs1 ppId hv1, hOwn]
        simp
      · rw [if_neg hv1]
        rcases nb_edge st peId hkind ppId hppNb with h1 | h1
        · exact absurd h1 hv1
        · rw [if_pos h1, hs2 ppId h1, hOwn]
          simp
    · rw [if_neg hd]
  have hu : (dvalues t.mapping).contains (memb peId) = false := by
    cases hb : (dvalues t.mapping).contains (memb peId)
    · rfl
    · exfalso
      have h1 := (contains_iff _ _).mp hb
      rcases List.mem_map.mp h1 with ⟨p, hpmem, hpsnd⟩
      obtain ⟨a, b⟩ := p
      have hba : b = memb a := hgood (a, b) hpmem
      have haP : a ∈ pattern.elemsVef := hT.keysPat (a, b) hpmem
      have hae : a = peId := hmembInj a haP peId hpePat (by
        rw [← hba]
        exact hpsnd)
      subst hae
      have h2 : dhas t.mapping a = true :=
        (dhas_iff_exists t.mapping a).mpr ⟨b, hpmem⟩
      rw [hpeUn] at h2
      cases h2
  have hm : pyMatchesArg ev (st.get (memb peId)) (st.get peId) false =
      Except.ok true := hmembMatches peId hpePat
  have hmc : matchedNeighboursCompatible st t.mapping (memb peId) peId =
      true := by
    unfold matchedNeighboursCompatible
    refine List.all_eq_true.mpr ?_
    intro onb honb
    cases hg : dget? t.mapping onb with
    | none =>
      simp only [hg]
    | some img =>
      simp only [hg]
      have himg : img = memb onb := hgood _ (dget?_eq_some_mem hg)
      rw [himg]
      exact (contains_iff _ _).mpr (hmembAdj peId hpePat onb honb)
  exact collectCandidates_complete st ev t.mapping (st.get peId) peId ppId
    ownParentId (memb peId) hdirok hu hm hmc
    (st.get ownParentId).neighbours possibles hcandNb hcc

theorem matchLoop_complete (st : Store) (host pattern : PyGraph) (ev : EvalFn)
    (memb : Nat → Nat) (anchorId : Nat)
    (hwfH : GraphWf st host) (hwfP : GraphWf st pattern)
    (hconn : ∀ x ∈ pattern.elemsVef, Relation.ReflTransGen
      (fun u v => u ∈ pattern.elemsVef ∧ v ∈ (st.get u).neighbours)
      anchorId x)
    (hmembInj : ∀ x ∈ pattern.elemsVef, ∀ y ∈ pattern.elemsVef,
      memb x = memb y → x = y)
    (hmembMatches : ∀ x ∈ pattern.elemsVef,
      pyMatchesArg ev (st.get (memb x)) (st.get x) false = Except.ok true)
    (hmembAdj : ∀ x ∈ pattern.elemsVef, ∀ y ∈ (st.get x).neighbours,
      memb y ∈ (st.get (memb x)).neighbours)
    (hmembDir : ∀ e ∈ pattern.elemsVef, isDirectedEdge (st.get e) = true →
      (∀ v, (st.get e).vertex1 = some v →
        (st.get (memb e)).vertex1 = some (memb v)) ∧
      (∀ v, (st.get e).vertex2 = some v →
        (st.get (memb e)).vertex2 = some (memb v))) :
    ∀ (fuel : Nat) (tasks : List MTask) (results : List MapA),
      (∀ t ∈ tasks, TaskOK st host pattern false ev anchorId t) →
      taskMeasure pattern.size (maxNbLen st + 2) tasks < fuel →
      ((∃ t ∈ tasks, GoodTask memb t) ∨ results ≠ []) →
      ∃ out, matchLoop st pattern.size false ev fuel tasks results =
        Except.ok out ∧ out ≠ [] := by
  intro fuel
  induction fuel with
  | zero =>
    intro tasks results _ hmeas _
    exact absurd hmeas (Nat.not_lt_zero _)
  | succ n ih =>
    intro tasks results hT hmeas hinv
    cases tasks with
    | nil =>
      refine ⟨results, by simp only [matchLoop], ?_⟩
      rcases hinv with ⟨t, ht, _⟩ | hres
      · exact absurd ht (List.not_mem_nil t)
      · exact hres
    | cons task rest =>
      have hTt := hT task (List.mem_cons_self _ _)
      rw [taskMeasure_cons] at hmeas
      have hpow1 : 1 ≤ (maxNbLen st + 2) ^
          (pattern.size + 1 - task.mapping.length) :=
        Nat.one_le_pow _ _ (by omega)
      simp only [matchLoop]
      by_cases hcomp :
          (task.mapping.length == pattern.size && task.frontier.isEmpty) = true
      · have hcomp2 := hcomp
        rw [Bool.and_eq_true] at hcomp2
        have hlen : task.mapping.length = pattern.size :=
          beq_iff_eq.mp hcomp2.1
        have hcov := taskOK_coverage st host pattern false ev anchorId task
          hwfP hTt hlen
        have hcm : checkMatching st task.mapping = Except.ok true := by
          unfold checkMatching
          refine checkMatchingGo_ok st task.mapping task.mapping ?_
          intro p hp mn hmn
          have hp1 : p.1 ∈ pattern.elemsVef := hTt.keysPat p hp
          have hmnP : mn ∈ pattern.elemsVef :=
            wf_nb_mem st pattern hwfP p.1 hp1 mn hmn
          have h2 : dhas task.mapping mn = true := hcov mn hmnP
          unfold dhas at h2
          obtain ⟨hn, hget⟩ := Option.isSome_iff_exists.mp h2
          exact ⟨hn, hget, hTt.adj p hp mn hmn hn hget⟩
        rw [if_pos hcomp, hcm]
        dsimp only
        refine ih rest _ (fun t ht => hT t (List.mem_cons_of_mem _ ht))
          (by omega) (Or.inr ?_)
        by_cases hrc : resultsContains results task.mapping = true
        · rw [if_pos hrc]
          intro he
          rw [he] at hrc
          cases hrc
        · rw [if_neg hrc]
          intro he
          rcases List.append_eq_nil.mp he with ⟨h1, h2⟩
          cases h2
      · rw [if_neg hcomp]
        by_cases hfull : (task.mapping.length == pattern.size) = true
        · exfalso
          have hlen : task.mapping.length = pattern.size :=
            beq_iff_eq.mp hfull
          have hcov := taskOK_coverage st host pattern false ev anchorId task
            hwfP hTt hlen
          have hfne : task.frontier ≠ [] := by
            intro he
            apply hcomp
            rw [hfull, he]
            rfl
          obtain ⟨q, hq⟩ := List.exists_mem_of_ne_nil task.frontier hfne
          have h1 := hTt.fUnmapped q hq
          rw [hcov q.1 (hTt.fKeysPat q hq)] at h1
          cases h1
        · rw [if_neg hfull]
          by_cases hfe : task.frontier.isEmpty = true
          · exfalso
            have hfnil : task.frontier = [] := by
              cases hf : task.frontier with
              | nil => rfl
              | cons a t =>
                rw [hf] at hfe
                cases hfe
            have hclosed : ∀ x, Relation.ReflTransGen
                (fun u v => u ∈ pattern.elemsVef ∧ v ∈ (st.get u).neighbours)
                anchorId x → dhas task.mapping x = true := by
              intro x hreach
              induction hreach with
              | refl => exact hTt.anchorMapped
              | tail hab hbc ihb =>
                obtain ⟨hbp, hcnb⟩ := hbc
                unfold dhas at ihb
                obtain ⟨vb, hvb⟩ := Option.isSome_iff_exists.mp ihb
                rcases hTt.boundary _ (dget?_eq_some_mem hvb) _ hcnb with
                  h1 | h1
                · exact h1
                · rw [hfnil] at h1
                  cases h1
            have hcov2 : ∀ x ∈ pattern.elemsVef, x ∈ dkeys task.mapping :=
              fun x hx => (dhas_iff_mem_dkeys _ x).mp
                (hclosed x (hconn x hx))
            have hle1 : pattern.elemsVef.length ≤
                (dkeys task.mapping).length :=
              nodup_subset_length pattern.elemsVef (dkeys task.mapping)
                hwfP.1 hcov2
            have hle2 := taskOK_keys_le st host pattern false ev anchorId
              task hwfP hTt
            have h3 : (dkeys task.mapping).length = task.mapping.length :=
              List.length_map task.mapping Prod.fst
            have h4 := elemsVef_length pattern
            apply hfull
            refine beq_iff_eq.mpr ?_
            omega
          · rw [if_neg hfe]
            have hfne : task.frontier ≠ [] := by
              intro he
              apply hfe
              rw [he]
              rfl
            obtain ⟨pp, frontier1, hpop⟩ : ∃ pp frontier1,
                dpopLast task.frontier = some (pp, frontier1) := by
              unfold dpopLast
              cases hg : task.frontier.getLast? with
              | none => exact absurd (getLast?_none_nil _ hg) hfne
              | some q => exact ⟨q, task.frontier.dropLast, rfl⟩
            obtain ⟨peId, ppId⟩ := pp
            have hpeF : (peId, ppId) ∈ task.frontier := by
              rw [dpopLast_spec task.frontier _ frontier1 hpop]
              exact List.mem_append.mpr (Or.inr (List.mem_singleton.mpr rfl))
            have hppm : dhas task.mapping ppId = true :=
              hTt.fParentMapped _ hpeF
            unfold dhas at hppm
            obtain ⟨ownParentId, hpar⟩ := Option.isSome_iff_exists.mp hppm
            have hpePat : peId ∈ pattern.elemsVef := hTt.fKeysPat _ hpeF
            have hpeUn : dhas task.mapping peId = false :=
              hTt.fUnmapped _ hpeF
            have hparMem := dget?_eq_some_mem hpar
            have hppPat : ppId ∈ pattern.elemsVef := hTt.keysPat _ hparMem
            have hparHost : ownParentId ∈ host.elemsVef :=
              hTt.valsHost _ hparMem
            have hppNb : ppId ∈ (st.get peId).neighbours :=
              hwfP.2.2.2 ppId hppPat peId (hTt.fAdj _ hpeF)
            have hslots : isDirectedEdge (st.get peId) = true →
                (st.get peId).vertex1 = some ppId ∨
                (st.get peId).vertex2 = some ppId := by
              intro hdir
              have hkind : (st.get peId).kind = EKind.edge := by
                unfold isDirectedEdge at hdir
                rw [Bool.and_eq_true] at hdir
                exact of_decide_eq_true hdir.1
              exact nb_edge st peId hkind ppId hppNb
            obtain ⟨possibles, hcc⟩ := collectCandidates_ok st ev
              task.mapping (st.get peId) peId ppId ownParentId hslots
              (st.get ownParentId).neighbours
              (fun c hc => wf_nb_nonface st host hwfH ownParentId hparHost
                c hc)
            rw [hpop]
            dsimp only
            rw [hpar]
            dsimp only
            rw [hcc]
            dsimp only
            have hlenlt : task.mapping.length < pattern.size := by
              have h1 := taskOK_keys_le st host pattern false ev anchorId
                task hwfP hTt
              have h2 : task.mapping.length ≠ pattern.size :=
                fun he => hfull (beq_iff_eq.mpr he)
              omega
            have hlens : ∀ nm ∈ possibles,
                nm.length = task.mapping.length + 1 := by
              intro nm hnm
              obtain ⟨cand, hcand, hnmEq, h1, h2, h3⟩ :=
                collectCandidates_mem st false ev task.mapping (st.get peId)
                  peId ppId ownParentId (st.get ownParentId).neighbours
                  possibles hcc nm hnm
              rw [hnmEq]
              exact dset_length_fresh task.mapping peId cand hpeUn
            by_cases hemp : possibles.isEmpty = true
            · rw [if_pos hemp]
              have hpnil : possibles = [] := by
                cases hp2 : possibles with
                | nil => rfl
                | cons a t =>
                  rw [hp2] at hemp
                  cases hemp
              refine ih rest results
                (fun t ht => hT t (List.mem_cons_of_mem _ ht))
                (by omega) ?_
              rcases hinv with ⟨tg, htg, hgood⟩ | hres
              · rcases List.mem_cons.mp htg with rfl | htg2
                · exfalso
                  have hmem2 := goodTask_spawn st host pattern ev memb
                    anchorId hwfH hwfP hmembInj hmembMatches hmembAdj
                    hmembDir tg hTt hgood peId ppId frontier1 hpop
                    ownParentId hpar possibles hcc
                  rw [hpnil] at hmem2
                  exact absurd hmem2 (List.not_mem_nil _)
                · exact Or.inl ⟨tg, htg2, hgood⟩
              · exact Or.inr hres
            · rw [if_neg hemp]
              have hplen : possibles.length ≤ maxNbLen st :=
                Nat.le_trans
                  (collectCandidates_length st false ev task.mapping
                    (st.get peId) peId ppId ownParentId
                    (st.get ownParentId).neighbours possibles hcc)
                  (maxNbLen_ge st ownParentId)
              have hms : taskMeasure pattern.size (maxNbLen st + 2)
                  ((possibles.map (fun nm => MTask.mk nm
                    (extendFrontier task.mapping frontier1 peId
                      (st.get peId).neighbours))).reverse ++ rest) =
                  possibles.length * (maxNbLen st + 2) ^
                    (pattern.size + 1 - (task.mapping.length + 1)) +
                  taskMeasure pattern.size (maxNbLen st + 2) rest := by
                rw [taskMeasure_append, taskMeasure_reverse]
                unfold taskMeasure
                rw [List.map_map]
                rw [sum_map_const possibles _ _ ?_]
                intro nm hnm
                show (maxNbLen st + 2) ^
                  (pattern.size + 1 - (MTask.mk nm
                    (extendFrontier task.mapping frontier1 peId
                      (st.get peId).neighbours)).mapping.length) = _
                dsimp only
                rw [hlens nm hnm]
              have hd2 : pattern.size + 1 - task.mapping.length =
                  (pattern.size + 1 - (task.mapping.length + 1)) + 1 := by
                omega
              have hpow2 : (maxNbLen st + 2) ^
                  (pattern.size + 1 - task.mapping.length) =
                  (maxNbLen st + 2) ^
                    (pattern.size + 1 - (task.mapping.length + 1)) *
                  (maxNbLen st + 2) := by
                rw [hd2, pow_succ]
              have hC1 : 1 ≤ (maxNbLen st + 2) ^
                  (pattern.size + 1 - (task.mapping.length + 1)) :=
                Nat.one_le_pow _ _ (by omega)
              have hmul : possibles.length * (maxNbLen st + 2) ^
                  (pattern.size + 1 - (task.mapping.length + 1)) ≤
                  maxNbLen st * (maxNbLen st + 2) ^
                    (pattern.size + 1 - (task.mapping.length + 1)) :=
                Nat.mul_le_mul_right _ hplen
              have hexp : (maxNbLen st + 2) ^
                  (pattern.size + 1 - (task.mapping.length + 1)) *
                  (maxNbLen st + 2) =
                  maxNbLen st * (maxNbLen st + 2) ^
                    (pattern.size + 1 - (task.mapping.length + 1)) +
                  2 * (maxNbLen st + 2) ^
                    (pattern.size + 1 - (task.mapping.length + 1)) := by
                ring
              refine ih _ results ?_ ?_ ?_
              · intro t2 ht2
                rcases List.mem_append.mp ht2 with h1 | h1
                · rw [List.mem_reverse] at h1
                  rcases List.mem_map.mp h1 with ⟨nm, hnm, rfl⟩
                  exact taskOK_extend st host pattern false ev anchorId
                    hwfH hwfP task hTt peId ppId frontier1 hpop ownParentId
                    hpar possibles hcc nm hnm
                · exact hT t2 (List.mem_cons_of_mem _ h1)
              · rw [hms]
                rw [hpow2] at hmeas
                omega
              · rcases hinv with ⟨tg, htg, hgood⟩ | hres
                · rcases List.mem_cons.mp htg with rfl | htg2
                  · refine Or.inl ⟨MTask.mk
                      (dset tg.mapping peId (memb peId))
                      (extendFrontier tg.mapping frontier1 peId
                        (st.get peId).neighbours), ?_, ?_⟩
                    · refine List.mem_append.mpr (Or.inl ?_)
                      rw [List.mem_reverse]
                      refine List.mem_map.mpr ⟨dset tg.mapping peId
                        (memb peId), ?_, rfl⟩
                      exact goodTask_spawn st host pattern ev memb anchorId
                        hwfH hwfP hmembInj hmembMatches hmembAdj hmembDir
                        tg hTt hgood peId ppId frontier1 hpop ownParentId
                        hpar possibles hcc
                    · intro p hp
                      rcases mem_dset tg.mapping peId (memb peId) p hp with
                        rfl | hp2
                      · rfl
                      · exact hgood p hp2
                  · exact Or.inl ⟨tg, List.mem_append.mpr (Or.inr htg2),
                      hgood⟩
                · exact Or.inr hres

theorem getAnyElement_ve (g : PyGraph) (a : Nat)
    (h : getAnyElement g = some a) : a ∈ g.vertices ++ g.edges := by
  unfold getAnyElement getFirstElement at h
  by_cases h1 : g.vertices.length > 0
  · rw [if_pos h1] at h
    exact List.mem_append.mpr (Or.inl (List.mem_of_mem_head? h))
  · rw [if_neg h1] at h
    by_cases h2 : g.edges.length > 0
    · rw [if_pos h2] at h
      exact List.mem_append.mpr (Or.inr (List.mem_of_mem_head? h))
    · rw [if_neg h2, if_neg h2] at h
      cases h

theorem iterRun_total (st : Store) (g : PyGraph) (hwf : GraphWf st g) :
    ∀ (fuel : Nat) (s : IterSt),
      (∀ x ∈ s.queue, x ∈ g.vertices ++ g.edges) →
      (∀ x ∈ s.marked, x ∈ g.vertices ++ g.edges) →
      s.marked.Nodup →
      (g.vertices ++ g.edges).length - s.marked.length < fuel →
      ∃ l, iterRun st g fuel s = Except.ok l := by
  intro fuel
  induction fuel with
  | zero =>
    intro s _ _ _ hm
    exact absurd hm (Nat.not_lt_zero _)
  | succ n ih =>
    intro s hq hmv hmn hm
    cases hn : iterNext st g s with
    | none =>
      refine ⟨[], ?_⟩
      simp only [iterRun, hn]
    | some pr =>
      obtain ⟨y, s2⟩ := pr
      unfold iterNext at hn
      cases hp : popSkip s.marked s.queue with
      | some pq =>
        obtain ⟨z, q2⟩ := pq
        rw [hp] at hn
        cases hn
        have hyve : y ∈ g.vertices ++ g.edges :=
          hq y (popSkip_mem s.marked s.queue y q2 hp).1
        have hyun : s.marked.contains y = false :=
          popSkip_unmarked s.marked s.queue y q2 hp
        have hynm : y ∉ s.marked := by
          intro hc
          rw [(contains_iff s.marked y).mpr hc] at hyun
          cases hyun
        have hlenb : (y :: s.marked).length ≤
            (g.vertices ++ g.edges).length := by
          refine nodup_subset_length (y :: s.marked) _
            (List.nodup_cons.mpr ⟨hynm, hmn⟩) ?_
          intro w hw
          rcases List.mem_cons.mp hw with rfl | h1
          · exact hyve
          · exact hmv w h1
        obtain ⟨l2, h2⟩ := ih
          ⟨y :: s.marked, q2 ++ List.filter
            (fun nn => !((y :: s.marked).contains nn))
            (st.get y).neighbours, s.total⟩
          (by
            intro w hw
            rcases List.mem_append.mp hw with h1 | h1
            · exact hq w ((popSkip_mem s.marked s.queue y q2 hp).2 w h1)
            · exact nb_in_ve st g hwf y (mem_elemsVef_of_ve g y hyve) w
                (List.mem_of_mem_filter h1))
          (by
            intro w hw
            rcases List.mem_cons.mp hw with rfl | h1
            · exact hyve
            · exact hmv w h1)
          (List.nodup_cons.mpr ⟨hynm, hmn⟩)
          (by
            simp only [List.length_cons] at hlenb ⊢
            omega)
        refine ⟨y :: l2, ?_⟩
        simp only [iterRun]
        rw [show iterNext st g s = some (y,
          ⟨y :: s.marked, q2 ++ List.filter
            (fun nn => !((y :: s.marked).contains nn))
            (st.get y).neighbours, s.total⟩) from by
          unfold iterNext
          rw [hp]]
        dsimp only
        rw [h2]
        rfl
      | none =>
        rw [hp] at hn
        cases hu : getUnconnected g s with
        | none =>
          rw [hu] at hn
          cases hn
        | some z =>
          rw [hu] at hn
          cases hn
          have hyve : y ∈ g.vertices ++ g.edges := by
            unfold getUnconnected at hu
            by_cases hlt : s.marked.length < s.total
            · rw [if_pos hlt] at hu
              cases hv : g.vertices.find? (fun v => !(s.marked.contains v)) with
              | some v =>
                rw [hv] at hu
                cases hu
                exact List.mem_append.mpr
                  (Or.inl (List.mem_of_find?_eq_some hv))
              | none =>
                rw [hv] at hu
                exact List.mem_append.mpr
                  (Or.inr (List.mem_of_find?_eq_some hu))
            · rw [if_neg hlt] at hu
              cases hu
          have hyun : s.marked.contains y = false := by
            unfold getUnconnected at hu
            by_cases hlt : s.marked.length < s.total
            · rw [if_pos hlt] at hu
              cases hv : g.vertices.find? (fun v => !(s.marked.contains v)) with
              | some v =>
                rw [hv] at hu
                cases hu
                have h2 := List.find?_some hv
                cases hb : s.marked.contains y
                · rfl
                · rw [hb] at h2
                  cases h2
              | none =>
                rw [hv] at hu
                have h2 := List.find?_some hu
                cases hb : s.marked.contains y
                · rfl
                · rw [hb] at h2
                  cases h2
            · rw [if_neg hlt] at hu
              cases hu
          have hynm : y ∉ s.marked := by
            intro hc
            rw [(contains_iff s.marked y).mpr hc] at hyun
            cases hyun
          have hlenb : (y :: s.marked).length ≤
              (g.vertices ++ g.edges).length := by
            refine nodup_subset_length (y :: s.marked) _
              (List.nodup_cons.mpr ⟨hynm, hmn⟩) ?_
            intro w hw
            rcases List.mem_cons.mp hw with rfl | h1
            · exact hyve
            · exact hmv w h1
          obtain ⟨l2, h2⟩ := ih
            ⟨y :: s.marked, List.filter
              (fun nn => !((y :: s.marked).contains nn))
              (st.get y).neighbours, s.total⟩
            (by
              intro w hw
              exact nb_in_ve st g hwf y (mem_elemsVef_of_ve g y hyve) w
                (List.mem_of_mem_filter hw))
            (by
              intro w hw
              rcases List.mem_cons.mp hw with rfl | h1
              · exact hyve
              · exact hmv w h1)
            (List.nodup_cons.mpr ⟨hynm, hmn⟩)
            (by
              simp only [List.length_cons] at hlenb ⊢
              omega)
          refine ⟨y :: l2, ?_⟩
          simp only [iterRun]
          rw [show iterNext st g s = some (y,
            ⟨y :: s.marked, List.filter
              (fun nn => !((y :: s.marked).contains nn))
              (st.get y).neighbours, s.total⟩) from by
            unfold iterNext
            rw [hp, hu]]
          dsimp only
          rw [h2]
          rfl

theorem elementListConnected_total (st : Store) (g : PyGraph)
    (hwf : GraphWf st g) :
    ∃ l, elementListConnected st g = Except.ok l := by
  unfold elementListConnected
  refine iterRun_total st g hwf (iterFuel st g) (iterInit g) ?_
    (fun x hx => absurd hx (List.not_mem_nil x)) List.nodup_nil ?_
  · intro x hx
    have hx2 : x ∈ (getFirstElement g).toList := hx
    exact getAnyElement_ve g x (mem_toList_some _ x hx2)
  · show (g.vertices ++ g.edges).length - ([] : List Nat).length <
      iterFuel st g
    unfold iterFuel
    rw [List.length_append]
    simp only [List.length_nil]
    omega

/-- C2: matcher completeness (amended).  For a well-formed host and a
well-formed, connected, face-free pattern (connectivity along the neighbour
relation within the pattern; a pattern with a vertex or an edge) that is
structurally embedded in the host — an injective map whose images live in
the host, satisfy `matches`, preserve adjacency, and preserve the
vertex1/vertex2 endpoint slots of directed pattern edges — `Graph.match`
returns normally with at least one mapping.  The original claim fails
without connectivity: a disconnected pattern makes the search pop an
exhausted frontier with an incomplete mapping and raise ValueError; see the
counterexample. -/
theorem C2_match_completeness (st : Store) (host pattern : PyGraph)
    (ev : EvalFn) (memb : Nat → Nat)
    (hwfH : GraphWf st host) (hwfP : GraphWf st pattern)
    (hne : 0 < pattern.vertices.length ∨ 0 < pattern.edges.length)
    (hconn : ∀ a ∈ pattern.elemsVef, ∀ x ∈ pattern.elemsVef,
      Relation.ReflTransGen
        (fun u v => u ∈ pattern.elemsVef ∧ v ∈ (st.get u).neighbours) a x)
    (hmembHost : ∀ x ∈ pattern.elemsVef, memb x ∈ host.elemsVef)
    (hmembInj : ∀ x ∈ pattern.elemsVef, ∀ y ∈ pattern.elemsVef,
      memb x = memb y → x = y)
    (hmembMatches : ∀ x ∈ pattern.elemsVef,
      pyMatchesArg ev (st.get (memb x)) (st.get x) false = Except.ok true)
    (hmembAdj : ∀ x ∈ pattern.elemsVef, ∀ y ∈ (st.get x).neighbours,
      memb y ∈ (st.get (memb x)).neighbours)
    (hmembDir : ∀ e ∈ pattern.elemsVef, isDirectedEdge (st.get e) = true →
      (∀ v, (st.get e).vertex1 = some v →
        (st.get (memb e)).vertex1 = some (memb v)) ∧
      (∀ v, (st.get e).vertex2 = some v →
        (st.get (memb e)).vertex2 = some (memb v))) :
    ∃ results, graphMatch st host pattern false ev = Except.ok results ∧
      results ≠ [] := by
  obtain ⟨anchorId, hga⟩ : ∃ a, getAnyElement pattern = some a := by
    cases hg : getAnyElement pattern with
    | some a => exact ⟨a, rfl⟩
    | none =>
      exfalso
      unfold getAnyElement getFirstElement at hg
      by_cases h1 : pattern.vertices.length > 0
      · rw [if_pos h1] at hg
        cases hv : pattern.vertices with
        | nil =>
          rw [hv] at h1
          exact absurd h1 (by simp)
        | cons a t =>
          rw [hv] at hg
          cases hg
      · rw [if_neg h1] at hg
        by_cases h2 : pattern.edges.length > 0
        · rw [if_pos h2] at hg
          cases he : pattern.edges with
          | nil =>
            rw [he] at h2
            exact absurd h2 (by simp)
          | cons a t =>
            rw [he] at hg
            cases hg
        · rcases hne with h3 | h3
          · exact h1 h3
          · exact h2 h3
  have hanchP : anchorId ∈ pattern.elemsVef :=
    getAnyElement_mem pattern anchorId hga
  obtain ⟨anchors, hanc⟩ := elementListConnected_total st host hwfH
  obtain ⟨hancVE, hancND, hancComplete⟩ :=
    elementListConnected_good st host hwfH anchors hanc
  have hancNF : ∀ a ∈ anchors, (st.get a).kind ≠ EKind.face := by
    intro a ha
    rcases List.mem_append.mp (hancVE a ha) with h1 | h1
    · rw [hwfH.2.1.1 a h1]
      intro hc
      cases hc
    · rw [hwfH.2.1.2.1 a h1]
      intro hc
      cases hc
  obtain ⟨tasks, htk⟩ := initialTasks_total st ev anchorId anchors hancNF
  have hanchVE : anchorId ∈ pattern.vertices ++ pattern.edges :=
    getAnyElement_ve pattern anchorId hga
  have hanchNF : (st.get anchorId).kind ≠ EKind.face := by
    rcases List.mem_append.mp hanchVE with h1 | h1
    · rw [hwfP.2.1.1 anchorId h1]
      intro hc
      cases hc
    · rw [hwfP.2.1.2.1 anchorId h1]
      intro hc
      cases hc
  have hmembA : memb anchorId ∈ anchors := by
    refine hancComplete (memb anchorId) ?_
    refine mem_ve_of_nonface st host hwfH (memb anchorId)
      (hmembHost anchorId hanchP) ?_
    have hk := pyMatchesArg_true_kind ev (st.get (memb anchorId))
      (st.get anchorId) false (hmembMatches anchorId hanchP)
    rw [hk]
    exact hanchNF
  have hseed := initialTasks_contains st ev anchorId (memb anchorId)
    (hmembMatches anchorId hanchP) anchors tasks hmembA htk
  have htOK := initialTasks_ok st host pattern false ev anchorId hwfH hwfP
    hanchP anchors (fun a ha => mem_elemsVef_of_ve host a (hancVE a ha))
    tasks htk
  obtain ⟨hshape, hlenle⟩ := initialTasks_shape st false ev anchorId anchors
    tasks htk
  have hmeas : taskMeasure pattern.size (maxNbLen st + 2) tasks.reverse <
      matchFuel st host pattern := by
    rw [taskMeasure_reverse]
    have h1 : taskMeasure pattern.size (maxNbLen st + 2) tasks =
        tasks.length * (maxNbLen st + 2) ^ (pattern.size + 1 - 1) := by
      unfold taskMeasure
      refine sum_map_const tasks _ _ ?_
      intro t ht
      rw [hshape t ht]
    rw [h1]
    have h2 : anchors.length ≤ host.elemsVef.length :=
      nodup_subset_length anchors host.elemsVef hancND
        (fun a ha => mem_elemsVef_of_ve host a (hancVE a ha))
    unfold matchFuel
    have h3 := elemsVef_length host
    have h4 : pattern.size + 1 - 1 = pattern.size := by omega
    rw [h4]
    have h5 : (maxNbLen st + 2) ^ pattern.size ≤
        (maxNbLen st + 2) ^ (pattern.size + 1) :=
      Nat.pow_le_pow_right (by omega) (by omega)
    have h6 : tasks.length * (maxNbLen st + 2) ^ pattern.size ≤
        host.size * (maxNbLen st + 2) ^ (pattern.size + 1) :=
      Nat.mul_le_mul (by omega) h5
    have h8 : (host.size + 1) * (maxNbLen st + 2) ^ (pattern.size + 1) =
        host.size * (maxNbLen st + 2) ^ (pattern.size + 1) +
        (maxNbLen st + 2) ^ (pattern.size + 1) := by
      ring
    omega
  obtain ⟨out, hout, houtne⟩ := matchLoop_complete st host pattern ev memb
    anchorId hwfH hwfP (fun x hx => hconn anchorId hanchP x hx) hmembInj
    hmembMatches hmembAdj hmembDir (matchFuel st host pattern) tasks.reverse
    [] (fun t ht => htOK t (List.mem_reverse.mp ht)) hmeas
    (Or.inl ⟨MTask.mk [(anchorId, memb anchorId)]
      (extendFrontier [] [] anchorId (st.get anchorId).neighbours),
      List.mem_reverse.mpr hseed,
      fun p hp => by
        rcases List.mem_singleton.mp hp with rfl
        rfl⟩)
  refine ⟨out, ?_, houtne⟩
  unfold graphMatch
  rw [hga, hanc]
  simp only [except_bind_ok]
  rw [htk]
  simp only [except_bind_ok]
  exact hout

/-- Counterexample to C2 as stated: a disconnected two-vertex pattern is
structurally embedded in a two-vertex host by the injective, matching,
adjacency-preserving map 10 to 0, 11 to 1, yet `Graph.match` raises
ValueError instead of returning a mapping: after the anchor component is
exhausted the frontier is empty while the mapping is incomplete. -/
theorem C2_disconnected_counterexample :
    graphMatch ⟨[(0, mkVertex [] []), (1, mkVertex [] []),
        (10, mkVertex [] []), (11, mkVertex [] [])], 12⟩
      ⟨[0, 1], [], []⟩ ⟨[10, 11], [], []⟩ false
      (fun _ _ _ => Except.ok true) =
      Except.error PyErr.valueError ∧
    (∀ x ∈ (⟨[10, 11], [], []⟩ : PyGraph).elemsVef,
      (if x = 10 then 0 else 1) ∈ (⟨[0, 1], [], []⟩ : PyGraph).elemsVef) ∧
    (∀ x ∈ (⟨[10, 11], [], []⟩ : PyGraph).elemsVef,
      ∀ y ∈ (⟨[10, 11], [], []⟩ : PyGraph).elemsVef,
      (if x = 10 then 0 else 1) = (if y = 10 then 0 else 1) → x = y) ∧
    (∀ x ∈ (⟨[10, 11], [], []⟩ : PyGraph).elemsVef,
      pyMatchesArg (fun _ _ _ => Except.ok true)
        (Store.get ⟨[(0, mkVertex [] []), (1, mkVertex [] []),
          (10, mkVertex [] []), (11, mkVertex [] [])], 12⟩
          (if x = 10 then 0 else 1))
        (Store.get ⟨[(0, mkVertex [] []), (1, mkVertex [] []),
          (10, mkVertex [] []), (11, mkVertex [] [])], 12⟩ x) false =
        Except.ok true) ∧
    (∀ x ∈ (⟨[10, 11], [], []⟩ : PyGraph).elemsVef,
      ∀ y ∈ (Store.get ⟨[(0, mkVertex [] []), (1, mkVertex [] []),
        (10, mkVertex [] []), (11, mkVertex [] [])], 12⟩ x).neighbours,
      (if y = 10 then 0 else 1) ∈ (Store.get
        ⟨[(0, mkVertex [] []), (1, mkVertex [] []),
          (10, mkVertex [] []), (11, mkVertex [] [])], 12⟩
        (if x = 10 then 0 else 1)).neighbours) :=
  ⟨rfl, by decide, by decide, by
    intro x hx
    have hx2 : x ∈ ([10, 11] : List Nat) := hx
    rcases List.mem_cons.mp hx2 with rfl | hx3
    · rfl
    · rcases List.mem_singleton.mp hx3 with rfl
      rfl, by decide⟩

/-- Witness for C2_match_completeness: a one-vertex pattern embedded in a
one-vertex host; match succeeds with a non-empty result list. -/
theorem C2_match_completeness_witness :
    GraphWf ⟨[(0, mkVertex [] []), (10, mkVertex [] [])], 11⟩
      ⟨[0], [], []⟩ ∧
    GraphWf ⟨[(0, mkVertex [] []), (10, mkVertex [] [])], 11⟩
      ⟨[10], [], []⟩ ∧
    ∃ results, graphMatch
      ⟨[(0, mkVertex [] []), (10, mkVertex [] [])], 11⟩
      ⟨[0], [], []⟩ ⟨[10], [], []⟩ false (fun _ _ _ => Except.ok true) =
      Except.ok results ∧ results ≠ [] := by
  have hwfH : GraphWf ⟨[(0, mkVertex [] []), (10, mkVertex [] [])], 11⟩
      ⟨[0], [], []⟩ := by
    refine ⟨by decide, ⟨by decide, by decide, by decide⟩,
      ⟨by decide, ?_, by decide⟩, by simp only [GraphReciprocal]; decide⟩
    intro e he
    exact absurd he (List.not_mem_nil e)
  have hwfP : GraphWf ⟨[(0, mkVertex [] []), (10, mkVertex [] [])], 11⟩
      ⟨[10], [], []⟩ := by
    refine ⟨by decide, ⟨by decide, by decide, by decide⟩,
      ⟨by decide, ?_, by decide⟩, by simp only [GraphReciprocal]; decide⟩
    intro e he
    exact absurd he (List.not_mem_nil e)
  refine ⟨hwfH, hwfP, C2_match_completeness
    ⟨[(0, mkVertex [] []), (10, mkVertex [] [])], 11⟩
    ⟨[0], [], []⟩ ⟨[10], [], []⟩ (fun _ _ _ => Except.ok true)
    (fun _ => 0) hwfH hwfP (Or.inl (by decide)) ?_ ?_ ?_ ?_ ?_ ?_⟩
  · intro a ha x hx
    have ha2 : a ∈ ([10] : List Nat) := ha
    have hx2 : x ∈ ([10] : List Nat) := hx
    rcases List.mem_singleton.mp ha2 with rfl
    rcases List.mem_singleton.mp hx2 with rfl
    exact Relation.ReflTransGen.refl
  · intro x hx
    have hx2 : x ∈ ([10] : List Nat) := hx
    rcases List.mem_singleton.mp hx2 with rfl
    decide
  · intro x hx y hy
    have hx2 : x ∈ ([10] : List Nat) := hx
    have hy2 : y ∈ ([10] : List Nat) := hy
    rcases List.mem_singleton.mp hx2 with rfl
    rcases List.mem_singleton.mp hy2 with rfl
    intro _
    rfl
  · intro x hx
    have hx2 : x ∈ ([10] : List Nat) := hx
    rcases List.mem_singleton.mp hx2 with rfl
    rfl
  · intro x hx y hy
    have hx2 : x ∈ ([10] : List Nat) := hx
    rcases List.mem_singleton.mp hx2 with rfl
    exact absurd hy (List.not_mem_nil y)
  · intro e he hd
    have he2 : e ∈ ([10] : List Nat) := he
    rcases List.mem_singleton.mp he2 with rfl
    exact absurd hd (by decide)

end ModelGen
